import Mathlib

/-!
# vlib (package vv): the static filesystem embedder

A shallow embedding of `src/VV/vvlib2.go`: the hex-escaping `stringWriter`,
the per-file compression decision (`writeCompressedFileInfo`, `writeFileInfo`
and the visit callback of `findAndWriteFiles`), the directory walker
(`WalkFiles`, `walkFiles`, `Walk`, `walk`, `readDirNames`, `readDirPaths`) and
the read path of the generated virtual filesystem; and of the function
`StatToByte` of `src/VV/vvlib1.go`.

Conventions of the embedding.
* A Go `byte` is a `Byte` (a number below 256), a `[]byte` a `List Byte`; a Go `string` is a Lean `String`, compared
  character by character (for well-formed UTF-8 this is Go's byte-wise order).
* A Go `error` result is an `Option Error` (`none` is `nil`); a function that
  returns a value or an error returns an `Except Error`.
* A Go panic is the result `none` of a function returning `Option`, where the
  panic matters to a statement.
* `int64` counters are unbounded `Int`s: `stringWriter.N` counts bytes that
  were held in memory, far below `2^63`.
* Recursion that Go bounds only by the shape of the file system (`walkFiles`,
  `walk`) takes a fuel argument; running out of fuel is the result `none`.
-/

namespace VV

/-! ## Errors -/

/-- The error values the program distinguishes by identity, and all others. -/
inductive Error where
  /-- The sentinel `filepath.SkipDir`. -/
  | SkipDir
  /-- The package variable `errCompressedNotSmaller`. -/
  | errCompressedNotSmaller
  /-- The sentinel `io.EOF`. -/
  | EOF
  /-- The sentinel `os.ErrNotExist`. -/
  | ErrNotExist
  /-- Any other error, with its text. -/
  | other (msg : String)
  /-- The error `&os.PathError{Op: op, Path: path, Err: err}`. -/
  | PathError (op : String) (path : String) (err : Error)
  deriving DecidableEq, Repr

/-! ## Bytes -/

/-- A Go `byte`. -/
abbrev Byte := Fin 256

/-- The byte of an ASCII character, as in the Go conversion `byte(c)`. -/
def byteOf (c : Char) : Byte := Fin.ofNat c.toNat

/-! ## Encoder: `stringWriter` -/

/-- An `io.Writer` over a state `ω`: one `Write` call gives the new state and
the error it reports. -/
structure Writer (ω : Type) where
  write : ω → List Byte → ω × Option Error

/-- The writer `*bytes.Buffer`: it appends and its error is always `nil`. -/
def bytesBuffer : Writer (List Byte) where
  write := fun buf p => (buf ++ p, none)

/-- The struct `stringWriter`: the embedded `io.Writer` (its state) and the
total `N` of bytes written. -/
structure stringWriter (ω : Type) where
  w : ω
  N : Int

/-- The constant `hex = "0123456789abcdef"` of `stringWriter.Write`. -/
def hex : String := "0123456789abcdef"

/-- The byte `hex[i]`. -/
def hexAt (i : Nat) : Byte := byteOf (hex.data.getD i '0')

/-- The four bytes `buf` holds when `stringWriter.Write` handles the byte `b`:
backslash, `x`, `hex[b/16]`, `hex[b%16]`. -/
def escapeByte (b : Byte) : List Byte :=
  [byteOf '\\', byteOf 'x', hexAt (b.val / 16), hexAt (b.val % 16)]

/-- The loop `for _, b := range p` of `stringWriter.Write`, from the running
count `n`: each round writes `buf` to the underlying writer, returns `n` and
the error at once when that write fails, and otherwise counts the byte in `n`
and in `sw.N`. -/
def stringWriter.writeLoop {ω : Type} (W : Writer ω) :
    List Byte → Int → stringWriter ω → Int × Option Error × stringWriter ω
  | [], n, sw => (n, none, sw)
  | b :: rest, n, sw =>
    match W.write sw.w (escapeByte b) with
    | (w1, some e) => (n, some e, { sw with w := w1 })
    | (w1, none) => stringWriter.writeLoop W rest (n + 1) { w := w1, N := sw.N + 1 }

/-- The method `(sw *stringWriter) Write(p []byte) (n int, err error)`. -/
def stringWriter.Write {ω : Type} (W : Writer ω) (sw : stringWriter ω) (p : List Byte) :
    Int × Option Error × stringWriter ω :=
  stringWriter.writeLoop W p 0 sw

/-- The text `stringWriter` emits for a byte sequence: the escapes of its
bytes, in order. -/
def escape (p : List Byte) : List Byte := p.flatMap escapeByte

/-! ## Reading an interpreted string literal back -/

/-- The value of a hexadecimal digit, as the Go scanner reads it. -/
def hexVal (c : Byte) : Option Nat :=
  if byteOf '0' ≤ c ∧ c ≤ byteOf '9' then some (c.val - 48)
  else if byteOf 'a' ≤ c ∧ c ≤ byteOf 'f' then some (c.val - 87)
  else if byteOf 'A' ≤ c ∧ c ≤ byteOf 'F' then some (c.val - 55)
  else none

/-- The bytes denoted by the body of a Go interpreted string literal, for the
bodies this program can emit: a group backslash, `x`, two hex digits denotes
one byte; any other backslash, a double quote and a newline are not part of
such a body; every other byte denotes itself. -/
def goUnquote : List Byte → Option (List Byte)
  | [] => some []
  | c :: rest =>
    if c = byteOf '\\' then
      match rest with
      | x :: h :: l :: rest2 =>
        if x = byteOf 'x' then
          match hexVal h, hexVal l, goUnquote rest2 with
          | some hv, some lv, some r => some (Fin.ofNat (hv * 16 + lv) :: r)
          | _, _, _ => none
        else none
      | _ => none
    else if c = byteOf '"' ∨ c = byteOf '\n' then none
    else (goUnquote rest).map (c :: ·)

/-- The lowercase hexadecimal digit of a value below 16, as a character. -/
def lowerHexDigit (d : Nat) : Char :=
  if d < 10 then Char.ofNat ('0'.toNat + d) else Char.ofNat ('a'.toNat + (d - 10))

/-- The state reached from `sw` by a sequence of `Write` calls. -/
def stringWriter.writes {ω : Type} (W : Writer ω) (sw : stringWriter ω)
    (ps : List (List Byte)) : stringWriter ω :=
  ps.foldl (fun s p => (stringWriter.Write W s p).2.2) sw

/-! ## Strings, paths and sorting -/

/-- Go's string order `a <= b` on sequences of characters: lexicographic,
a proper prefix first. -/
def leChars : List Char → List Char → Bool
  | [], _ => true
  | _ :: _, [] => false
  | a :: as, b :: bs =>
    if a.toNat < b.toNat then true
    else if b.toNat < a.toNat then false
    else leChars as bs

/-- Go's `a <= b` on strings. -/
def strLE (a b : String) : Prop := leChars a.data b.data = true

instance : DecidableRel strLE := fun a b => inferInstanceAs (Decidable (leChars a.data b.data = true))

/-- Go's `a < b` on strings. -/
def strLT (a b : String) : Prop := strLE a b ∧ a ≠ b

instance : DecidableRel strLT := fun a b => inferInstanceAs (Decidable (strLE a b ∧ a ≠ b))

/-- The library call `sort.Strings`: the ascending rearrangement of the slice.
Equal strings cannot be told apart, so every sorting algorithm gives this
list. -/
def sortStrings (l : List String) : List String := l.insertionSort strLE

/-- The pieces of a path between its slashes (empty pieces kept). -/
def splitSlash : List Char → List (List Char)
  | [] => [[]]
  | c :: cs =>
    if c = '/' then [] :: splitSlash cs
    else
      match splitSlash cs with
      | [] => [[c]]
      | x :: xs => (c :: x) :: xs

/-- One element of a path handled by `path.Clean`, on the stack `out` of the
elements kept so far (last one first): an empty element and `.` are dropped,
`..` removes the last kept element when there is one that is not itself `..`,
is dropped at the root and is kept otherwise; any other element is kept. -/
def cleanStep (rooted : Bool) (out : List (List Char)) (elem : List Char) : List (List Char) :=
  if elem = [] ∨ elem = ['.'] then out
  else if elem = ['.', '.'] then
    match out with
    | top :: below => if top = ['.', '.'] then elem :: out else below
    | [] => if rooted then out else [elem]
  else elem :: out

/-- The library function `path.Clean`: the shortest path equivalent to its
argument by purely lexical processing. -/
def pathClean (path : String) : String :=
  if path.data = [] then "."
  else
    let rooted := path.data.head? = some '/'
    let out := ((splitSlash path.data).foldl (cleanStep rooted) []).reverse
    let body := List.intercalate ['/'] out
    if rooted then String.mk ('/' :: body)
    else if body = [] then "." else String.mk body

/-- The library function `path.Join` on two elements: the non-empty elements
joined by a slash and cleaned; the empty string when both are empty. -/
def pathJoin (dir name : String) : String :=
  if dir.data = [] ∧ name.data = [] then ""
  else if dir.data = [] then pathClean name
  else if name.data = [] then pathClean dir
  else pathClean (String.mk (dir.data ++ '/' :: name.data))

/-- A path without its trailing slashes. -/
def dropTrailingSlashes (p : List Char) : List Char :=
  (p.reverse.dropWhile (· = '/')).reverse

/-- The library function `path.Base`: the last element of the path. -/
def pathBase (path : String) : String :=
  if path.data = [] then "."
  else
    match dropTrailingSlashes path.data with
    | [] => "/"
    | p => String.mk ((splitSlash p).getLastD [])

/-! ## The source file system (`http.FileSystem`) -/

/-- What the program reads of an `os.FileInfo`: `Name()`, `Size()`,
`ModTime()` (an instant, as a number) and `IsDir()`. -/
structure FileInfo where
  name : String
  size : Int
  modTime : Int
  isDir : Bool
  deriving DecidableEq, Repr

/-- The `io.ReadSeeker` side of an open file: its content, the read position,
and the errors its `Read` and `Seek` report, when they fail. -/
structure ReadSeeker where
  data : List Byte
  pos : Nat
  readErr : Option Error
  seekErr : Option Error
  deriving DecidableEq, Repr

/-- Reading `r` until `io.EOF`, as `io.Copy` does: the bytes from the read
position on, or the error of `Read`. -/
def ReadSeeker.readToEnd (r : ReadSeeker) : Except Error (List Byte × ReadSeeker) :=
  match r.readErr with
  | some e => .error e
  | none => .ok (r.data.drop r.pos, { r with pos := max r.pos r.data.length })

/-- The call `r.Seek(0, io.SeekStart)`. -/
def ReadSeeker.seekStart (r : ReadSeeker) : Except Error ReadSeeker :=
  match r.seekErr with
  | some e => .error e
  | none => .ok { r with pos := 0 }

/-- An open `http.File`: the result of its `Stat()`, the result of its
`Readdir(0)`, and its `io.ReadSeeker` side. `Close` has no effect the program
observes. -/
structure File where
  stat : Except Error FileInfo
  readdir : Except Error (List FileInfo)
  rs : ReadSeeker

/-- An `http.FileSystem`: the result of `Open(name)`. -/
abbrev FileSystem := String → Except Error File

/-- The function `openStat`: `Open` and `Stat`, or the first error. -/
def openStat (fs : FileSystem) (name : String) : Except Error (File × FileInfo) :=
  match fs name with
  | .error e => .error e
  | .ok f =>
    match f.stat with
    | .error e => .error e
    | .ok fi => .ok (f, fi)

/-- The function `ReadDir`: the entries of the directory in directory order. -/
def ReadDir (fs : FileSystem) (name : String) : Except Error (List FileInfo) :=
  match fs name with
  | .error e => .error e
  | .ok f => f.readdir

/-- The function `Stat`. -/
def Stat (fs : FileSystem) (name : String) : Except Error FileInfo :=
  match fs name with
  | .error e => .error e
  | .ok f => f.stat

/-- The function `readDirNames`: the sorted names of the entries. -/
def readDirNames (fs : FileSystem) (dirname : String) : Except Error (List String) :=
  match ReadDir fs dirname with
  | .error e => .error e
  | .ok fis => .ok (sortStrings (fis.map (·.name)))

/-- The function `readDirPaths`: the sorted paths `Join(dirname, name)` of
the entries. -/
def readDirPaths (fs : FileSystem) (dirname : String) : Except Error (List String) :=
  match ReadDir fs dirname with
  | .error e => .error e
  | .ok fis => .ok (sortStrings (fis.map (fun fi => pathJoin dirname fi.name)))

/-! ## The generator: per-file blocks -/

/-- The struct `fileInfo`. -/
structure fileInfo where
  Path : String
  Name : String
  ModTime : Int
  UncompressedSize : Int
  deriving DecidableEq, Repr

/-- The struct `dirInfo`. -/
structure dirInfo where
  Path : String
  Name : String
  ModTime : Int
  Entries : List String
  deriving DecidableEq, Repr

/-- The struct `toc`. -/
structure toc where
  dirs : List dirInfo
  HasCompressedFile : Bool
  HasFile : Bool
  deriving DecidableEq, Repr

/-- The text that `t.ExecuteTemplate` renders for the named templates of the
package variable `t` (the rendering is done by `text/template`, `strconv.Quote`
and the methods of `time.Time`, none of them part of this program). -/
structure Templates where
  CompressedFileInfoBefore : fileInfo → List Byte
  CompressedFileInfoAfter : fileInfo → List Byte
  FileInfoBefore : fileInfo → List Byte
  FileInfoAfter : fileInfo → List Byte
  DirInfo : dirInfo → List Byte

/-- The function `writeCompressedFileInfo`. `gz` is the whole output of the
gzip writer for a given input; the model hands it to the `stringWriter` when
the gzip writer is closed. The result is the writer, the reader and the
error returned. -/
def writeCompressedFileInfo {ω : Type} (T : Templates) (gz : List Byte → List Byte)
    (W : Writer ω) (w : ω) (file : fileInfo) (r : ReadSeeker) : ω × ReadSeeker × Option Error :=
  match W.write w (T.CompressedFileInfoBefore file) with
  | (w1, some e) => (w1, r, some e)
  | (w1, none) =>
    let sw : stringWriter ω := { w := w1, N := 0 }
    match r.readToEnd with
    | .error e => (w1, r, some e)
    | .ok (content, r1) =>
      match stringWriter.Write W sw (gz content) with
      | (_, some e, sw1) => (sw1.w, r1, some e)
      | (_, none, sw1) =>
        if sw1.N ≥ file.UncompressedSize then (sw1.w, r1, some Error.errCompressedNotSmaller)
        else
          match W.write sw1.w (T.CompressedFileInfoAfter file) with
          | (w2, err) => (w2, r1, err)

/-- The function `writeFileInfo`. -/
def writeFileInfo {ω : Type} (T : Templates) (W : Writer ω) (w : ω) (file : fileInfo)
    (r : ReadSeeker) : ω × ReadSeeker × Option Error :=
  match W.write w (T.FileInfoBefore file) with
  | (w1, some e) => (w1, r, some e)
  | (w1, none) =>
    let sw : stringWriter ω := { w := w1, N := 0 }
    match r.readToEnd with
    | .error e => (w1, r, some e)
    | .ok (content, r1) =>
      match stringWriter.Write W sw content with
      | (_, some e, sw1) => (sw1.w, r1, some e)
      | (_, none, sw1) =>
        match W.write sw1.w (T.FileInfoAfter file) with
        | (w2, err) => (w2, r1, err)

/-- What the visit callback of `findAndWriteFiles` updates: the output buffer
`buf` and the table of contents. -/
structure GenState where
  buf : List Byte
  toc : toc
  deriving DecidableEq, Repr

/-- The type `WalkFilesFunc`, with the state the callback updates made
explicit. A `nil` info or reader is `none`. -/
abbrev WalkFilesFunc (σ : Type) :=
  σ → String → Option FileInfo → Option ReadSeeker → Option Error → σ × Option Error

/-- The closure `walkFn` of `findAndWriteFiles`. Using a `nil` info or reader
panics in Go; the model reports it as an error. -/
def findAndWriteFiles.walkFn (T : Templates) (gz : List Byte → List Byte) (fs : FileSystem) :
    WalkFilesFunc GenState := fun s path fi? r? err =>
  match err with
  | some e => (s, some e)
  | none =>
    match fi?, r? with
    | some fi, some r =>
      if fi.isDir = false then
        let file : fileInfo :=
          { Path := path, Name := pathBase path, ModTime := fi.modTime, UncompressedSize := fi.size }
        let marker := s.buf.length
        match writeCompressedFileInfo T gz bytesBuffer s.buf file r with
        | (buf1, _, none) =>
          ({ buf := buf1, toc := { s.toc with HasCompressedFile := true } }, none)
        | (buf1, r1, some Error.errCompressedNotSmaller) =>
          match r1.seekStart with
          | .error e => ({ s with buf := buf1 }, some e)
          | .ok r2 =>
            let buf2 := buf1.take marker
            match writeFileInfo T bytesBuffer buf2 file r2 with
            | (buf3, _, some e) => ({ s with buf := buf3 }, some e)
            | (buf3, _, none) => ({ buf := buf3, toc := { s.toc with HasFile := true } }, none)
        | (buf1, _, some e) => ({ s with buf := buf1 }, some e)
      else
        match readDirPaths fs path with
        | .error e => (s, some e)
        | .ok entries =>
          let dir : dirInfo :=
            { Path := path, Name := pathBase path, ModTime := fi.modTime, Entries := entries }
          let toc1 := { s.toc with dirs := s.toc.dirs ++ [dir] }
          match bytesBuffer.write s.buf (T.DirInfo dir) with
          | (buf1, some e) => ({ buf := buf1, toc := toc1 }, some e)
          | (buf1, none) => ({ buf := buf1, toc := toc1 }, none)
    | _, _ => (s, some (Error.other "nil pointer dereference"))

/-! ## The walker -/

/-- The result of a walk: the state the callback built and the error returned;
`none` when the fuel ran out. -/
abbrev WalkResult (σ : Type) := Option (σ × Option Error)

/-- The loop `for _, name := range names` of `walkFiles`, with the recursive
call `walkFiles(fs, filename, fileInfo, file, walkFn)` given as `recurse`. -/
def walkFilesLoop {σ : Type} (fs : FileSystem) (walkFn : WalkFilesFunc σ)
    (recurse : String → FileInfo → File → σ → WalkResult σ) (path : String) :
    List String → σ → WalkResult σ
  | [], s => some (s, none)
  | name :: rest, s =>
    let filename := pathJoin path name
    match openStat fs filename with
    | .error e =>
      match walkFn s filename none none (some e) with
      | (s1, some e1) =>
        if e1 ≠ Error.SkipDir then some (s1, some e1)
        else walkFilesLoop fs walkFn recurse path rest s1
      | (s1, none) => walkFilesLoop fs walkFn recurse path rest s1
    | .ok (file, fileInfo) =>
      match recurse filename fileInfo file s with
      | none => none
      | some (s1, some e1) =>
        if fileInfo.isDir = false ∨ e1 ≠ Error.SkipDir then some (s1, some e1)
        else walkFilesLoop fs walkFn recurse path rest s1
      | some (s1, none) => walkFilesLoop fs walkFn recurse path rest s1

/-- The function `walkFiles`; the first argument bounds the depth of the
recursion. -/
def walkFiles {σ : Type} (fs : FileSystem) (walkFn : WalkFilesFunc σ) :
    Nat → String → FileInfo → File → σ → WalkResult σ
  | 0, _, _, _, _ => none
  | fuel + 1, path, info, file, s =>
    match walkFn s path (some info) (some file.rs) none with
    | (s1, some e) =>
      if info.isDir = true ∧ e = Error.SkipDir then some (s1, none) else some (s1, some e)
    | (s1, none) =>
      if info.isDir = false then some (s1, none)
      else
        match readDirNames fs path with
        | .error e => some (walkFn s1 path (some info) none (some e))
        | .ok names => walkFilesLoop fs walkFn (walkFiles fs walkFn fuel) path names s1

/-- The function `WalkFiles`. -/
def WalkFiles {σ : Type} (fs : FileSystem) (root : String) (walkFn : WalkFilesFunc σ)
    (fuel : Nat) (s : σ) : WalkResult σ :=
  match openStat fs root with
  | .error e => some (walkFn s root none none (some e))
  | .ok (file, info) => walkFiles fs walkFn fuel root info file s

/-- The type `filepath.WalkFunc`, with the state the callback updates made
explicit. -/
abbrev WalkFunc (σ : Type) := σ → String → Option FileInfo → Option Error → σ × Option Error

/-- The loop `for _, name := range names` of `walk`, with the recursive call
given as `recurse`. When `Stat` fails its `fileInfo` result is `nil`. -/
def walkLoop {σ : Type} (fs : FileSystem) (walkFn : WalkFunc σ)
    (recurse : String → FileInfo → σ → WalkResult σ) (path : String) :
    List String → σ → WalkResult σ
  | [], s => some (s, none)
  | name :: rest, s =>
    let filename := pathJoin path name
    match Stat fs filename with
    | .error e =>
      match walkFn s filename none (some e) with
      | (s1, some e1) =>
        if e1 ≠ Error.SkipDir then some (s1, some e1)
        else walkLoop fs walkFn recurse path rest s1
      | (s1, none) => walkLoop fs walkFn recurse path rest s1
    | .ok fileInfo =>
      match recurse filename fileInfo s with
      | none => none
      | some (s1, some e1) =>
        if fileInfo.isDir = false ∨ e1 ≠ Error.SkipDir then some (s1, some e1)
        else walkLoop fs walkFn recurse path rest s1
      | some (s1, none) => walkLoop fs walkFn recurse path rest s1

/-- The function `walk`; the first argument bounds the depth of the
recursion. -/
def walk {σ : Type} (fs : FileSystem) (walkFn : WalkFunc σ) :
    Nat → String → FileInfo → σ → WalkResult σ
  | 0, _, _, _ => none
  | fuel + 1, path, info, s =>
    match walkFn s path (some info) none with
    | (s1, some e) =>
      if info.isDir = true ∧ e = Error.SkipDir then some (s1, none) else some (s1, some e)
    | (s1, none) =>
      if info.isDir = false then some (s1, none)
      else
        match readDirNames fs path with
        | .error e => some (walkFn s1 path (some info) (some e))
        | .ok names => walkLoop fs walkFn (walk fs walkFn fuel) path names s1

/-- The function `Walk`. -/
def Walk {σ : Type} (fs : FileSystem) (root : String) (walkFn : WalkFunc σ)
    (fuel : Nat) (s : σ) : WalkResult σ :=
  match Stat fs root with
  | .error e => some (walkFn s root none (some e))
  | .ok info => walk fs walkFn fuel root info s

/-- The function `findAndWriteFiles`: the walk from `/` with its callback. -/
def findAndWriteFiles (T : Templates) (gz : List Byte → List Byte) (fs : FileSystem)
    (fuel : Nat) (s : GenState) : WalkResult GenState :=
  WalkFiles fs "/" (findAndWriteFiles.walkFn T gz fs) fuel s

/-! ## Finite source trees -/

/-- A finite source tree: a file with its name, modification time and
content; a directory with its name, modification time and its entries in the
order the directory lists them; or an entry that its directory lists but that
cannot be opened (`atStat = false`: `Open` fails with `e`) or examined
(`atStat = true`: `Open` succeeds and `Stat` fails with `e`). -/
inductive Tree where
  | file (name : String) (modTime : Int) (content : List Byte)
  | dir (name : String) (modTime : Int) (children : List Tree)
  | bad (name : String) (atStat : Bool) (e : Error)

/-- The name of the root entry of a tree. -/
def Tree.name : Tree → String
  | .file n _ _ => n
  | .dir n _ _ => n
  | .bad n _ _ => n

/-- The `os.FileInfo` of the root entry of a tree. -/
def Tree.info : Tree → FileInfo
  | .file n m c => { name := n, size := c.length, modTime := m, isDir := false }
  | .dir n m _ => { name := n, size := 0, modTime := m, isDir := true }
  | .bad n _ _ => { name := n, size := 0, modTime := 0, isDir := false }

/-- The reader side of the handle of a tree's root entry: a file reads its
content; reading or seeking anything else fails. -/
def Tree.reader : Tree → ReadSeeker
  | .file _ _ c => { data := c, pos := 0, readErr := none, seekErr := none }
  | _ =>
    { data := [], pos := 0, readErr := some (Error.other "is a directory"),
      seekErr := some (Error.other "is a directory") }

/-- The result of `Stat()` on the handle of a tree's root entry. -/
def Tree.stat : Tree → Except Error FileInfo
  | .bad _ _ e => .error e
  | t => .ok t.info

/-- The result of `Readdir(0)` on the handle of a tree's root entry: a
directory lists the infos of its children, in its own order. -/
def Tree.readdir : Tree → Except Error (List FileInfo)
  | .dir _ _ cs => .ok (cs.map Tree.info)
  | .file _ _ _ => .error (Error.other "not a directory")
  | .bad _ _ e => .error e

/-- The handle of a tree's root entry. -/
def Tree.handle (t : Tree) : File :=
  { stat := t.stat, readdir := t.readdir, rs := t.reader }

/-- The result of opening the root entry of a tree. -/
def Tree.openFile : Tree → Except Error File
  | .bad _ false e => .error e
  | t => .ok t.handle

/-- Whether `openStat` fails on the entry. -/
def Tree.isBad : Tree → Bool
  | .bad _ _ _ => true
  | _ => false

mutual
/-- The entries of a tree placed at `path`, each with its path, in depth-first
order and directory order. -/
def Tree.nodes (path : String) : Tree → List (String × Tree)
  | .file n m c => [(path, .file n m c)]
  | .dir n m cs => (path, .dir n m cs) :: Tree.nodesList path cs
  | .bad n a e => [(path, .bad n a e)]
/-- The entries below the directory `path` whose children are `cs`. -/
def Tree.nodesList (path : String) : List Tree → List (String × Tree)
  | [] => []
  | c :: cs => Tree.nodes (pathJoin path c.name) c ++ Tree.nodesList path cs
end

/-- The file system that holds the tree `t` at the path `root`: opening a path
of the tree gives that entry, opening any other path fails. -/
def treeFS (root : String) (t : Tree) : FileSystem := fun p =>
  match (Tree.nodes root t).lookup p with
  | some n => n.openFile
  | none => .error Error.ErrNotExist

mutual
/-- The depth of a tree. -/
def Tree.depth : Tree → Nat
  | .dir _ _ cs => Tree.depthList cs + 1
  | _ => 1
/-- The largest depth among the trees of a list. -/
def Tree.depthList : List Tree → Nat
  | [] => 0
  | c :: cs => max (Tree.depth c) (Tree.depthList cs)
end

/-- The order of `sort.Strings` on the names of entries. -/
def Tree.nameLE (a b : Tree) : Prop := strLE a.name b.name

instance : DecidableRel Tree.nameLE := fun a b => inferInstanceAs (Decidable (strLE a.name b.name))

mutual
/-- The tree with the entries of every directory put in ascending order of
their names. -/
def Tree.sorted : Tree → Tree
  | .dir n m cs => .dir n m (Tree.sortedList cs)
  | .file n m c => .file n m c
  | .bad n a e => .bad n a e
/-- The children of a directory, each sorted within, in ascending order of
their names. -/
def Tree.sortedList : List Tree → List Tree
  | [] => []
  | c :: cs => List.orderedInsert Tree.nameLE (Tree.sorted c) (Tree.sortedList cs)
end

mutual
/-- The walk of `walkFiles` read on the tree itself: the callback is called on
the entry at `path`, then, for a directory, on its children in the order the
tree holds them. An entry that cannot be opened is handed to the callback
with its error. -/
def walkTree {σ : Type} (walkFn : WalkFilesFunc σ) (path : String) : Tree → σ → σ × Option Error
  | .file n m c, s =>
    walkFn s path (some (Tree.info (.file n m c))) (some (Tree.reader (.file n m c))) none
  | .bad _ _ e, s => walkFn s path none none (some e)
  | .dir n m cs, s =>
    match walkFn s path (some (Tree.info (.dir n m cs))) (some (Tree.reader (.dir n m cs))) none with
    | (s1, some e) => if e = Error.SkipDir then (s1, none) else (s1, some e)
    | (s1, none) => walkTreeList walkFn path cs s1
/-- The loop of `walkFiles` over the children `cs` of the directory `path`,
read on the tree. -/
def walkTreeList {σ : Type} (walkFn : WalkFilesFunc σ) (path : String) :
    List Tree → σ → σ × Option Error
  | [], s => (s, none)
  | c :: cs, s =>
    match walkTree walkFn (pathJoin path c.name) c s with
    | (s1, some e1) =>
      if (c.isBad = false ∧ c.info.isDir = false) ∨ e1 ≠ Error.SkipDir then (s1, some e1)
      else walkTreeList walkFn path cs s1
    | (s1, none) => walkTreeList walkFn path cs s1
end

/-- The paths of `Tree.nodes`: the depth-first pre-order of the tree, the
children of a directory taken in the order it holds them. -/
def Tree.paths (path : String) (t : Tree) : List String := (Tree.nodes path t).map (·.1)

/-- The callback that records the path it is called with and returns `nil`. -/
def recordPath : WalkFilesFunc (List String) := fun s path _ _ _ => (s ++ [path], none)

/-- A small tree: the directories `/` and `/a`, the files `/a.txt` and
`/a/b`. -/
def sampleTree : Tree :=
  .dir "/" 0 [.file "a.txt" 0 [104, 105], .dir "a" 0 [.file "b" 0 []]]

/-- The file system `fs` holds the tree `t` at `path`: opening the path of
any entry of the tree gives that entry. -/
def Resolves (fs : FileSystem) (path : String) (t : Tree) : Prop :=
  ∀ q n, (q, n) ∈ Tree.nodes path t → fs q = n.openFile

/-- One call of the callback of a walk on the entry at `path`, as `walkFiles`
makes it: with the info and the reader that `openStat` gives, and no error;
or with the error of `openStat`. The result is the state the callback
leaves. -/
def visit {σ : Type} (fs : FileSystem) (walkFn : WalkFilesFunc σ) (s : σ) (path : String) : σ :=
  match openStat fs path with
  | .ok (file, info) => (walkFn s path (some info) (some file.rs) none).1
  | .error e => (walkFn s path none none (some e)).1

/-- Every entry of the tree can be opened and examined. -/
def Tree.allGood (path : String) (t : Tree) : Prop :=
  ∀ x ∈ Tree.nodes path t, x.2.isBad = false

instance (path : String) (t : Tree) : Decidable (Tree.allGood path t) :=
  inferInstanceAs (Decidable (∀ x ∈ Tree.nodes path t, x.2.isBad = false))

/-! ## The generated file system: reading files -/

/-- The result of one `Read(p)` call on a handle: the count `n`, the error,
the buffer `p` after the call and the handle after the call; `none` when the
call panics. -/
abbrev ReadResult (H : Type) := Option (Nat × Option Error × List Byte × H)

/-- The result of reading a handle to its end: the data and the error that
`ioutil.ReadAll` returns, a panic, or the end of the fuel. -/
inductive ReadAllResult where
  | done (data : List Byte) (err : Option Error)
  | panicked
  | outOfFuel
  deriving DecidableEq, Repr

/-- The library function `ioutil.ReadAll`: it calls `Read` with one non-empty
buffer after the other and collects the bytes `p[:n]` until a call returns an
error; `io.EOF` is returned as `nil`. The lengths of the buffers, which the
library chooses, are the list `sizes`; the read is out of fuel when the list
ends first. -/
def readAll {H : Type} (read : H → List Byte → ReadResult H) :
    List Nat → H → List Byte → ReadAllResult
  | [], _, _ => .outOfFuel
  | k :: ks, h, acc =>
    match read h (List.replicate k 0) with
    | none => .panicked
    | some (n, some e, p, _) =>
      if e = Error.EOF then .done (acc ++ p.take n) none else .done (acc ++ p.take n) (some e)
    | some (n, none, p, h1) => readAll read ks h1 (acc ++ p.take n)

/-- The library type `bytes.Reader`: the slice `s` and the read index `i`. -/
structure bytesReader where
  s : List Byte
  i : Nat
  deriving DecidableEq, Repr

/-- The built-in `copy(dst, src)`: the destination after the copy and the
number of bytes copied. -/
def copyBytes (dst src : List Byte) : List Byte × Nat :=
  (src.take dst.length ++ dst.drop src.length, min dst.length src.length)

/-- The library method `(*bytes.Reader).Read`: `io.EOF` at the end of the
slice, and otherwise a copy from the read index on. -/
def bytesReader.Read (r : bytesReader) (p : List Byte) : ReadResult bytesReader :=
  if r.i ≥ r.s.length then some (0, some Error.EOF, p, r)
  else
    let c := copyBytes p (r.s.drop r.i)
    some (c.2, none, c.1, { r with i := r.i + c.2 })

/-- The generated struct `vfsgen۰FileInfo`. -/
structure vfsgenFileInfo where
  name : String
  modTime : Int
  content : List Byte
  deriving DecidableEq, Repr

/-- The generated struct `vfsgen۰File`: the file info and the embedded
`*bytes.Reader`. -/
structure vfsgenFile where
  info : vfsgenFileInfo
  Reader : bytesReader
  deriving DecidableEq, Repr

/-- The case `*vfsgen۰FileInfo` of the generated `Open`. -/
def vfsgenFileInfo.openFile (f : vfsgenFileInfo) : vfsgenFile :=
  { info := f, Reader := { s := f.content, i := 0 } }

/-- The method `Read` of `vfsgen۰File`, promoted from the embedded
`*bytes.Reader`. -/
def vfsgenFile.Read (f : vfsgenFile) (p : List Byte) : ReadResult vfsgenFile :=
  match f.Reader.Read p with
  | none => none
  | some (n, err, p1, r1) => some (n, err, p1, { f with Reader := r1 })

/-- The generated struct `vfsgen۰CompressedFileInfo`. -/
structure vfsgenCompressedFileInfo where
  name : String
  modTime : Int
  compressedContent : List Byte
  uncompressedSize : Int
  deriving DecidableEq, Repr

/-- The generated struct `vfsgen۰CompressedFile`. The `*gzip.Reader` field
`gr` is the decompressed bytes it has not delivered yet. -/
structure vfsgenCompressedFile where
  info : vfsgenCompressedFileInfo
  gr : List Byte
  grPos : Int
  seekPos : Int
  deriving DecidableEq, Repr

/-- The case `*vfsgen۰CompressedFileInfo` of the generated `Open`, with the
decompressor `gunzip` of the payload; `gzip.NewReader` fails, and `Open`
panics, when the payload is no gzip stream. -/
def vfsgenCompressedFileInfo.openFile (gunzip : List Byte → Option (List Byte))
    (f : vfsgenCompressedFileInfo) : Option vfsgenCompressedFile :=
  match gunzip f.compressedContent with
  | none => none
  | some c => some { info := f, gr := c, grPos := 0, seekPos := 0 }

/-- The loop `for i=0; i < f.uncompressedSize; i++ {p[i] = bf[i]}` of the
`Read` of `vfsgen۰CompressedFile`, with `k` rounds left from the index `i`:
an index outside `p` or outside `bf` panics. The result is `p` after the
loop. -/
def vfsgenCompressedFile.copyLoop (bf : List Byte) : Nat → Nat → List Byte → Option (List Byte)
  | 0, _, p => some p
  | k + 1, i, p =>
    if i < p.length then
      match bf.get? i with
      | some b => vfsgenCompressedFile.copyLoop bf k (i + 1) (p.set i b)
      | none => none
    else none

/-- The method `Read` of `vfsgen۰CompressedFile`: `ioutil.ReadAll(f.gr)` gives
all the bytes the gzip reader has left, with a `nil` error, and leaves it
empty; the loop copies `uncompressedSize` of them into `p`; the call returns
the final index and the error of `ReadAll`. -/
def vfsgenCompressedFile.Read (f : vfsgenCompressedFile) (p : List Byte) :
    ReadResult vfsgenCompressedFile :=
  let bf := f.gr
  match vfsgenCompressedFile.copyLoop bf f.info.uncompressedSize.toNat 0 p with
  | none => none
  | some p1 => some (f.info.uncompressedSize.toNat, none, p1, { f with gr := [] })

/-! ## Paths as sequences of names -/

mutual
/-- The entries of a tree, each as the sequence of names that leads to it from
the root, after the names `pre`; in the order of `Tree.nodes`. -/
def Tree.nameSeqs (pre : List String) : Tree → List (List String)
  | .dir _ _ cs => pre :: Tree.nameSeqsList pre cs
  | .file _ _ _ => [pre]
  | .bad _ _ _ => [pre]
/-- The sequences of names of the entries below a directory. -/
def Tree.nameSeqsList (pre : List String) : List Tree → List (List String)
  | [] => []
  | c :: cs => Tree.nameSeqs (pre ++ [c.name]) c ++ Tree.nameSeqsList pre cs
end

/-- The path that a sequence of names leads to from `root`: `path.Join`
applied name after name. -/
def joinAll (root : String) (names : List String) : String := names.foldl pathJoin root

/-- The order of sequences of names: name by name from the root, each name
by Go's order of strings; a sequence comes before every longer one it
starts. -/
def ltSeq : List String → List String → Bool
  | _, [] => false
  | [], _ :: _ => true
  | a :: as, b :: bs => if strLT a b then true else if a = b then ltSeq as bs else false

/-- The callback of `Walk` that records the path it is called with and returns
`nil`. -/
def recordPathW : WalkFunc (List String) := fun s path _ _ => (s ++ [path], none)

/-- A `filepath.WalkFunc` used as a `WalkFilesFunc`: it ignores the reader. -/
def WalkFunc.lift {σ : Type} (f : WalkFunc σ) : WalkFilesFunc σ := fun s p i _ e => f s p i e

/-- A small tree with an entry that cannot be opened: the directory `/`
lists `a`, whose `Open` fails, and the file `b`. -/
def brokenTree : Tree :=
  .dir "/" 0 [.bad "a" false (Error.other "permission denied"), .file "b" 0 []]

/-- The callback that records the path it is called with and returns the
error it is handed, as the callback of `findAndWriteFiles` does. -/
def recordPropagate : WalkFilesFunc (List String) := fun s path _ _ err => (s ++ [path], err)

/-- The callback that records the path it is called with and answers every
error with `filepath.SkipDir`. -/
def recordSkip : WalkFilesFunc (List String) := fun s path _ _ err =>
  (s ++ [path], err.map (fun _ => Error.SkipDir))

/-- The `dirInfo` that the callback of `findAndWriteFiles` records for a
directory of the source tree placed at `path`: its entries are the sorted
paths `Join(path, name)` of the names the directory lists; nothing is
recorded for a file. -/
def Tree.dirEntry (path : String) : Tree → Option dirInfo
  | .dir _ m cs =>
    some { Path := path, Name := pathBase path, ModTime := m,
           Entries := sortStrings (cs.map (fun c => pathJoin path c.name)) }
  | _ => none

/-! ## The generated file system: nodes, handles and `Open` -/

/-- The bit `os.ModeDir` of an `os.FileMode`. -/
def ModeDir : Nat := 2 ^ 31

/-- The three write-permission bits of an `os.FileMode` (octal 0222). -/
def writeBits : Nat := 0o222

/-- The values of the methods `Name`, `Size`, `Mode`, `ModTime` and `IsDir`
of an `os.FileInfo` (`Sys` is always `nil`). -/
structure osFileInfo where
  Name : String
  Size : Int
  Mode : Nat
  ModTime : Int
  IsDir : Bool
  deriving DecidableEq, Repr

/-- The methods of `*vfsgen۰CompressedFileInfo` that make it an
`os.FileInfo`: its size is the uncompressed size, its mode is 0444. -/
def vfsgenCompressedFileInfo.fileInfo (f : vfsgenCompressedFileInfo) : osFileInfo :=
  { Name := f.name, Size := f.uncompressedSize, Mode := 0o444, ModTime := f.modTime,
    IsDir := false }

/-- The methods of `*vfsgen۰FileInfo` that make it an `os.FileInfo`: its size
is the length of the content, its mode is 0444. -/
def vfsgenFileInfo.fileInfo (f : vfsgenFileInfo) : osFileInfo :=
  { Name := f.name, Size := f.content.length, Mode := 0o444, ModTime := f.modTime,
    IsDir := false }

/-- The generated struct `vfsgen۰DirInfo`. An entry, in Go an `os.FileInfo`
that points to a node of the map, is a value of `ε`. -/
structure vfsgenDirInfo (ε : Type) where
  name : String
  modTime : Int
  entries : List ε
  deriving DecidableEq, Repr

/-- The methods of `*vfsgen۰DirInfo` that make it an `os.FileInfo`: its size
is 0, its mode is `0755 | os.ModeDir`. -/
def vfsgenDirInfo.fileInfo {ε : Type} (d : vfsgenDirInfo ε) : osFileInfo :=
  { Name := d.name, Size := 0, Mode := 0o755 ||| ModeDir, ModTime := d.modTime, IsDir := true }

/-- The generated struct `vfsgen۰Dir`: the directory info and the position
`pos` within its entries. -/
structure vfsgenDir (ε : Type) where
  info : vfsgenDirInfo ε
  pos : Int
  deriving DecidableEq, Repr

/-- A value of the map `vfsgen۰FS`: one of the three node types. An entry of
a directory points to the node declared under a key of the map, and is that
key. -/
inductive Node where
  | compressed (f : vfsgenCompressedFileInfo)
  | file (f : vfsgenFileInfo)
  | dir (d : vfsgenDirInfo String)
  deriving DecidableEq, Repr

/-- The `os.FileInfo` that a node is. -/
def Node.fileInfo : Node → osFileInfo
  | .compressed f => f.fileInfo
  | .file f => f.fileInfo
  | .dir d => d.fileInfo

/-- The generated type `vfsgen۰FS`, a map from paths to nodes. -/
abbrev vfsgenFS := String → Option Node

/-- An `http.File` that the generated `Open` returns. -/
inductive Handle where
  | compressedFile (f : vfsgenCompressedFile)
  | file (f : vfsgenFile)
  | dir (d : vfsgenDir String)
  deriving DecidableEq, Repr

/-- The generated method `(fs vfsgen۰FS) Open`. The cases of the compressed
and of the raw file exist in the generated code when the flag of the table of
contents is set (`flags`); a node without its case reaches `default`, which
panics, as does a payload that `gzip.NewReader` rejects. A panic is the
result `none`. -/
def vfsgenFS.Open (flags : toc) (gunzip : List Byte → Option (List Byte)) (fs : vfsgenFS)
    (path : String) : Option (Except Error Handle) :=
  let path := pathClean ("/" ++ path)
  match fs path with
  | none => some (.error (Error.PathError "open" path Error.ErrNotExist))
  | some (.compressed f) =>
    if flags.HasCompressedFile then
      match f.openFile gunzip with
      | none => none
      | some h => some (.ok (.compressedFile h))
    else none
  | some (.file f) =>
    if flags.HasFile then some (.ok (.file f.openFile)) else none
  | some (.dir d) => some (.ok (.dir { info := d, pos := 0 }))

/-- The node a handle was opened on. -/
def Handle.node : Handle → Node
  | .compressedFile f => .compressed f.info
  | .file f => .file f.info
  | .dir d => .dir d.info

/-- The method `Stat` of the three handles, promoted from the embedded node:
it returns the node itself, as an `os.FileInfo`, and a `nil` error. -/
def Handle.Stat (h : Handle) : Node × Option Error := (h.node, none)

/-! ## The generated file system: directories -/

/-- The constants `io.SeekStart`, `io.SeekCurrent` and `io.SeekEnd`. -/
def SeekStart : Int := 0

/-- See `SeekStart`. -/
def SeekCurrent : Int := 1

/-- See `SeekStart`. -/
def SeekEnd : Int := 2

/-- The slice expression `l[a:b]` of Go, on a slice whose capacity is its
length: it panics (`none`) unless `0 <= a <= b <= len(l)`. -/
def sliceExpr {ε : Type} (l : List ε) (a b : Int) : Option (List ε) :=
  if 0 ≤ a ∧ a ≤ b ∧ b ≤ l.length then some ((l.drop a.toNat).take (b - a).toNat) else none

/-- The method `Read` of `vfsgen۰Dir`, promoted from `*vfsgen۰DirInfo`: it
ignores the buffer and returns 0 and an error with the name of the
directory. -/
def vfsgenDir.Read {ε : Type} (d : vfsgenDir ε) (p : List Byte) : ReadResult (vfsgenDir ε) :=
  some (0, some (Error.other ("cannot Read from directory " ++ d.info.name)), p, d)

/-- The method `Seek` of `vfsgen۰Dir`: the position returned, the error and the
handle after the call. -/
def vfsgenDir.Seek {ε : Type} (d : vfsgenDir ε) (offset : Int) (whence : Int) :
    Int × Option Error × vfsgenDir ε :=
  if offset = 0 ∧ whence = SeekStart then (0, none, { d with pos := 0 })
  else (0, some (Error.other ("unsupported Seek in directory " ++ d.info.name)), d)

/-- The method `Readdir` of `vfsgen۰Dir`: the entries returned (`nil` is the
empty list), the error and the handle after the call; `none` when the slice
expression panics. -/
def vfsgenDir.Readdir {ε : Type} (d : vfsgenDir ε) (count : Int) :
    Option (List ε × Option Error × vfsgenDir ε) :=
  if d.pos ≥ d.info.entries.length ∧ count > 0 then some ([], some Error.EOF, d)
  else
    let count1 :=
      if count ≤ 0 ∨ count > d.info.entries.length - d.pos then d.info.entries.length - d.pos
      else count
    match sliceExpr d.info.entries d.pos (d.pos + count1) with
    | none => none
    | some e => some (e, none, { d with pos := d.pos + count1 })

/-- Calling `Readdir(k)` again and again, until it returns an error: the lists
it returned, in order, when the error is `io.EOF`; `none` when a call panics,
returns another error, or `fuel` calls were not enough. -/
def readdirChunks {ε : Type} (k : Int) : Nat → vfsgenDir ε → Option (List (List ε))
  | 0, _ => none
  | fuel + 1, d =>
    match d.Readdir k with
    | none => none
    | some (_, some e, _) => if e = Error.EOF then some [] else none
    | some (chunk, none, d1) => (readdirChunks k fuel d1).map (chunk :: ·)

/-- The method `Seek` of `vfsgen۰CompressedFile`: it sets `seekPos`; an
invalid `whence` panics (`none`). -/
def vfsgenCompressedFile.Seek (f : vfsgenCompressedFile) (offset : Int) (whence : Int) :
    Option (Int × Option Error × vfsgenCompressedFile) :=
  if whence = SeekStart then some (0 + offset, none, { f with seekPos := 0 + offset })
  else if whence = SeekCurrent then
    some (f.seekPos + offset, none, { f with seekPos := f.seekPos + offset })
  else if whence = SeekEnd then
    some (f.info.uncompressedSize + offset, none,
      { f with seekPos := f.info.uncompressedSize + offset })
  else none

/-! ## Options -/

/-- The struct `Options`. -/
structure Options where
  Filename : String
  PackageName : String
  BuildTags : String
  VariableName : String
  VariableComment : String
  deriving DecidableEq, Repr

/-- The method `fillMissing`, with the library function `strings.ToLower`
given as `toLower`. Each `if` works on the options as the earlier ones left
them. -/
def Options.fillMissing (toLower : String → String) (opt : Options) : Options :=
  let opt1 := if opt.PackageName = "" then { opt with PackageName := "main" } else opt
  let opt2 := if opt1.VariableName = "" then { opt1 with VariableName := "assets" } else opt1
  let opt3 :=
    if opt2.Filename = "" then
      { opt2 with Filename := toLower opt2.VariableName ++ "_vfsdata.go" }
    else opt2
  if opt3.VariableComment = "" then
    { opt3 with VariableComment :=
        opt3.VariableName ++ " statically implements the virtual filesystem provided to vfsgen." }
  else opt3

/-- The text that `t.ExecuteTemplate` renders for the templates `Header`,
`DirEntries` and `Trailer`. -/
structure OuterTemplates where
  Header : Options → List Byte
  DirEntries : List dirInfo → List Byte
  Trailer : toc → List Byte

/-- What `Generate` did: the name and the data it handed to
`ioutil.WriteFile`, when it got that far, and the error it returned. -/
structure GenerateResult where
  written : Option (String × List Byte)
  err : Option Error
  deriving DecidableEq, Repr

/-- The function `Generate`. `writeErr` is the error that `ioutil.WriteFile`
returns; `none` is the end of the fuel of the walk. -/
def Generate (toLower : String → String) (O : OuterTemplates) (T : Templates)
    (gz : List Byte → List Byte) (writeErr : Option Error) (input : FileSystem)
    (opt : Options) (fuel : Nat) : Option GenerateResult :=
  let opt1 := opt.fillMissing toLower
  let buf := O.Header opt1
  match findAndWriteFiles T gz input fuel { buf := buf, toc := ⟨[], false, false⟩ } with
  | none => none
  | some (_, some e) => some { written := none, err := some e }
  | some (s1, none) =>
    let out := s1.buf ++ O.DirEntries s1.toc.dirs ++ O.Trailer s1.toc
    some { written := some (opt1.Filename, out), err := writeErr }

/-- A small map of nodes: the directory `/` and the raw file `/a.txt`. -/
def sampleFS : vfsgenFS := fun p =>
  if p = "/" then some (.dir ⟨"/", 0, ["/a.txt"]⟩)
  else if p = "/a.txt" then some (.file ⟨"a.txt", 0, [104, 105]⟩)
  else none

/-- A directory info with five entries. -/
def fiveEntries : vfsgenDirInfo String :=
  { name := "d", modTime := 0, entries := ["/d/1", "/d/2", "/d/3", "/d/4", "/d/5"] }

/-- An opened compressed file of the four bytes 10, 20, 30, 40. -/
def sampleCompressed : vfsgenCompressedFile :=
  { info := { name := "c.bin", modTime := 0, compressedContent := [31, 139, 8],
              uncompressedSize := 4 },
    gr := [10, 20, 30, 40], grPos := 0, seekPos := 0 }

/-- The file name `Generate` writes to when the options leave it empty: the
lower-cased variable name, `assets` when that is empty too, followed by
`_vfsdata.go`; and the file name of the options otherwise. -/
def expectedFilename (toLower : String → String) (opt : Options) : String :=
  if opt.Filename = "" then
    toLower (if opt.VariableName = "" then "assets" else opt.VariableName) ++ "_vfsdata.go"
  else opt.Filename

/-! ## The generated map and the population of the directory entries -/

/-- The block that the callback of `findAndWriteFiles` emits for an entry of
the source tree placed at `path`: the Compressed block of a file whose
compressed form is shorter than its content, the Raw block of any other file,
the `DirInfo` block of a directory. Each block is rendered from a `fileInfo`
or `dirInfo` whose `Path`, the key of the block, is `path`. -/
def Tree.block (T : Templates) (gz : List Byte → List Byte) (path : String) : Tree → List Byte
  | .file _ m c =>
    let file : fileInfo :=
      { Path := path, Name := pathBase path, ModTime := m, UncompressedSize := c.length }
    if (gz c).length < c.length then
      T.CompressedFileInfoBefore file ++ escape (gz c) ++ T.CompressedFileInfoAfter file
    else T.FileInfoBefore file ++ escape c ++ T.FileInfoAfter file
  | .dir _ m cs =>
    T.DirInfo { Path := path, Name := pathBase path, ModTime := m,
                Entries := sortStrings (cs.map (fun c => pathJoin path c.name)) }
  | .bad _ _ _ => []

/-- The node that the block of an entry declares in the generated map, under
the key `path`: the fields are those the templates `CompressedFileInfo`,
`FileInfo` and `DirInfo` write (`name` is the `Name` of the block, the content
is the value of the string literal); a directory is declared without
entries. -/
def Tree.declaredNode (gz : List Byte → List Byte) (path : String) : Tree → Option Node
  | .file _ m c =>
    if (gz c).length < c.length then
      some (.compressed { name := pathBase path, modTime := m, compressedContent := gz c,
                          uncompressedSize := c.length })
    else some (.file { name := pathBase path, modTime := m, content := c })
  | .dir _ m _ => some (.dir { name := pathBase path, modTime := m, entries := [] })
  | .bad _ _ _ => none

/-- The map that the generated code declares for the entries visited, before
the entries of the directories are populated. -/
def declaredFS (gz : List Byte → List Byte) (visited : List (String × Tree)) : vfsgenFS :=
  fun p =>
    match visited.lookup p with
    | some u => Tree.declaredNode gz p u
    | none => none

/-- One statement of the template `DirEntries`, for a recorded directory with
entries: `fs[Path].(*vfsgen۰DirInfo).entries = []os.FileInfo{fs[e].(os.FileInfo), ...}`.
The type assertions panic (`none`) when `Path` is not the key of a directory
node or when an entry is not a key of the map. A directory without entries
has no statement. -/
def populateDir (fs : vfsgenFS) (dir : dirInfo) : Option vfsgenFS :=
  if dir.Entries = [] then some fs
  else
    match fs dir.Path with
    | some (.dir d) =>
      if dir.Entries.all (fun e => (fs e).isSome) then
        some (fun p => if p = dir.Path then some (.dir { d with entries := dir.Entries }) else fs p)
      else none
    | _ => none

/-- The statements of the template `DirEntries`, in the order of
`toc.dirs`. -/
def populateEntries : vfsgenFS → List dirInfo → Option vfsgenFS
  | fs, [] => some fs
  | fs, dir :: rest =>
    match populateDir fs dir with
    | none => none
    | some fs1 => populateEntries fs1 rest

/-! ## Well-named source trees -/

/-- A name that a directory of a file system can list: not empty, without a
slash, and neither `.` nor `..`. -/
def goodName (n : String) : Prop :=
  n.data ≠ [] ∧ '/' ∉ n.data ∧ n.data ≠ ['.'] ∧ n.data ≠ ['.', '.']

instance (n : String) : Decidable (goodName n) :=
  inferInstanceAs (Decidable (n.data ≠ [] ∧ '/' ∉ n.data ∧ n.data ≠ ['.'] ∧ n.data ≠ ['.', '.']))

mutual
/-- A tree as a file system holds it: in every directory the names of the
children are good names and pairwise distinct. -/
def Tree.wellNamed : Tree → Bool
  | .dir _ _ cs =>
    decide (cs.map Tree.name).Nodup && (cs.map Tree.name).all (fun n => decide (goodName n)) &&
      Tree.wellNamedList cs
  | .file _ _ _ => true
  | .bad _ _ _ => true
/-- Every tree of the list is well named. -/
def Tree.wellNamedList : List Tree → Bool
  | [] => true
  | c :: cs => Tree.wellNamed c && Tree.wellNamedList cs
end

/-- The path that a sequence of good names denotes below the root `/`: a
slash, and the names with a slash between them. -/
def renderPath (names : List String) : String :=
  String.mk ('/' :: List.intercalate ['/'] (names.map String.data))

/-! ## `StatToByte` -/

/-- What `StatToByte` uses of an `http.File`: the result of `Stat()`, of which
it reads `Size()`, and the result of one `Read(p)`: the count, the error and
the buffer after the call, or `none` when the call panics. -/
structure httpFile where
  Stat : Except Error Int
  Read : List Byte → Option (Nat × Option Error × List Byte)

/-- What `StatToByte` uses of an `http.FileSystem`: the result of
`Open(name)`, or `none` when the call panics. -/
abbrev httpFileSystem := String → Option (Except Error httpFile)

/-- The two values `StatToByte` returns, and the events it hands to
`Vlogger.Vlog`, each with its text and its type (0 information, 1 error). -/
structure StatToByteResult where
  fil : List Byte
  err : Option Error
  events : List (String × Nat)
  deriving DecidableEq, Repr

/-- The function `StatToByte`. The variable `err` starts as
`errors.New("OK\n")`; the body of the loop runs once. `make([]byte, n)`
panics for a negative `n`; a panic is the result `none`. -/
def StatToByte (assets : httpFileSystem) (fname : String) : Option StatToByteResult :=
  let err := Error.other "OK\n"
  match assets fname with
  | none => none
  | some (.error _) =>
    some { fil := [], err := some (Error.other "File open error"),
           events := [("File open error", 1)] }
  | some (.ok file) =>
    match file.Stat with
    | .error _ =>
      some { fil := [], err := some (Error.other "File stat getting error"),
             events := [("File stat getting error", 1)] }
    | .ok size =>
      if size < 0 then none
      else
        match file.Read (List.replicate size.toNat 0) with
        | none => none
        | some (nx, _, fil) =>
          if nx = 0 then
            some { fil := fil, err := some (Error.other "File read error"),
                   events := [("File read error", 1)] }
          else some { fil := fil, err := some err, events := [(fname ++ " was red", 0)] }

/-- The method `Read` of the three handles of the generated file system: the
count, the error and the buffer after the call. -/
def Handle.Read : Handle → List Byte → Option (Nat × Option Error × List Byte)
  | .compressedFile f, p => (f.Read p).map (fun r => (r.1, r.2.1, r.2.2.1))
  | .file f, p => (f.Read p).map (fun r => (r.1, r.2.1, r.2.2.1))
  | .dir d, p => (d.Read p).map (fun r => (r.1, r.2.1, r.2.2.1))

/-- A handle of the generated file system as the `http.File` that
`StatToByte` works with. -/
def Handle.httpFile (h : Handle) : httpFile :=
  { Stat :=
      match h.Stat with
      | (n, none) => .ok n.fileInfo.Size
      | (_, some e) => .error e
    Read := h.Read }

/-- A generated file system as the `http.FileSystem` that `StatToByte` works
with. -/
def vfsgenFS.httpFileSystem (flags : toc) (gunzip : List Byte → Option (List Byte))
    (fs : vfsgenFS) : httpFileSystem := fun name =>
  (fs.Open flags gunzip name).map fun r =>
    match r with
    | .error e => .error e
    | .ok h => .ok h.httpFile

/-- A small map of nodes: the raw file `/a.txt` of two bytes and the raw file
`/empty` of none. -/
def sampleAssets : vfsgenFS := fun p =>
  if p = "/a.txt" then some (.file ⟨"a.txt", 0, [104, 105]⟩)
  else if p = "/empty" then some (.file ⟨"empty", 0, []⟩)
  else none

/-! ## The same tree under another order of the listings -/

mutual
/-- The tree `t2` is the tree `t1` with the entries of some directories listed
in another order: a file or an entry that cannot be opened is the same entry,
and a directory is a directory of the same name and time whose list of
children is that of `t1` up to the order, child by child. -/
def Tree.sameTree : Tree → Tree → Prop
  | .file n m c, t2 => t2 = .file n m c
  | .bad n a e, t2 => t2 = .bad n a e
  | .dir n m cs, t2 => ∃ ds, t2 = .dir n m ds ∧ Tree.sameList cs ds
/-- The list `ds` is a rearrangement of a list that holds, position by
position, the same trees as `cs`. -/
def Tree.sameList : List Tree → List Tree → Prop
  | [], ds => ds = []
  | c :: cs, ds => ∃ d rest, ds.Perm (d :: rest) ∧ Tree.sameTree c d ∧ Tree.sameList cs rest
end

/-- The call of the callback that a walk makes on the entry `t` at `path`:
with the info and the reader of the entry, or with the error of an entry that
cannot be opened. -/
def Tree.call {σ : Type} (walkFn : WalkFilesFunc σ) (s : σ) (path : String) :
    Tree → σ × Option Error
  | .bad _ _ e => walkFn s path none none (some e)
  | .file n m c => walkFn s path (some (Tree.info (.file n m c))) (some (Tree.reader (.file n m c))) none
  | .dir n m cs => walkFn s path (some (Tree.info (.dir n m cs))) (some (Tree.reader (.dir n m cs))) none

/-- The tree `sampleTree` with the two entries of `/` listed in the other
order. -/
def sampleTreeReordered : Tree :=
  .dir "/" 0 [.dir "a" 0 [.file "b" 0 []], .file "a.txt" 0 [104, 105]]

/-! ## The library functions on concrete inputs -/

theorem pathJoin_samples :
    pathJoin "/" "a" = "/a" ∧ pathJoin "/a" "b.txt" = "/a/b.txt" ∧ pathJoin "/a/" "../b" = "/b" ∧
      pathClean "a/../../b/./c//" = "../b/c" ∧ pathClean "" = "." ∧ pathClean "/.." = "/" := by
  decide

theorem pathBase_samples :
    pathBase "/a/b.txt" = "b.txt" ∧ pathBase "/" = "/" ∧ pathBase "" = "." ∧
      pathBase "/a/b/" = "b" := by
  decide

theorem sortStrings_sample :
    sortStrings ["/a/b", "/a.txt", "/a"] = ["/a", "/a.txt", "/a/b"] := by
  decide

/-! ## Encoder: lemmas -/

theorem hexAt_eq_lowerHexDigit (i : Nat) (h : i < 16) : hexAt i = byteOf (lowerHexDigit i) := by
  interval_cases i <;> decide

theorem hexVal_hexAt (i : Nat) (h : i < 16) : hexVal (hexAt i) = some i := by
  interval_cases i <;> decide

theorem toNat_div_lt (b : Byte) : b.val / 16 < 16 := by
  have h : b.val < 256 := b.isLt
  omega

theorem toNat_mod_lt (b : Byte) : b.val % 16 < 16 := Nat.mod_lt _ (by decide)

theorem ofNat_div_mod (b : Byte) : Fin.ofNat (b.val / 16 * 16 + b.val % 16) = b := by
  have h : b.val / 16 * 16 + b.val % 16 = b.val := by omega
  rw [h]
  exact Fin.ext (Nat.mod_eq_of_lt b.isLt)

theorem escape_length (p : List Byte) : (escape p).length = 4 * p.length := by
  induction p with
  | nil => rfl
  | cons b rest ih =>
    have h : escape (b :: rest) = escapeByte b ++ escape rest := rfl
    rw [h, List.length_append, ih]
    simp [escapeByte]
    omega

theorem escape_append (p q : List Byte) : escape (p ++ q) = escape p ++ escape q := by
  simp [escape]

theorem goUnquote_escapeByte (b : Byte) (rest : List Byte) :
    goUnquote (escapeByte b ++ rest) = (goUnquote rest).map (b :: ·) := by
  have h1 := hexVal_hexAt _ (toNat_div_lt b)
  have h2 := hexVal_hexAt _ (toNat_mod_lt b)
  simp only [escapeByte, List.cons_append, List.nil_append]
  rw [goUnquote]
  simp only [if_true, h1, h2]
  cases goUnquote rest with
  | none => simp
  | some r => simp [ofNat_div_mod]

theorem goUnquote_escape (p : List Byte) : goUnquote (escape p) = some p := by
  induction p with
  | nil => rfl
  | cons b rest ih =>
    have h : escape (b :: rest) = escapeByte b ++ escape rest := rfl
    rw [h, goUnquote_escapeByte, ih]
    rfl

theorem writeLoop_neverFails {ω : Type} (W : Writer ω)
    (hW : ∀ s q, (W.write s q).2 = none) (p : List Byte) (n : Int) (sw : stringWriter ω) :
    stringWriter.writeLoop W p n sw =
      (n + p.length, none,
        { w := p.foldl (fun s b => (W.write s (escapeByte b)).1) sw.w, N := sw.N + p.length }) := by
  induction p generalizing n sw with
  | nil => simp [stringWriter.writeLoop]
  | cons b rest ih =>
    have hb := hW sw.w (escapeByte b)
    rw [stringWriter.writeLoop]
    rcases hw : W.write sw.w (escapeByte b) with ⟨w1, e⟩
    rw [hw] at hb
    simp only at hb
    subst hb
    simp only [ih, List.foldl_cons, hw, List.length_cons, Nat.cast_add, Nat.cast_one]
    refine Prod.ext ?_ (Prod.ext rfl ?_)
    · simp only; omega
    · simp only; congr 1; omega

theorem foldl_bytesBuffer (p : List Byte) (buf : List Byte) :
    p.foldl (fun s b => (bytesBuffer.write s (escapeByte b)).1) buf = buf ++ escape p := by
  induction p generalizing buf with
  | nil => simp [escape]
  | cons b rest ih =>
    have h : escape (b :: rest) = escapeByte b ++ escape rest := rfl
    have hw : (bytesBuffer.write buf (escapeByte b)).1 = buf ++ escapeByte b := rfl
    rw [List.foldl_cons, hw, ih, h, List.append_assoc]

theorem Write_bytesBuffer (sw : stringWriter (List Byte)) (p : List Byte) :
    stringWriter.Write bytesBuffer sw p =
      ((p.length : Int), none, { w := sw.w ++ escape p, N := sw.N + p.length }) := by
  unfold stringWriter.Write
  rw [writeLoop_neverFails bytesBuffer (fun _ _ => rfl), foldl_bytesBuffer]
  simp

theorem writes_N {ω : Type} (W : Writer ω) (hW : ∀ s q, (W.write s q).2 = none)
    (ps : List (List Byte)) (sw : stringWriter ω) :
    (stringWriter.writes W sw ps).N = sw.N + ((ps.map List.length).sum : Nat) := by
  induction ps generalizing sw with
  | nil => simp [stringWriter.writes]
  | cons p rest ih =>
    have h : stringWriter.writes W sw (p :: rest) =
        stringWriter.writes W (stringWriter.Write W sw p).2.2 rest := rfl
    rw [h, ih]
    unfold stringWriter.Write
    rw [writeLoop_neverFails W hW]
    simp only [List.map_cons, List.sum_cons, Nat.cast_add]
    omega

/-! ## Source trees: lemmas -/

@[simp] theorem Tree.sorted_name (t : Tree) : t.sorted.name = t.name := by
  cases t <;> simp [Tree.sorted, Tree.name]

@[simp] theorem Tree.sorted_info (t : Tree) : t.sorted.info = t.info := by
  cases t <;> simp [Tree.sorted, Tree.info]

@[simp] theorem Tree.sorted_reader (t : Tree) : t.sorted.reader = t.reader := by
  cases t <;> simp [Tree.sorted, Tree.reader]

@[simp] theorem Tree.sorted_isBad (t : Tree) : t.sorted.isBad = t.isBad := by
  cases t <;> simp [Tree.sorted, Tree.isBad]

@[simp] theorem Tree.info_name (t : Tree) : t.info.name = t.name := by
  cases t <;> simp [Tree.info, Tree.name]

theorem Tree.mem_sortedList {d : Tree} {cs : List Tree} :
    d ∈ Tree.sortedList cs ↔ ∃ c ∈ cs, d = c.sorted := by
  induction cs with
  | nil => simp [Tree.sortedList]
  | cons c cs ih =>
    rw [Tree.sortedList, List.mem_orderedInsert, ih]
    simp

theorem Tree.map_name_sortedList (cs : List Tree) :
    (Tree.sortedList cs).map Tree.name = sortStrings (cs.map Tree.name) := by
  induction cs with
  | nil => rfl
  | cons c cs ih =>
    rw [Tree.sortedList, List.map_orderedInsert Tree.nameLE strLE Tree.name, ih]
    · simp [sortStrings]
    · intro a _; simp [Tree.nameLE]
    · intro a _; simp [Tree.nameLE]

theorem Tree.self_mem_nodes (path : String) (t : Tree) : (path, t) ∈ Tree.nodes path t := by
  cases t <;> simp [Tree.nodes]

theorem Tree.nodes_subset_nodesList (path : String) {c : Tree} {cs : List Tree} (h : c ∈ cs) :
    ∀ x ∈ Tree.nodes (pathJoin path c.name) c, x ∈ Tree.nodesList path cs := by
  induction cs with
  | nil => cases h
  | cons d ds ih =>
    intro x hx
    rw [Tree.nodesList, List.mem_append]
    rcases List.mem_cons.1 h with rfl | h
    · exact Or.inl hx
    · exact Or.inr (ih h x hx)

theorem Resolves.child {fs : FileSystem} {path n : String} {m : Int} {cs : List Tree}
    (h : Resolves fs path (.dir n m cs)) {c : Tree} (hc : c ∈ cs) :
    Resolves fs (pathJoin path c.name) c := by
  intro q x hx
  apply h
  rw [Tree.nodes]
  exact List.mem_cons_of_mem _ (Tree.nodes_subset_nodesList path hc _ hx)

theorem Resolves.root {fs : FileSystem} {path : String} {t : Tree} (h : Resolves fs path t) :
    fs path = t.openFile := h _ _ (Tree.self_mem_nodes path t)

theorem Tree.depth_le_depthList {c : Tree} {cs : List Tree} (h : c ∈ cs) :
    c.depth ≤ Tree.depthList cs := by
  induction cs with
  | nil => cases h
  | cons d ds ih =>
    rw [Tree.depthList]
    rcases List.mem_cons.1 h with rfl | h
    · exact le_max_left _ _
    · exact le_trans (ih h) (le_max_right _ _)

theorem openStat_of_good {fs : FileSystem} {q : String} {c : Tree}
    (h : fs q = c.openFile) (hc : c.isBad = false) : openStat fs q = .ok (c.handle, c.info) := by
  cases c <;> simp_all [openStat, Tree.openFile, Tree.handle, Tree.stat, Tree.isBad]

theorem openStat_of_bad {fs : FileSystem} {q n : String} {a : Bool} {e : Error}
    (h : fs q = (Tree.bad n a e).openFile) : openStat fs q = .error e := by
  cases a <;> simp_all [openStat, Tree.openFile, Tree.handle, Tree.stat]

theorem readDirNames_of_dir {fs : FileSystem} {q n : String} {m : Int} {cs : List Tree}
    (h : fs q = (Tree.dir n m cs).openFile) :
    readDirNames fs q = .ok ((Tree.sortedList cs).map Tree.name) := by
  simp [readDirNames, ReadDir, h, Tree.openFile, Tree.handle, Tree.readdir,
    Tree.map_name_sortedList, Function.comp_def]

/-! ## The walker on a source tree -/

/-- The loop of `walkFiles` over the names of sorted children is the loop of
`walkTreeList`, when the recursive call agrees with `walkTree` on each
child. -/
theorem walkFilesLoop_eq_walkTreeList {σ : Type} (fs : FileSystem) (walkFn : WalkFilesFunc σ)
    (recurse : String → FileInfo → File → σ → WalkResult σ) (path : String) (ds : List Tree)
    (hds : ∀ d ∈ ds, ∃ c : Tree, d = c.sorted ∧ fs (pathJoin path c.name) = c.openFile ∧
      (c.isBad = false → ∀ s, recurse (pathJoin path c.name) c.info c.handle s =
        some (walkTree walkFn (pathJoin path c.name) c.sorted s)))
    (s : σ) :
    walkFilesLoop fs walkFn recurse path (ds.map Tree.name) s =
      some (walkTreeList walkFn path ds s) := by
  induction ds generalizing s with
  | nil => rfl
  | cons d ds ih =>
    have ih := ih (fun x hx => hds x (List.mem_cons_of_mem _ hx))
    obtain ⟨c, rfl, hfs, hrec⟩ := hds d (List.mem_cons_self _ _)
    rw [List.map_cons, walkFilesLoop, walkTreeList]
    simp only [Tree.sorted_name, Tree.sorted_isBad, Tree.sorted_info]
    cases hb : c.isBad with
    | true =>
      obtain ⟨n, a, e, rfl⟩ : ∃ n a e, c = Tree.bad n a e := by
        cases c <;> simp_all [Tree.isBad]
      rw [openStat_of_bad hfs]
      simp only [Tree.sorted, walkTree, Tree.name]
      rcases walkFn s (pathJoin path n) none none (some e) with ⟨s1, _ | e1⟩
      · simpa using ih s1
      · by_cases h1 : e1 = Error.SkipDir
        · simpa [h1] using ih s1
        · simp [h1]
    | false =>
      rw [openStat_of_good hfs hb]
      simp only [hrec hb]
      rcases walkTree walkFn (pathJoin path c.name) c.sorted s with ⟨s1, _ | e1⟩
      · simpa using ih s1
      · by_cases h1 : c.info.isDir = false ∨ e1 ≠ Error.SkipDir
        · simp [h1]
        · simpa [h1] using ih s1

mutual
/-- On a file system that holds the tree, `walkFiles` with enough fuel is the
walk of the sorted tree. -/
theorem walkFiles_eq_walkTree {σ : Type} (fs : FileSystem) (walkFn : WalkFilesFunc σ) :
    ∀ (t : Tree) (fuel : Nat) (path : String) (s : σ), Resolves fs path t → t.depth ≤ fuel →
      t.isBad = false →
      walkFiles fs walkFn fuel path t.info t.handle s = some (walkTree walkFn path t.sorted s)
  | .file n m c, fuel, path, s, _, hd, _ => by
    obtain ⟨k, rfl⟩ : ∃ k, fuel = k + 1 := ⟨fuel - 1, by simp [Tree.depth] at hd; omega⟩
    simp only [walkFiles, Tree.sorted, walkTree, Tree.handle, Tree.info]
    rcases walkFn s path _ _ none with ⟨s1, _ | e1⟩ <;> simp
  | .bad n a e, _, _, _, _, _, hb => by simp [Tree.isBad] at hb
  | .dir n m cs, fuel, path, s, hr, hd, _ => by
    obtain ⟨k, rfl⟩ : ∃ k, fuel = k + 1 := ⟨fuel - 1, by simp [Tree.depth] at hd; omega⟩
    have hk : Tree.depthList cs ≤ k := by simp [Tree.depth] at hd; omega
    simp only [walkFiles, Tree.sorted, walkTree, Tree.handle, Tree.info, Tree.reader]
    rcases walkFn s path _ _ none with ⟨s1, _ | e1⟩
    · simp only [Bool.true_eq_false, if_false]
      rw [readDirNames_of_dir hr.root]
      simp only
      apply walkFilesLoop_eq_walkTreeList
      intro d hdm
      obtain ⟨c, hc, rfl⟩ := Tree.mem_sortedList.1 hdm
      refine ⟨c, rfl, (hr.child hc).root, fun hb s => ?_⟩
      exact walkFiles_eq_walkTreeChildren fs walkFn cs c hc k (pathJoin path c.name) s
        (hr.child hc) (le_trans (Tree.depth_le_depthList hc) hk) hb
    · by_cases h1 : e1 = Error.SkipDir <;> simp [h1]
/-- The statement of `walkFiles_eq_walkTree` for every child of a list. -/
theorem walkFiles_eq_walkTreeChildren {σ : Type} (fs : FileSystem) (walkFn : WalkFilesFunc σ) :
    ∀ (cs : List Tree) (c : Tree), c ∈ cs → ∀ (fuel : Nat) (path : String) (s : σ),
      Resolves fs path c → c.depth ≤ fuel → c.isBad = false →
      walkFiles fs walkFn fuel path c.info c.handle s = some (walkTree walkFn path c.sorted s)
  | [], _, h => by cases h
  | d :: ds, c, h => by
    intro fuel path s hr hd hb
    by_cases hcd : c = d
    · subst hcd
      exact walkFiles_eq_walkTree fs walkFn c fuel path s hr hd hb
    · have hm : c ∈ ds := by
        rcases List.mem_cons.1 h with h | h
        · exact absurd h hcd
        · exact h
      exact walkFiles_eq_walkTreeChildren fs walkFn ds c hm fuel path s hr hd hb
end

theorem lookup_of_mem_nodup {β : Type} {l : List (String × β)} {q : String} {n : β}
    (hnd : (l.map (·.1)).Nodup) (h : (q, n) ∈ l) : l.lookup q = some n := by
  induction l with
  | nil => cases h
  | cons x l ih =>
    obtain ⟨k, v⟩ := x
    rw [List.map_cons, List.nodup_cons] at hnd
    rcases List.mem_cons.1 h with h1 | h2
    · cases h1
      simp [List.lookup]
    · have hne : q ≠ k := by
        intro hqk
        exact hnd.1 (List.mem_map.2 ⟨(q, n), h2, hqk⟩)
      rw [List.lookup_cons]
      have : (q == k) = false := by simpa using hne
      rw [this]
      exact ih hnd.2 h2

theorem treeFS_resolves {root : String} {t : Tree} (hnd : (Tree.paths root t).Nodup) :
    Resolves (treeFS root t) root t := by
  intro q n h
  simp only [treeFS, lookup_of_mem_nodup hnd h]

/-- On the file system of a tree, `WalkFiles` with enough fuel is the walk of
the sorted tree, whatever the callback does. -/
theorem WalkFiles_treeFS {σ : Type} (walkFn : WalkFilesFunc σ) (root : String) (t : Tree)
    (fuel : Nat) (s : σ) (hnd : (Tree.paths root t).Nodup) (hd : t.depth ≤ fuel) :
    WalkFiles (treeFS root t) root walkFn fuel s = some (walkTree walkFn root t.sorted s) := by
  have hr := treeFS_resolves hnd
  unfold WalkFiles
  cases hb : t.isBad with
  | true =>
    obtain ⟨n, a, e, rfl⟩ : ∃ n a e, t = Tree.bad n a e := by
      cases t <;> simp_all [Tree.isBad]
    rw [openStat_of_bad hr.root]
    simp [Tree.sorted, walkTree]
  | false =>
    rw [openStat_of_good hr.root hb]
    exact walkFiles_eq_walkTree (treeFS root t) walkFn t fuel root s hr hd hb

theorem Tree.nodesList_eq_flatMap (path : String) (cs : List Tree) :
    Tree.nodesList path cs = cs.flatMap (fun c => Tree.nodes (pathJoin path c.name) c) := by
  induction cs with
  | nil => rfl
  | cons c cs ih => rw [Tree.nodesList, ih, List.flatMap_cons]

theorem Tree.nodesList_perm (path : String) {cs ds : List Tree} (h : cs.Perm ds) :
    (Tree.nodesList path cs).Perm (Tree.nodesList path ds) := by
  rw [Tree.nodesList_eq_flatMap, Tree.nodesList_eq_flatMap]
  exact h.flatMap_right _

mutual
/-- The sorted tree has the entries of the tree, each sorted within, at the
same paths. -/
theorem Tree.nodes_sorted_perm : ∀ (t : Tree) (path : String),
    (Tree.nodes path t.sorted).Perm ((Tree.nodes path t).map (fun x => (x.1, x.2.sorted)))
  | .file n m c, path => by simp [Tree.sorted, Tree.nodes]
  | .bad n a e, path => by simp [Tree.sorted, Tree.nodes]
  | .dir n m cs, path => by
    simp only [Tree.sorted, Tree.nodes, List.map_cons]
    exact List.Perm.cons _ (Tree.nodesList_sorted_perm cs path)
/-- The statement of `Tree.nodes_sorted_perm` for the children of a
directory. -/
theorem Tree.nodesList_sorted_perm : ∀ (cs : List Tree) (path : String),
    (Tree.nodesList path (Tree.sortedList cs)).Perm
      ((Tree.nodesList path cs).map (fun x => (x.1, x.2.sorted)))
  | [], path => by simp [Tree.sortedList, Tree.nodesList]
  | c :: cs, path => by
    rw [Tree.sortedList]
    refine (Tree.nodesList_perm path (List.perm_orderedInsert _ _ _)).trans ?_
    rw [Tree.nodesList, Tree.nodesList, List.map_append, Tree.sorted_name]
    exact List.Perm.append (Tree.nodes_sorted_perm c _) (Tree.nodesList_sorted_perm cs path)
end

theorem Tree.paths_sorted_perm (t : Tree) (path : String) :
    (Tree.paths path t.sorted).Perm (Tree.paths path t) := by
  have h := (Tree.nodes_sorted_perm t path).map (·.1)
  simpa [Tree.paths, Function.comp_def] using h

theorem Tree.mem_nodes_sorted {t : Tree} {path : String} {x : String × Tree}
    (h : x ∈ Tree.nodes path t.sorted) : ∃ n, (x.1, n) ∈ Tree.nodes path t ∧ x.2 = n.sorted := by
  have h2 := (Tree.nodes_sorted_perm t path).mem_iff.1 h
  obtain ⟨y, hy, rfl⟩ := List.mem_map.1 h2
  exact ⟨y.2, hy, rfl⟩

theorem visit_of_openStat {σ : Type} {fs : FileSystem} (walkFn : WalkFilesFunc σ) (s : σ)
    {path : String} {file : File} {info : FileInfo} (h : openStat fs path = .ok (file, info)) :
    visit fs walkFn s path = (walkFn s path (some info) (some file.rs) none).1 := by
  simp [visit, h]

mutual
/-- When every entry can be opened and the callback returns `nil` on every
entry of the tree, the walk of the tree calls the callback on its entries in
order and returns `nil`. -/
theorem walkTree_eq_foldl {σ : Type} (fs : FileSystem) (walkFn : WalkFilesFunc σ) :
    ∀ (t : Tree) (path : String) (s : σ),
      (∀ x ∈ Tree.nodes path t, x.2.isBad = false) →
      (∀ x ∈ Tree.nodes path t, ∃ file, openStat fs x.1 = .ok (file, x.2.info) ∧
        file.rs = x.2.reader) →
      (∀ x ∈ Tree.nodes path t, ∀ s,
        (walkFn s x.1 (some x.2.info) (some x.2.reader) none).2 = none) →
      walkTree walkFn path t s = ((Tree.paths path t).foldl (visit fs walkFn) s, none)
  | .bad n a e, path, s, hg, _, _ => by
    have := hg _ (Tree.self_mem_nodes path _)
    simp [Tree.isBad] at this
  | .file n m c, path, s, _, ho, hn => by
    obtain ⟨file, hf, hrs⟩ := ho _ (Tree.self_mem_nodes path (.file n m c))
    have h2 := hn _ (Tree.self_mem_nodes path (.file n m c)) s
    simp only [walkTree, Tree.paths, Tree.nodes, List.map_cons, List.map_nil, List.foldl_cons,
      List.foldl_nil, visit_of_openStat walkFn s hf, hrs]
    exact Prod.ext rfl h2
  | .dir n m cs, path, s, hg, ho, hn => by
    obtain ⟨file, hf, hrs⟩ := ho _ (Tree.self_mem_nodes path (.dir n m cs))
    have h2 := hn _ (Tree.self_mem_nodes path (.dir n m cs)) s
    have hsub : ∀ x ∈ Tree.nodesList path cs, x ∈ Tree.nodes path (.dir n m cs) := by
      intro x hx; rw [Tree.nodes]; exact List.mem_cons_of_mem _ hx
    have ih := walkTreeList_eq_foldl fs walkFn cs path
      (fun x hx => hg x (hsub x hx)) (fun x hx => ho x (hsub x hx)) (fun x hx => hn x (hsub x hx))
    simp only [Tree.paths, Tree.nodes, List.map_cons, List.foldl_cons,
      visit_of_openStat walkFn s hf, hrs]
    rw [walkTree]
    simp only at h2
    rcases hw : walkFn s path (some (Tree.info (.dir n m cs)))
      (some (Tree.reader (.dir n m cs))) none with ⟨s1, e1⟩
    rw [hw] at h2
    simp only at h2
    subst h2
    simp only
    exact ih s1
/-- The statement of `walkTree_eq_foldl` for the children of a directory. -/
theorem walkTreeList_eq_foldl {σ : Type} (fs : FileSystem) (walkFn : WalkFilesFunc σ) :
    ∀ (cs : List Tree) (path : String),
      (∀ x ∈ Tree.nodesList path cs, x.2.isBad = false) →
      (∀ x ∈ Tree.nodesList path cs, ∃ file, openStat fs x.1 = .ok (file, x.2.info) ∧
        file.rs = x.2.reader) →
      (∀ x ∈ Tree.nodesList path cs, ∀ s,
        (walkFn s x.1 (some x.2.info) (some x.2.reader) none).2 = none) →
      ∀ s, walkTreeList walkFn path cs s =
        (((Tree.nodesList path cs).map (·.1)).foldl (visit fs walkFn) s, none)
  | [], path, _, _, _, s => by simp [walkTreeList, Tree.nodesList]
  | c :: cs, path, hg, ho, hn, s => by
    have hl : ∀ x ∈ Tree.nodes (pathJoin path c.name) c, x ∈ Tree.nodesList path (c :: cs) := by
      intro x hx; rw [Tree.nodesList]; exact List.mem_append_left _ hx
    have hr : ∀ x ∈ Tree.nodesList path cs, x ∈ Tree.nodesList path (c :: cs) := by
      intro x hx; rw [Tree.nodesList]; exact List.mem_append_right _ hx
    have ih1 := walkTree_eq_foldl fs walkFn c (pathJoin path c.name) s
      (fun x hx => hg x (hl x hx)) (fun x hx => ho x (hl x hx)) (fun x hx => hn x (hl x hx))
    have ih2 := walkTreeList_eq_foldl fs walkFn cs path
      (fun x hx => hg x (hr x hx)) (fun x hx => ho x (hr x hx)) (fun x hx => hn x (hr x hx))
    rw [walkTreeList, ih1]
    simp only [Tree.nodesList, List.map_append, List.foldl_append, Tree.paths]
    exact ih2 _
end

/-- On the file system of a tree all of whose entries can be opened, with a
callback that returns `nil` on every entry, `WalkFiles` with enough fuel
returns `nil` after calling the callback on the paths of the sorted tree, in
order. -/
theorem WalkFiles_eq_foldl {σ : Type} (walkFn : WalkFilesFunc σ) (root : String) (t : Tree)
    (fuel : Nat) (s : σ) (hnd : (Tree.paths root t).Nodup) (hd : t.depth ≤ fuel)
    (hg : Tree.allGood root t)
    (hn : ∀ x ∈ Tree.nodes root t, ∀ s,
      (walkFn s x.1 (some x.2.info) (some x.2.reader) none).2 = none) :
    WalkFiles (treeFS root t) root walkFn fuel s =
      some ((Tree.paths root t.sorted).foldl (visit (treeFS root t) walkFn) s, none) := by
  rw [WalkFiles_treeFS walkFn root t fuel s hnd hd]
  congr 1
  apply walkTree_eq_foldl
  · intro x hx
    obtain ⟨n, hn1, hn2⟩ := Tree.mem_nodes_sorted hx
    rw [hn2, Tree.sorted_isBad]
    exact hg _ hn1
  · intro x hx
    obtain ⟨n, hn1, hn2⟩ := Tree.mem_nodes_sorted hx
    refine ⟨n.handle, ?_, ?_⟩
    · rw [hn2, Tree.sorted_info]
      exact openStat_of_good (treeFS_resolves hnd _ _ hn1) (hg _ hn1)
    · rw [hn2, Tree.sorted_reader]; rfl
  · intro x hx s
    obtain ⟨n, hn1, hn2⟩ := Tree.mem_nodes_sorted hx
    rw [hn2, Tree.sorted_info, Tree.sorted_reader]
    exact hn _ hn1 s

theorem foldl_visit_recordPath (fs : FileSystem) (l acc : List String) :
    l.foldl (visit fs recordPath) acc = acc ++ l := by
  induction l generalizing acc with
  | nil => simp
  | cons q l ih =>
    have h : visit fs recordPath acc q = acc ++ [q] := by
      unfold visit
      cases openStat fs q <;> rfl
    rw [List.foldl_cons, h, ih]
    simp

/-! ## The string order and sorting -/

theorem char_eq_of_not_lt {a b : Char} (h1 : ¬ a.toNat < b.toNat) (h2 : ¬ b.toNat < a.toNat) :
    a = b := by
  have h : a.toNat = b.toNat := by omega
  rw [← Char.ofNat_toNat a, ← Char.ofNat_toNat b, h]

theorem leChars_refl (a : List Char) : leChars a a = true := by
  induction a with
  | nil => rfl
  | cons c cs ih => simp [leChars, ih]

theorem leChars_total (a b : List Char) : leChars a b = true ∨ leChars b a = true := by
  induction a generalizing b with
  | nil => exact Or.inl rfl
  | cons c cs ih =>
    cases b with
    | nil => exact Or.inr rfl
    | cons d ds =>
      simp only [leChars]
      by_cases h1 : c.toNat < d.toNat
      · simp [h1]
      · by_cases h2 : d.toNat < c.toNat
        · simp [h2]
        · simpa [h1, h2] using ih ds

theorem leChars_trans {a b c : List Char} (h1 : leChars a b = true) (h2 : leChars b c = true) :
    leChars a c = true := by
  induction a generalizing b c with
  | nil => rfl
  | cons x xs ih =>
    cases b with
    | nil => simp [leChars] at h1
    | cons y ys =>
      cases c with
      | nil => simp [leChars] at h2
      | cons z zs =>
        simp only [leChars] at h1 h2 ⊢
        by_cases hxy : x.toNat < y.toNat
        · by_cases hyz : y.toNat < z.toNat
          · have : x.toNat < z.toNat := by omega
            simp [this]
          · by_cases hzy : z.toNat < y.toNat
            · simp [hyz, hzy] at h2
            · have : x.toNat < z.toNat := by omega
              simp [this]
        · by_cases hyx : y.toNat < x.toNat
          · simp [hxy, hyx] at h1
          · simp only [hxy, hyx, if_false] at h1
            by_cases hyz : y.toNat < z.toNat
            · have : x.toNat < z.toNat := by omega
              simp [this]
            · by_cases hzy : z.toNat < y.toNat
              · simp [hyz, hzy] at h2
              · simp only [hyz, hzy, if_false] at h2
                have e1 : ¬ x.toNat < z.toNat := by omega
                have e2 : ¬ z.toNat < x.toNat := by omega
                simp only [e1, e2, if_false]
                exact ih h1 h2

theorem leChars_antisymm {a b : List Char} (h1 : leChars a b = true) (h2 : leChars b a = true) :
    a = b := by
  induction a generalizing b with
  | nil =>
    cases b with
    | nil => rfl
    | cons d ds => simp [leChars] at h2
  | cons c cs ih =>
    cases b with
    | nil => simp [leChars] at h1
    | cons d ds =>
      simp only [leChars] at h1 h2
      by_cases hcd : c.toNat < d.toNat
      · have : ¬ d.toNat < c.toNat := by omega
        simp [hcd, this] at h2
      · by_cases hdc : d.toNat < c.toNat
        · simp [hcd, hdc] at h1
        · simp only [hcd, hdc, if_false] at h1 h2
          rw [char_eq_of_not_lt hcd hdc, ih h1 h2]

instance : IsTotal String strLE := ⟨fun a b => leChars_total a.data b.data⟩

instance : IsTrans String strLE := ⟨fun _ _ _ h1 h2 => leChars_trans h1 h2⟩

instance : IsAntisymm String strLE :=
  ⟨fun a b h1 h2 => by
    have h := leChars_antisymm h1 h2
    cases a; cases b; simp_all⟩

instance : IsTotal Tree Tree.nameLE := ⟨fun a b => leChars_total a.name.data b.name.data⟩

instance : IsTrans Tree Tree.nameLE := ⟨fun _ _ _ h1 h2 => leChars_trans h1 h2⟩

theorem strLE_refl (a : String) : strLE a a := leChars_refl a.data

theorem sortStrings_sorted (l : List String) : (sortStrings l).Sorted strLE :=
  List.sorted_insertionSort strLE l

theorem sortStrings_perm (l : List String) : (sortStrings l).Perm l :=
  List.perm_insertionSort strLE l

theorem Tree.sortedList_sorted (cs : List Tree) : (Tree.sortedList cs).Sorted Tree.nameLE := by
  induction cs with
  | nil => exact List.sorted_nil
  | cons c cs ih =>
    rw [Tree.sortedList]
    exact ih.orderedInsert _ _

theorem Tree.sortedList_perm (cs : List Tree) :
    (Tree.sortedList cs).Perm (cs.map Tree.sorted) := by
  induction cs with
  | nil => exact List.Perm.refl _
  | cons c cs ih =>
    rw [Tree.sortedList, List.map_cons]
    exact (List.perm_orderedInsert _ _ _).trans (ih.cons _)

/-! ## The order of the visits -/

theorem Tree.paths_dir (q n : String) (m : Int) (cs : List Tree) :
    Tree.paths q (.dir n m cs) = q :: cs.flatMap (fun c => Tree.paths (pathJoin q c.name) c) := by
  simp only [Tree.paths, Tree.nodes, List.map_cons, Tree.nodesList_eq_flatMap, List.map_flatMap]

theorem Tree.children_sorted_of_mem {t : Tree} {root q n : String} {m : Int} {cs : List Tree}
    (h : (q, Tree.dir n m cs) ∈ Tree.nodes root t.sorted) : cs.Sorted Tree.nameLE := by
  obtain ⟨u, _, hu⟩ := Tree.mem_nodes_sorted h
  cases u with
  | file => simp [Tree.sorted] at hu
  | bad => simp [Tree.sorted] at hu
  | dir n1 m1 cs1 =>
    simp only [Tree.sorted, Tree.dir.injEq] at hu
    rw [hu.2.2]
    exact Tree.sortedList_sorted cs1

mutual
/-- In the pre-order of a tree every directory comes before each of its
children. -/
theorem Tree.parent_before_child : ∀ (u : Tree) (p d n : String) (m : Int) (cs : List Tree)
    (c : Tree), (d, Tree.dir n m cs) ∈ Tree.nodes p u → c ∈ cs →
    List.Sublist [d, pathJoin d c.name] (Tree.paths p u)
  | .file _ _ _, p, d, n, m, cs, c, h, _ => by simp [Tree.nodes] at h
  | .bad _ _ _, p, d, n, m, cs, c, h, _ => by simp [Tree.nodes] at h
  | .dir n0 m0 cs0, p, d, n, m, cs, c, h, hc => by
    rw [Tree.nodes, List.mem_cons] at h
    simp only [Tree.paths, Tree.nodes, List.map_cons]
    rcases h with h | h
    · simp only [Prod.mk.injEq, Tree.dir.injEq] at h
      obtain ⟨rfl, rfl, rfl, rfl⟩ := h
      refine List.Sublist.cons₂ _ (List.singleton_sublist.2 ?_)
      exact List.mem_map.2 ⟨(pathJoin d c.name, c),
        Tree.nodes_subset_nodesList d hc _ (Tree.self_mem_nodes _ c), rfl⟩
    · exact List.Sublist.cons _ (Tree.parent_before_childList cs0 p d n m cs c h hc)
/-- The statement of `Tree.parent_before_child` below a directory. -/
theorem Tree.parent_before_childList : ∀ (cs0 : List Tree) (p d n : String) (m : Int)
    (cs : List Tree) (c : Tree), (d, Tree.dir n m cs) ∈ Tree.nodesList p cs0 → c ∈ cs →
    List.Sublist [d, pathJoin d c.name] ((Tree.nodesList p cs0).map (·.1))
  | [], p, d, n, m, cs, c, h, _ => by simp [Tree.nodesList] at h
  | c0 :: rest, p, d, n, m, cs, c, h, hc => by
    rw [Tree.nodesList, List.mem_append] at h
    rw [Tree.nodesList, List.map_append]
    rcases h with h | h
    · exact (Tree.parent_before_child c0 _ d n m cs c h hc).trans (List.sublist_append_left _ _)
    · exact (Tree.parent_before_childList rest p d n m cs c h hc).trans
        (List.sublist_append_right _ _)
end

theorem Tree.parent_before_child_sorted {t : Tree} {root d n : String} {m : Int}
    {cs : List Tree} {c : Tree} (h : (d, Tree.dir n m cs) ∈ Tree.nodes root t) (hc : c ∈ cs) :
    List.Sublist [d, pathJoin d c.name] (Tree.paths root t.sorted) := by
  have h1 : (d, Tree.dir n m (Tree.sortedList cs)) ∈ Tree.nodes root t.sorted := by
    apply (Tree.nodes_sorted_perm t root).mem_iff.2
    exact List.mem_map.2 ⟨_, h, by simp [Tree.sorted]⟩
  have h2 : c.sorted ∈ Tree.sortedList cs := Tree.mem_sortedList.2 ⟨c, hc, rfl⟩
  simpa using Tree.parent_before_child t.sorted root d n m _ c.sorted h1 h2

theorem Tree.head_paths (root : String) (t : Tree) : (Tree.paths root t).head? = some root := by
  cases t <;> simp [Tree.paths, Tree.nodes]

/-- Claim C6. On the file system of a finite tree (its paths pairwise
distinct) in which every entry can be opened and examined, with a callback
that always returns `nil`, `WalkFiles` with fuel for the depth of the tree
returns `nil`; it has called the callback once on each path of a list `visits`
and on nothing else; `visits` is a rearrangement of the paths of the tree and
has no repetition, so every entry is visited exactly once and no other path
is; it starts with the root, and every directory comes in it before each of
its children. -/
theorem WalkFiles_visits_every_entry_once {σ : Type} (walkFn : WalkFilesFunc σ) (root : String)
    (t : Tree) (fuel : Nat) (s : σ)
    (hnd : (Tree.paths root t).Nodup) (hg : Tree.allGood root t)
    (hn : ∀ s p i r e, (walkFn s p i r e).2 = none) (hd : t.depth ≤ fuel) :
    ∃ visits : List String,
      WalkFiles (treeFS root t) root walkFn fuel s =
        some (visits.foldl (visit (treeFS root t) walkFn) s, none) ∧
      WalkFiles (treeFS root t) root recordPath fuel [] = some (visits, none) ∧
      visits.Perm (Tree.paths root t) ∧ visits.Nodup ∧
      visits.head? = some root ∧
      ∀ d n m cs c, (d, Tree.dir n m cs) ∈ Tree.nodes root t → c ∈ cs →
        List.Sublist [d, pathJoin d c.name] visits := by
  refine ⟨Tree.paths root t.sorted, ?_, ?_, Tree.paths_sorted_perm t root,
    (Tree.paths_sorted_perm t root).nodup_iff.2 hnd, Tree.head_paths root _, ?_⟩
  · exact WalkFiles_eq_foldl walkFn root t fuel s hnd hd hg (fun _ _ s => hn s _ _ _ _)
  · rw [WalkFiles_eq_foldl recordPath root t fuel [] hnd hd hg (fun _ _ _ => rfl),
      foldl_visit_recordPath]
    rfl
  · intro d n m cs c h hc
    exact Tree.parent_before_child_sorted h hc

/-- A run of C6 on `sampleTree`. -/
theorem WalkFiles_visits_every_entry_once_witness :
    ∃ visits : List String,
      WalkFiles (treeFS "/" sampleTree) "/" recordPath 3 [] =
        some (visits.foldl (visit (treeFS "/" sampleTree) recordPath) [], none) ∧
      WalkFiles (treeFS "/" sampleTree) "/" recordPath 3 [] = some (visits, none) ∧
      visits.Perm (Tree.paths "/" sampleTree) ∧ visits.Nodup ∧
      visits.head? = some "/" ∧
      ∀ d n m cs c, (d, Tree.dir n m cs) ∈ Tree.nodes "/" sampleTree → c ∈ cs →
        List.Sublist [d, pathJoin d c.name] visits :=
  WalkFiles_visits_every_entry_once recordPath "/" sampleTree 3 [] (by decide) (by decide)
    (fun _ _ _ _ _ => rfl) (by decide)

/-- Claim C7. On the file system of a finite tree in which every entry can be
opened and examined, with a callback that always returns `nil`, the sequence
of the paths `WalkFiles` calls the callback on is the depth-first pre-order of
the sorted tree: the path of a directory, then the whole sequence of its first
child, then that of the next child, the children of every directory taken in
ascending order of their names, whether they are files or directories. -/
theorem WalkFiles_visits_sorted_preorder {σ : Type} (walkFn : WalkFilesFunc σ) (root : String)
    (t : Tree) (fuel : Nat) (s : σ)
    (hnd : (Tree.paths root t).Nodup) (hg : Tree.allGood root t)
    (hn : ∀ s p i r e, (walkFn s p i r e).2 = none) (hd : t.depth ≤ fuel) :
    WalkFiles (treeFS root t) root walkFn fuel s =
        some ((Tree.paths root t.sorted).foldl (visit (treeFS root t) walkFn) s, none) ∧
      WalkFiles (treeFS root t) root recordPath fuel [] = some (Tree.paths root t.sorted, none) ∧
      (∀ q n m cs, Tree.paths q (.dir n m cs) =
        q :: cs.flatMap (fun c => Tree.paths (pathJoin q c.name) c)) ∧
      (∀ q n m cs, (q, Tree.dir n m cs) ∈ Tree.nodes root t.sorted → cs.Sorted Tree.nameLE) ∧
      (Tree.nodes root t.sorted).Perm ((Tree.nodes root t).map (fun x => (x.1, x.2.sorted))) := by
  refine ⟨?_, ?_, Tree.paths_dir, fun q n m cs h => Tree.children_sorted_of_mem h,
    Tree.nodes_sorted_perm t root⟩
  · exact WalkFiles_eq_foldl walkFn root t fuel s hnd hd hg (fun _ _ s => hn s _ _ _ _)
  · rw [WalkFiles_eq_foldl recordPath root t fuel [] hnd hd hg (fun _ _ _ => rfl),
      foldl_visit_recordPath]
    rfl

/-- A run of C7 on `sampleTree`: the directory `/a` and its file `/a/b` come
before the file `/a.txt`. -/
theorem WalkFiles_visits_sorted_preorder_witness :
    WalkFiles (treeFS "/" sampleTree) "/" recordPath 3 [] =
      some (["/", "/a", "/a/b", "/a.txt"], none) :=
  (WalkFiles_visits_sorted_preorder recordPath "/" sampleTree 3 [] (by decide) (by decide)
    (fun _ _ _ _ _ => rfl) (by decide)).2.1

/-! ## The compression decision -/

theorem readToEnd_healthy (r : ReadSeeker) (hr : r.readErr = none) (hp : r.pos = 0) :
    r.readToEnd = .ok (r.data, { r with pos := r.data.length }) := by
  simp [ReadSeeker.readToEnd, hr, hp]

theorem writeCompressedFileInfo_healthy (T : Templates) (gz : List Byte → List Byte)
    (buf : List Byte) (file : fileInfo) (r : ReadSeeker) (hr : r.readErr = none)
    (hp : r.pos = 0) :
    writeCompressedFileInfo T gz bytesBuffer buf file r =
      if ((gz r.data).length : Int) ≥ file.UncompressedSize then
        (buf ++ T.CompressedFileInfoBefore file ++ escape (gz r.data),
          { r with pos := r.data.length }, some Error.errCompressedNotSmaller)
      else
        (buf ++ T.CompressedFileInfoBefore file ++ escape (gz r.data) ++
          T.CompressedFileInfoAfter file, { r with pos := r.data.length }, none) := by
  unfold writeCompressedFileInfo
  have hw : ∀ b q, bytesBuffer.write b q = (b ++ q, none) := fun _ _ => rfl
  simp only [hw, readToEnd_healthy r hr hp, Write_bytesBuffer, zero_add]

theorem writeFileInfo_healthy (T : Templates) (buf : List Byte) (file : fileInfo)
    (r : ReadSeeker) (hr : r.readErr = none) (hp : r.pos = 0) :
    writeFileInfo T bytesBuffer buf file r =
      (buf ++ T.FileInfoBefore file ++ escape r.data ++ T.FileInfoAfter file,
        { r with pos := r.data.length }, none) := by
  unfold writeFileInfo
  have hw : ∀ b q, bytesBuffer.write b q = (b ++ q, none) := fun _ _ => rfl
  simp only [hw, readToEnd_healthy r hr hp, Write_bytesBuffer]

/-- The visit of a file whose reader works: the compressed block when the
compressed bytes are fewer than `fi.size`, the raw block otherwise. -/
theorem walkFn_file (T : Templates) (gz : List Byte → List Byte) (fs : FileSystem)
    (s : GenState) (path : String) (fi : FileInfo) (r : ReadSeeker)
    (hfile : fi.isDir = false) (hr : r.readErr = none) (hs : r.seekErr = none)
    (hp : r.pos = 0) :
    findAndWriteFiles.walkFn T gz fs s path (some fi) (some r) none =
      let file : fileInfo :=
        { Path := path, Name := pathBase path, ModTime := fi.modTime, UncompressedSize := fi.size }
      if ((gz r.data).length : Int) < fi.size then
        ({ buf := s.buf ++ T.CompressedFileInfoBefore file ++ escape (gz r.data) ++
                    T.CompressedFileInfoAfter file,
           toc := { s.toc with HasCompressedFile := true } }, none)
      else
        ({ buf := s.buf ++ T.FileInfoBefore file ++ escape r.data ++ T.FileInfoAfter file,
           toc := { s.toc with HasFile := true } }, none) := by
  unfold findAndWriteFiles.walkFn
  simp only [hfile, if_true, writeCompressedFileInfo_healthy T gz s.buf _ r hr hp]
  by_cases h : ((gz r.data).length : Int) < fi.size
  · have h2 : ¬ ((gz r.data).length : Int) ≥ fi.size := by omega
    simp only [h2, h, if_false, if_true]
  · have h2 : ((gz r.data).length : Int) ≥ fi.size := by omega
    simp only [h2, h, if_false, if_true, ReadSeeker.seekStart, hs]
    have ht : (s.buf ++ T.CompressedFileInfoBefore
        { Path := path, Name := pathBase path, ModTime := fi.modTime,
          UncompressedSize := fi.size } ++ escape (gz r.data)).take s.buf.length = s.buf := by
      rw [List.append_assoc, List.take_left]
    rw [ht, writeFileInfo_healthy T s.buf _
      { data := r.data, pos := 0, readErr := r.readErr, seekErr := none } hr rfl]

/-- Claim C1. For a file the callback of `findAndWriteFiles` is called on,
with a reader that works and starts at 0 and a size equal to the length of
the content, and `gz` any function: `sw.N`, the count of the `stringWriter`
after the compressed bytes went through it, is the number of compressed bytes;
when `sw.N` is smaller than the uncompressed size the callback emits the
Compressed block (and the payload is shorter than the content), and when it
is not, the callback emits the Raw block with the original bytes. So the
flag `HasCompressedFile`, set when a Compressed block is emitted, becomes
true if and only if `sw.N` is smaller than the size, and the flag `HasFile`,
set when a Raw block is emitted, if and only if it is not. -/
theorem compressed_iff_counted_smaller (T : Templates) (gz : List Byte → List Byte)
    (fs : FileSystem) (s : GenState) (path : String) (fi : FileInfo) (r : ReadSeeker)
    (hfile : fi.isDir = false) (hr : r.readErr = none) (hs : r.seekErr = none)
    (hp : r.pos = 0) (hsize : fi.size = r.data.length) :
    let file : fileInfo :=
      { Path := path, Name := pathBase path, ModTime := fi.modTime, UncompressedSize := fi.size }
    let sw := (stringWriter.Write bytesBuffer
      { w := s.buf ++ T.CompressedFileInfoBefore file, N := 0 } (gz r.data)).2.2
    sw.N = (gz r.data).length ∧
    (sw.N < file.UncompressedSize →
      findAndWriteFiles.walkFn T gz fs s path (some fi) (some r) none =
        ({ buf := s.buf ++ T.CompressedFileInfoBefore file ++ escape (gz r.data) ++
                    T.CompressedFileInfoAfter file,
           toc := { s.toc with HasCompressedFile := true } }, none) ∧
      (gz r.data).length < r.data.length) ∧
    (¬ sw.N < file.UncompressedSize →
      findAndWriteFiles.walkFn T gz fs s path (some fi) (some r) none =
        ({ buf := s.buf ++ T.FileInfoBefore file ++ escape r.data ++ T.FileInfoAfter file,
           toc := { s.toc with HasFile := true } }, none)) ∧
    (s.toc.HasCompressedFile = false →
      ((findAndWriteFiles.walkFn T gz fs s path (some fi) (some r) none).1.toc.HasCompressedFile
          = true ↔ sw.N < file.UncompressedSize)) ∧
    (s.toc.HasFile = false →
      ((findAndWriteFiles.walkFn T gz fs s path (some fi) (some r) none).1.toc.HasFile
          = true ↔ ¬ sw.N < file.UncompressedSize)) := by
  intro file sw
  have hN : sw.N = (gz r.data).length := by
    simp only [sw, Write_bytesBuffer, zero_add]
  have hw := walkFn_file T gz fs s path fi r hfile hr hs hp
  have hlt : sw.N < file.UncompressedSize ↔ ((gz r.data).length : Int) < fi.size := by
    rw [hN]
  refine ⟨hN, fun h => ?_, fun h => ?_, fun hc => ?_, fun hf => ?_⟩
  · have h1 : ((gz r.data).length : Int) < fi.size := hlt.1 h
    refine ⟨?_, ?_⟩
    · rw [hw]; simp only [h1, if_true]
    · rw [hsize] at h1; exact_mod_cast h1
  · have h1 : ¬ ((gz r.data).length : Int) < fi.size := fun h2 => h (hlt.2 h2)
    rw [hw]; simp only [h1, if_false]
  · rw [hlt, hw]
    by_cases h1 : ((gz r.data).length : Int) < fi.size
    · simp only [h1, if_true]
    · simp only [h1, if_false, hc, Bool.false_eq_true]
  · rw [hlt, hw]
    by_cases h1 : ((gz r.data).length : Int) < fi.size
    · simp only [h1, if_true, hf, Bool.false_eq_true, not_true_eq_false]
    · simp only [h1, if_false, not_false_eq_true]

/-- A run of C1: a 2-byte file whose compressed form has 3 bytes is emitted
raw. -/
theorem compressed_iff_counted_smaller_witness :
    findAndWriteFiles.walkFn ⟨fun _ => [], fun _ => [], fun _ => [], fun _ => [], fun _ => []⟩
        (fun _ => [1, 2, 3]) (treeFS "/" sampleTree) ⟨[], ⟨[], false, false⟩⟩ "/a.txt"
        (some ⟨"a.txt", 2, 0, false⟩) (some ⟨[104, 105], 0, none, none⟩) none =
      (⟨escape [104, 105], ⟨[], false, true⟩⟩, none) :=
  (compressed_iff_counted_smaller
    ⟨fun _ => [], fun _ => [], fun _ => [], fun _ => [], fun _ => []⟩
    (fun _ => [1, 2, 3]) (treeFS "/" sampleTree) ⟨[], ⟨[], false, false⟩⟩ "/a.txt"
    ⟨"a.txt", 2, 0, false⟩ ⟨[104, 105], 0, none, none⟩ rfl rfl rfl rfl rfl).2.2.1 (by decide)

/-- Claim C5. A file whose size is 0 is emitted raw, whatever the compressor
`gz` outputs: the count `sw.N` of compressed bytes is never negative, so it is
never smaller than the size 0; and when the content is empty the Raw block
holds an empty content. -/
theorem zero_size_file_is_raw (T : Templates) (gz : List Byte → List Byte)
    (fs : FileSystem) (s : GenState) (path : String) (fi : FileInfo) (r : ReadSeeker)
    (hfile : fi.isDir = false) (hr : r.readErr = none) (hs : r.seekErr = none)
    (hp : r.pos = 0) (h0 : fi.size = 0) :
    let file : fileInfo :=
      { Path := path, Name := pathBase path, ModTime := fi.modTime, UncompressedSize := fi.size }
    let sw := (stringWriter.Write bytesBuffer
      { w := s.buf ++ T.CompressedFileInfoBefore file, N := 0 } (gz r.data)).2.2
    0 ≤ sw.N ∧ ¬ sw.N < file.UncompressedSize ∧
    findAndWriteFiles.walkFn T gz fs s path (some fi) (some r) none =
      ({ buf := s.buf ++ T.FileInfoBefore file ++ escape r.data ++ T.FileInfoAfter file,
         toc := { s.toc with HasFile := true } }, none) ∧
    (r.data = [] →
      findAndWriteFiles.walkFn T gz fs s path (some fi) (some r) none =
        ({ buf := s.buf ++ T.FileInfoBefore file ++ T.FileInfoAfter file,
           toc := { s.toc with HasFile := true } }, none)) := by
  intro file sw
  have hN : sw.N = (gz r.data).length := by
    simp only [sw, Write_bytesBuffer, zero_add]
  have hw := walkFn_file T gz fs s path fi r hfile hr hs hp
  have h1 : ¬ ((gz r.data).length : Int) < fi.size := by rw [h0]; omega
  have hraw : findAndWriteFiles.walkFn T gz fs s path (some fi) (some r) none =
      ({ buf := s.buf ++ T.FileInfoBefore file ++ escape r.data ++ T.FileInfoAfter file,
         toc := { s.toc with HasFile := true } }, none) := by
    rw [hw]; simp only [h1, if_false]
  refine ⟨by rw [hN]; omega, by rw [hN]; exact h1, hraw, fun hd => ?_⟩
  rw [hraw, hd]
  simp [escape]

/-- A run of C5: an empty file is emitted raw although the compressor is
taken to output nothing at all. -/
theorem zero_size_file_is_raw_witness :
    findAndWriteFiles.walkFn ⟨fun _ => [], fun _ => [], fun _ => [1], fun _ => [2], fun _ => []⟩
        (fun _ => []) (treeFS "/" sampleTree) ⟨[], ⟨[], false, false⟩⟩ "/a/b"
        (some ⟨"b", 0, 0, false⟩) (some ⟨[], 0, none, none⟩) none =
      (⟨[1, 2], ⟨[], false, true⟩⟩, none) :=
  (zero_size_file_is_raw
    ⟨fun _ => [], fun _ => [], fun _ => [1], fun _ => [2], fun _ => []⟩
    (fun _ => []) (treeFS "/" sampleTree) ⟨[], ⟨[], false, false⟩⟩ "/a/b"
    ⟨"b", 0, 0, false⟩ ⟨[], 0, none, none⟩ rfl rfl rfl rfl rfl).2.2.2 rfl

/-! ## The encoder: the claims -/

theorem escapeByte_eq (b : Byte) :
    escapeByte b = [byteOf '\\', byteOf 'x', byteOf (lowerHexDigit (b.val / 16)),
      byteOf (lowerHexDigit (b.val % 16))] := by
  rw [escapeByte, hexAt_eq_lowerHexDigit _ (toNat_div_lt b),
    hexAt_eq_lowerHexDigit _ (toNat_mod_lt b)]

theorem hexAt_mem (i : Nat) (h : i < 16) :
    hexAt i ∈ "\\x0123456789abcdef".data.map byteOf := by
  interval_cases i <;> decide

theorem mem_escape_alphabet (p : List Byte) :
    ∀ c ∈ escape p, c ∈ "\\x0123456789abcdef".data.map byteOf := by
  intro c hc
  simp only [escape, List.mem_flatMap] at hc
  obtain ⟨b, _, hb⟩ := hc
  simp only [escapeByte, List.mem_cons, List.mem_singleton, List.not_mem_nil, or_false] at hb
  rcases hb with rfl | rfl | rfl | rfl
  · decide
  · decide
  · exact hexAt_mem _ (toNat_div_lt b)
  · exact hexAt_mem _ (toNat_mod_lt b)

/-- Claim C4. With an underlying writer that never fails, `Write(p)` hands the
underlying writer, for each byte `b` of `p` in order, the four bytes
backslash, `x`, the lowercase hex digit of `b/16` and the lowercase hex digit
of `b%16`; it returns `n = len(p)` and no error, and it adds `len(p)` to `N`.
Into a `bytes.Buffer` the text added is `escape p`, which has `4 * len(p)`
characters, all among the backslash, `x` and the lowercase hex digits; and
after any sequence of writes `N` has grown by the total number of bytes
written. -/
theorem stringWriter_Write_escapes {ω : Type} (W : Writer ω)
    (hW : ∀ s q, (W.write s q).2 = none) (sw : stringWriter ω) (p : List Byte) :
    stringWriter.Write W sw p =
        ((p.length : Int), none,
          { w := p.foldl (fun s b => (W.write s (escapeByte b)).1) sw.w,
            N := sw.N + p.length }) ∧
      (∀ b : Byte, escapeByte b =
        [byteOf '\\', byteOf 'x', byteOf (lowerHexDigit (b.val / 16)),
          byteOf (lowerHexDigit (b.val % 16))]) ∧
      (∀ bw : stringWriter (List Byte), stringWriter.Write bytesBuffer bw p =
        ((p.length : Int), none, { w := bw.w ++ escape p, N := bw.N + p.length })) ∧
      (escape p).length = 4 * p.length ∧
      (∀ c ∈ escape p, c ∈ "\\x0123456789abcdef".data.map byteOf) ∧
      (∀ ps : List (List Byte),
        (stringWriter.writes W sw ps).N = sw.N + ((ps.map List.length).sum : Nat)) := by
  refine ⟨?_, escapeByte_eq, fun bw => Write_bytesBuffer bw p, escape_length p,
    mem_escape_alphabet p, fun ps => writes_N W hW ps sw⟩
  unfold stringWriter.Write
  rw [writeLoop_neverFails W hW]
  simp

/-- A run of C4 on the bytes 0x00, the double quote and the newline. -/
theorem stringWriter_Write_escapes_witness :
    stringWriter.Write bytesBuffer { w := [], N := 0 } [0, 34, 10] =
      (3, none, { w := "\\x00\\x22\\x0a".data.map byteOf, N := 3 }) :=
  ((stringWriter_Write_escapes bytesBuffer (fun _ _ => rfl) { w := [], N := 0 }
    [0, 34, 10]).2.2.1 { w := [], N := 0 })

/-! ## Reading the generated files -/

theorem copyBytes_take (k : Nat) (src : List Byte) :
    (copyBytes (List.replicate k 0) src).1.take (copyBytes (List.replicate k 0) src).2 =
      src.take k := by
  simp only [copyBytes, List.length_replicate]
  rw [List.take_append_eq_append_take]
  simp only [List.length_take, List.take_take]
  by_cases h : k ≤ src.length
  · simp [Nat.min_eq_left h]
  · have h2 : src.length ≤ k := by omega
    simp [Nat.min_eq_right h2, List.take_of_length_le h2, List.take_of_length_le (le_refl _), h2]

/-- Reading a raw file to its end gives the rest of its content. -/
theorem readAll_vfsgenFile (info : vfsgenFileInfo) (s : List Byte) :
    ∀ (sizes : List Nat) (i : Nat) (acc : List Byte), (∀ k ∈ sizes, 0 < k) →
      s.length - i < sizes.length →
      readAll vfsgenFile.Read sizes { info := info, Reader := { s := s, i := i } } acc =
        .done (acc ++ s.drop i) none
  | [], _, _, _, hl => by simp at hl
  | k :: ks, i, acc, hk, hl => by
    have hkpos : 0 < k := hk k (List.mem_cons_self _ _)
    by_cases hi : i ≥ s.length
    · simp [readAll, vfsgenFile.Read, bytesReader.Read, hi, List.drop_eq_nil_of_le hi]
    · have hi2 : i < s.length := by omega
      have hmin : 0 < min k (s.length - i) := by
        rw [Nat.lt_min]; exact ⟨hkpos, by omega⟩
      have hmin2 : min k (s.length - i) ≤ s.length - i := Nat.min_le_right _ _
      have ih := readAll_vfsgenFile info s ks (i + min k (s.length - i))
        (acc ++ (s.drop i).take k) (fun x hx => hk x (List.mem_cons_of_mem _ hx))
        (by simp only [List.length_cons] at hl; omega)
      have hc := copyBytes_take k (s.drop i)
      have hc2 : (copyBytes (List.replicate k 0) (s.drop i)).2 = min k (s.length - i) := by
        simp [copyBytes]
      rw [hc2] at hc
      simp only [readAll, vfsgenFile.Read, bytesReader.Read, hi, if_false, hc2, hc]
      rw [ih, List.append_assoc]
      congr 2
      have : min k (s.length - i) = min k (s.drop i).length := by simp
      rw [← List.drop_drop, this]
      by_cases hkl : k ≤ (s.drop i).length
      · rw [Nat.min_eq_left hkl]
        exact List.take_append_drop _ _
      · have hkl2 : (s.drop i).length ≤ k := by omega
        rw [Nat.min_eq_right hkl2, List.take_of_length_le hkl2, List.drop_length,
          List.append_nil]

/-- Claim C2. The text `stringWriter.Write` adds for a byte sequence `b`, read
back as the body of an interpreted string literal, is `b`. So for a file
emitted raw (its reader works and starts at 0): the Raw block holds the
literal `escape r.data`, whose value is the content `r.data`; and a raw node
whose content is the value of that literal, opened and read to the end with
non-empty buffers, returns `r.data`. The content may be empty. -/
theorem raw_content_roundtrip (T : Templates) (buf : List Byte) (file : fileInfo)
    (r : ReadSeeker) (sizes : List Nat) (hr : r.readErr = none) (hp : r.pos = 0)
    (hk : ∀ k ∈ sizes, 0 < k) (hl : r.data.length < sizes.length) :
    (∀ (b : List Byte) (sw : stringWriter (List Byte)),
        (stringWriter.Write bytesBuffer sw b).2.2.w = sw.w ++ escape b ∧
        goUnquote (escape b) = some b) ∧
      writeFileInfo T bytesBuffer buf file r =
        (buf ++ T.FileInfoBefore file ++ escape r.data ++ T.FileInfoAfter file,
          { r with pos := r.data.length }, none) ∧
      (∀ f : vfsgenFileInfo, goUnquote (escape r.data) = some f.content →
        readAll vfsgenFile.Read sizes f.openFile [] = .done r.data none) := by
  refine ⟨fun b sw => ⟨by rw [Write_bytesBuffer], goUnquote_escape b⟩,
    writeFileInfo_healthy T buf file r hr hp, fun f hf => ?_⟩
  rw [goUnquote_escape] at hf
  have hc : f.content = r.data := (Option.some.inj hf).symm
  rw [vfsgenFileInfo.openFile, hc, readAll_vfsgenFile f r.data sizes 0 [] hk (by simpa using hl)]
  simp

/-- A run of C2 on the empty file: its raw node reads back as the empty
content. -/
theorem raw_content_roundtrip_witness :
    readAll vfsgenFile.Read [512] (vfsgenFileInfo.openFile ⟨"b", 0, []⟩) [] = .done [] none :=
  (raw_content_roundtrip ⟨fun _ => [], fun _ => [], fun _ => [], fun _ => [], fun _ => []⟩
    [] ⟨"/a/b", "b", 0, 0⟩ ⟨[], 0, none, none⟩ [512] rfl rfl (by decide) (by decide)).2.2
    ⟨"b", 0, []⟩ rfl

theorem vfsgenCompressedFile.Read_drained_panics (f : vfsgenCompressedFile) (p : List Byte)
    (hsize : 1 ≤ f.info.uncompressedSize) (hgr : f.gr = []) :
    vfsgenCompressedFile.Read f p = none := by
  obtain ⟨n, hn⟩ : ∃ n, f.info.uncompressedSize.toNat = n + 1 :=
    ⟨f.info.uncompressedSize.toNat - 1, by omega⟩
  unfold vfsgenCompressedFile.Read
  simp only [hn, hgr, vfsgenCompressedFile.copyLoop]
  by_cases h : 0 < p.length <;> simp [h]

/-- Reading a compressed file of at least one byte to its end panics, with
whatever buffers: in the first `Read` when the buffer is shorter than the
file, and otherwise in the second, which finds the gzip reader drained. -/
theorem readAll_vfsgenCompressedFile_panics (f : vfsgenCompressedFile)
    (hsize : 1 ≤ f.info.uncompressedSize) (k1 k2 : Nat) (ks : List Nat) (acc : List Byte) :
    readAll vfsgenCompressedFile.Read (k1 :: k2 :: ks) f acc = .panicked := by
  rw [readAll]
  cases h1 : vfsgenCompressedFile.Read f (List.replicate k1 0) with
  | none => rfl
  | some res =>
    obtain ⟨n, err, p1, f1⟩ := res
    unfold vfsgenCompressedFile.Read at h1
    simp only at h1
    cases h2 : vfsgenCompressedFile.copyLoop f.gr f.info.uncompressedSize.toNat 0
        (List.replicate k1 0) with
    | none => rw [h2] at h1; simp at h1
    | some p2 =>
      rw [h2] at h1
      simp only [Option.some.injEq, Prod.mk.injEq] at h1
      obtain ⟨_, rfl, _, rfl⟩ := h1
      simp only
      rw [readAll, vfsgenCompressedFile.Read_drained_panics
        { info := f.info, gr := [], grPos := f.grPos, seekPos := f.seekPos } _ hsize rfl]

/-- Claim C3, at a failing input. A compressed file of 64 zero bytes, opened:
reading it to the end as `ReadFile` does (buffers of 512 bytes) panics in the
second `Read` instead of returning the 64 bytes, and a first `Read` into a
buffer of 16 bytes panics too. -/
theorem vfsgenCompressedFile_ReadAll_panics :
    (vfsgenCompressedFileInfo.openFile (fun _ => some (List.replicate 64 0))
        ⟨"b.bin", 0, [31, 139, 8], 64⟩).map
        (fun f => readAll vfsgenCompressedFile.Read [512, 512] f []) =
      some .panicked ∧
    (vfsgenCompressedFileInfo.openFile (fun _ => some (List.replicate 64 0))
        ⟨"b.bin", 0, [31, 139, 8], 64⟩).map
        (fun f => vfsgenCompressedFile.Read f (List.replicate 16 0)) = some none := by
  refine ⟨?_, by decide⟩
  simp only [vfsgenCompressedFileInfo.openFile, Option.map_some']
  rw [readAll_vfsgenCompressedFile_panics _ (by decide)]

/-! ## `Walk` and `WalkFiles` -/

theorem walkLoop_eq_walkFilesLoop {σ : Type} (fs : FileSystem) (f : WalkFunc σ)
    (rec1 : String → FileInfo → σ → WalkResult σ)
    (rec2 : String → FileInfo → File → σ → WalkResult σ)
    (hrec : ∀ q i fl s, rec1 q i s = rec2 q i fl s) (path : String) :
    ∀ (names : List String) (s : σ),
      walkLoop fs f rec1 path names s = walkFilesLoop fs f.lift rec2 path names s
  | [], s => rfl
  | name :: rest, s => by
    have ih := walkLoop_eq_walkFilesLoop fs f rec1 rec2 hrec path rest
    rw [walkLoop, walkFilesLoop]
    simp only [Stat, openStat, WalkFunc.lift]
    cases h1 : fs (pathJoin path name) with
    | error e => simp only [ih]
    | ok fl =>
      simp only
      cases h2 : fl.stat with
      | error e => simp only [ih]
      | ok fi => simp only [ih, hrec _ _ fl]

theorem walk_eq_walkFiles {σ : Type} (fs : FileSystem) (f : WalkFunc σ) :
    ∀ (fuel : Nat) (path : String) (info : FileInfo) (file : File) (s : σ),
      walk fs f fuel path info s = walkFiles fs f.lift fuel path info file s
  | 0, _, _, _, _ => rfl
  | fuel + 1, path, info, file, s => by
    rw [walk, walkFiles]
    simp only [WalkFunc.lift]
    have h := walkLoop_eq_walkFilesLoop fs f (walk fs f fuel) (walkFiles fs f.lift fuel)
      (fun q i fl s => walk_eq_walkFiles fs f fuel q i fl s) path
    simp only [h]

theorem Walk_eq_WalkFiles {σ : Type} (fs : FileSystem) (root : String) (f : WalkFunc σ)
    (fuel : Nat) (s : σ) : Walk fs root f fuel s = WalkFiles fs root f.lift fuel s := by
  unfold Walk WalkFiles
  simp only [Stat, openStat]
  cases h1 : fs root with
  | error e => rfl
  | ok fl =>
    simp only
    cases h2 : fl.stat with
    | error e => rfl
    | ok fi => exact walk_eq_walkFiles fs f fuel root fi fl s

/-! ## Paths as sequences of names: lemmas -/

theorem joinAll_append (root : String) (pre : List String) (n : String) :
    joinAll root (pre ++ [n]) = pathJoin (joinAll root pre) n := by
  simp [joinAll, List.foldl_append]

mutual
theorem Tree.paths_eq_nameSeqs (root : String) : ∀ (t : Tree) (pre : List String),
    Tree.paths (joinAll root pre) t = (Tree.nameSeqs pre t).map (joinAll root)
  | .file _ _ _, pre => by simp [Tree.paths, Tree.nodes, Tree.nameSeqs]
  | .bad _ _ _, pre => by simp [Tree.paths, Tree.nodes, Tree.nameSeqs]
  | .dir n m cs, pre => by
    have ih := Tree.pathsList_eq_nameSeqsList root cs pre
    simp only [Tree.paths, Tree.nodes, Tree.nameSeqs, List.map_cons, ih]
theorem Tree.pathsList_eq_nameSeqsList (root : String) : ∀ (cs : List Tree) (pre : List String),
    (Tree.nodesList (joinAll root pre) cs).map (·.1) =
      (Tree.nameSeqsList pre cs).map (joinAll root)
  | [], pre => by simp [Tree.nodesList, Tree.nameSeqsList]
  | c :: cs, pre => by
    have ih1 := Tree.paths_eq_nameSeqs root c (pre ++ [c.name])
    have ih2 := Tree.pathsList_eq_nameSeqsList root cs pre
    rw [joinAll_append] at ih1
    simp only [Tree.paths] at ih1
    simp only [Tree.nodesList, Tree.nameSeqsList, List.map_append, ih1, ih2]
end

theorem strLT_irrefl (a : String) : ¬ strLT a a := fun h => h.2 rfl

theorem ltSeq_prefix (pre : List String) (n : String) (r : List String) :
    ltSeq pre (pre ++ n :: r) = true := by
  induction pre with
  | nil => rfl
  | cons a as ih => simp [ltSeq, strLT_irrefl, ih]

theorem ltSeq_of_strLT (pre : List String) {a b : String} (h : strLT a b)
    (r1 r2 : List String) : ltSeq (pre ++ a :: r1) (pre ++ b :: r2) = true := by
  induction pre with
  | nil => simp [ltSeq, h]
  | cons c cs ih => simp [ltSeq, strLT_irrefl, ih]

mutual
theorem Tree.nameSeqs_prefix : ∀ (u : Tree) (q : List String), ∀ x ∈ Tree.nameSeqs q u,
    ∃ r, x = q ++ r
  | .file _ _ _, q, x, hx => by
    simp only [Tree.nameSeqs, List.mem_singleton] at hx
    exact ⟨[], by simp [hx]⟩
  | .bad _ _ _, q, x, hx => by
    simp only [Tree.nameSeqs, List.mem_singleton] at hx
    exact ⟨[], by simp [hx]⟩
  | .dir _ _ cs, q, x, hx => by
    simp only [Tree.nameSeqs, List.mem_cons] at hx
    rcases hx with hx | hx
    · exact ⟨[], by simp [hx]⟩
    · obtain ⟨c, _, r, hr⟩ := Tree.nameSeqsList_prefix cs q x hx
      exact ⟨c.name :: r, hr⟩
theorem Tree.nameSeqsList_prefix : ∀ (cs : List Tree) (q : List String),
    ∀ x ∈ Tree.nameSeqsList q cs, ∃ c ∈ cs, ∃ r, x = q ++ c.name :: r
  | [], q, x, hx => by simp [Tree.nameSeqsList] at hx
  | c :: cs, q, x, hx => by
    simp only [Tree.nameSeqsList, List.mem_append] at hx
    rcases hx with hx | hx
    · obtain ⟨r, hr⟩ := Tree.nameSeqs_prefix c (q ++ [c.name]) x hx
      exact ⟨c, List.mem_cons_self _ _, r, by simp [hr]⟩
    · obtain ⟨d, hd, r, hr⟩ := Tree.nameSeqsList_prefix cs q x hx
      exact ⟨d, List.mem_cons_of_mem _ hd, r, hr⟩
end

/-- Below a directory whose children have strictly ascending names, the
sequences of names ascend when they ascend within every child. -/
theorem Tree.nameSeqsList_pairwise (pre : List String) :
    ∀ (ds : List Tree), ds.Pairwise (fun a b => strLT a.name b.name) →
      (∀ d ∈ ds, (Tree.nameSeqs (pre ++ [d.name]) d).Pairwise (fun a b => ltSeq a b = true)) →
      (Tree.nameSeqsList pre ds).Pairwise (fun a b => ltSeq a b = true)
  | [], _, _ => by simp [Tree.nameSeqsList]
  | d :: ds, hp, hd => by
    rw [List.pairwise_cons] at hp
    rw [Tree.nameSeqsList, List.pairwise_append]
    refine ⟨hd d (List.mem_cons_self _ _),
      Tree.nameSeqsList_pairwise pre ds hp.2 (fun x hx => hd x (List.mem_cons_of_mem _ hx)), ?_⟩
    intro x hx y hy
    obtain ⟨r1, rfl⟩ := Tree.nameSeqs_prefix d _ x hx
    obtain ⟨e, he, r2, rfl⟩ := Tree.nameSeqsList_prefix ds pre y hy
    rw [List.append_assoc]
    exact ltSeq_of_strLT pre (hp.1 e he) _ _

theorem Tree.nodes_head (q : String) (c : Tree) : ∃ tl, Tree.nodes q c = (q, c) :: tl := by
  cases c <;> simp [Tree.nodes]

theorem Tree.nodes_sublist_nodesList (p : String) {c : Tree} {cs : List Tree} (h : c ∈ cs) :
    List.Sublist (Tree.nodes (pathJoin p c.name) c) (Tree.nodesList p cs) := by
  induction cs with
  | nil => cases h
  | cons d ds ih =>
    rw [Tree.nodesList]
    rcases List.mem_cons.1 h with rfl | h
    · exact List.sublist_append_left _ _
    · exact (ih h).trans (List.sublist_append_right _ _)

theorem Tree.childPaths_sublist (p : String) (cs : List Tree) :
    List.Sublist (cs.map (fun c => pathJoin p c.name)) ((Tree.nodesList p cs).map (·.1)) := by
  induction cs with
  | nil => simp [Tree.nodesList]
  | cons c cs ih =>
    obtain ⟨tl, htl⟩ := Tree.nodes_head (pathJoin p c.name) c
    rw [Tree.nodesList, htl, List.map_cons, List.map_append, List.map_cons, List.cons_append]
    exact List.Sublist.cons₂ _ (ih.trans (List.sublist_append_right _ _))

theorem Tree.nodup_child {p n : String} {m : Int} {cs : List Tree}
    (h : (Tree.paths p (.dir n m cs)).Nodup) {c : Tree} (hc : c ∈ cs) :
    (Tree.paths (pathJoin p c.name) c).Nodup := by
  simp only [Tree.paths, Tree.nodes, List.map_cons, List.nodup_cons] at h
  exact h.2.sublist ((Tree.nodes_sublist_nodesList p hc).map _)

theorem Tree.nodup_names {p n : String} {m : Int} {cs : List Tree}
    (h : (Tree.paths p (.dir n m cs)).Nodup) : (cs.map Tree.name).Nodup := by
  simp only [Tree.paths, Tree.nodes, List.map_cons, List.nodup_cons] at h
  have h2 := h.2.sublist (Tree.childPaths_sublist p cs)
  have h3 : cs.map (fun c => pathJoin p c.name) = (cs.map Tree.name).map (pathJoin p) := by
    simp
  rw [h3] at h2
  exact h2.of_map _

theorem Tree.sortedList_strictly_ascending {cs : List Tree} (h : (cs.map Tree.name).Nodup) :
    (Tree.sortedList cs).Pairwise (fun a b => strLT a.name b.name) := by
  have h1 : (Tree.sortedList cs).Pairwise Tree.nameLE := Tree.sortedList_sorted cs
  have h2 : ((Tree.sortedList cs).map Tree.name).Nodup := by
    rw [Tree.map_name_sortedList]
    exact (sortStrings_perm _).nodup_iff.2 h
  have h3 : (Tree.sortedList cs).Pairwise (fun a b => a.name ≠ b.name) :=
    List.pairwise_map.1 h2
  exact (h1.and h3).imp (fun hab => ⟨hab.1, hab.2⟩)

mutual
/-- The sequences of names of the sorted tree ascend, when the paths of the
tree are pairwise distinct. -/
theorem Tree.nameSeqs_sorted_pairwise : ∀ (t : Tree) (p : String) (pre : List String),
    (Tree.paths p t).Nodup →
    (Tree.nameSeqs pre t.sorted).Pairwise (fun a b => ltSeq a b = true)
  | .file _ _ _, _, _, _ => by simp [Tree.sorted, Tree.nameSeqs]
  | .bad _ _ _, _, _, _ => by simp [Tree.sorted, Tree.nameSeqs]
  | .dir n m cs, p, pre, h => by
    rw [Tree.sorted, Tree.nameSeqs, List.pairwise_cons]
    refine ⟨?_, ?_⟩
    · intro x hx
      obtain ⟨c, _, r, rfl⟩ := Tree.nameSeqsList_prefix _ pre x hx
      exact ltSeq_prefix pre _ _
    · apply Tree.nameSeqsList_pairwise pre _ (Tree.sortedList_strictly_ascending
        (Tree.nodup_names h))
      intro d hd
      obtain ⟨c, hc, rfl⟩ := Tree.mem_sortedList.1 hd
      exact Tree.nameSeqs_sorted_pairwiseList cs c hc (pathJoin p c.name) _
        (Tree.nodup_child h hc)
theorem Tree.nameSeqs_sorted_pairwiseList : ∀ (cs : List Tree) (c : Tree), c ∈ cs →
    ∀ (p : String) (pre : List String), (Tree.paths p c).Nodup →
    (Tree.nameSeqs pre c.sorted).Pairwise (fun a b => ltSeq a b = true)
  | [], _, h => by cases h
  | d :: ds, c, h => by
    intro p pre hn
    by_cases hcd : c = d
    · subst hcd
      exact Tree.nameSeqs_sorted_pairwise c p pre hn
    · have hm : c ∈ ds := by
        rcases List.mem_cons.1 h with h1 | h1
        · exact absurd h1 hcd
        · exact h1
      exact Tree.nameSeqs_sorted_pairwiseList ds c hm p pre hn
end

mutual
/-- The recording callback visits every entry of a tree, the ones that cannot
be opened included. -/
theorem walkTree_recordPath : ∀ (t : Tree) (p : String) (s : List String),
    walkTree recordPath p t s = (s ++ Tree.paths p t, none)
  | .file _ _ _, p, s => by simp [walkTree, recordPath, Tree.paths, Tree.nodes]
  | .bad _ _ _, p, s => by simp [walkTree, recordPath, Tree.paths, Tree.nodes]
  | .dir n m cs, p, s => by
    have ih := walkTreeList_recordPath cs p (s ++ [p])
    simp only [walkTree, recordPath, ih, Tree.paths, Tree.nodes, List.map_cons,
      List.append_assoc, List.singleton_append]
theorem walkTreeList_recordPath : ∀ (cs : List Tree) (p : String) (s : List String),
    walkTreeList recordPath p cs s = (s ++ (Tree.nodesList p cs).map (·.1), none)
  | [], p, s => by simp [walkTreeList, Tree.nodesList]
  | c :: cs, p, s => by
    have ih1 := walkTree_recordPath c (pathJoin p c.name) s
    have ih2 := walkTreeList_recordPath cs p (s ++ Tree.paths (pathJoin p c.name) c)
    rw [walkTreeList, ih1]
    simp only
    rw [ih2, Tree.nodesList, List.map_append, List.append_assoc]
    rfl
end

/-- Claim C8, refuted as stated. On `sampleTree` both `WalkFiles` and `Walk`
visit `/a/b` before `/a.txt`, although `/a.txt` is the smaller string (the
slash sorts after the dot): the sequence of visited paths is not ascending in
the order of strings. -/
theorem visits_not_ascending_as_strings :
    WalkFiles (treeFS "/" sampleTree) "/" recordPath 3 [] =
        some (["/", "/a", "/a/b", "/a.txt"], none) ∧
      Walk (treeFS "/" sampleTree) "/" recordPathW 3 [] =
        some (["/", "/a", "/a/b", "/a.txt"], none) ∧
      strLT "/a.txt" "/a/b" ∧
      ¬ List.Pairwise strLT ["/", "/a", "/a/b", "/a.txt"] := by
  decide

/-- Claim C8, amended. On the file system of a finite tree (its paths pairwise
distinct; entries that cannot be opened allowed), the paths that `WalkFiles`
and `Walk` pass to a callback that returns `nil` are the paths of the
sequences of names `Tree.nameSeqs [] t.sorted`, and these sequences ascend in
the order `ltSeq`, which compares two paths name by name from the root: when
`p` is visited before `q`, the names of `p` come before the names of `q`. -/
theorem visits_ascend_name_by_name (root : String) (t : Tree) (fuel : Nat)
    (hnd : (Tree.paths root t).Nodup) (hd : t.depth ≤ fuel) :
    WalkFiles (treeFS root t) root recordPath fuel [] =
        some ((Tree.nameSeqs [] t.sorted).map (joinAll root), none) ∧
      Walk (treeFS root t) root recordPathW fuel [] =
        some ((Tree.nameSeqs [] t.sorted).map (joinAll root), none) ∧
      (Tree.nameSeqs [] t.sorted).Pairwise (fun a b => ltSeq a b = true) := by
  have h1 : WalkFiles (treeFS root t) root recordPath fuel [] =
      some ((Tree.nameSeqs [] t.sorted).map (joinAll root), none) := by
    rw [WalkFiles_treeFS recordPath root t fuel [] hnd hd, walkTree_recordPath,
      ← Tree.paths_eq_nameSeqs root t.sorted []]
    rfl
  refine ⟨h1, ?_, Tree.nameSeqs_sorted_pairwise t root [] hnd⟩
  rw [Walk_eq_WalkFiles]
  exact h1

/-- A run of amended C8 on `sampleTree`: the sequences of names ascend. -/
theorem visits_ascend_name_by_name_witness :
    (Tree.nameSeqs [] sampleTree.sorted).Pairwise (fun a b => ltSeq a b = true) :=
  (visits_ascend_name_by_name "/" sampleTree 3 (by decide) (by decide)).2.2

/-! ## The walker when an entry cannot be opened -/

mutual
/-- The walk of a tree stops at the first entry that cannot be opened, when
the callback returns an error other than `SkipDir` for it (and `nil` on the
entries before it): the result is what the callback returned there. -/
theorem walkTree_abort {σ : Type} (fs : FileSystem) (walkFn : WalkFilesFunc σ) :
    ∀ (t : Tree) (path : String) (s : σ) (pre : List (String × Tree)) (q n : String) (a : Bool)
      (e : Error) (post : List (String × Tree)) (s1 : σ) (e1 : Error),
      Tree.nodes path t = pre ++ (q, Tree.bad n a e) :: post →
      (∀ x ∈ pre, x.2.isBad = false) →
      (∀ x ∈ pre, ∃ file, openStat fs x.1 = .ok (file, x.2.info) ∧ file.rs = x.2.reader) →
      (∀ x ∈ pre, ∀ s, (walkFn s x.1 (some x.2.info) (some x.2.reader) none).2 = none) →
      walkFn ((pre.map (·.1)).foldl (visit fs walkFn) s) q none none (some e) = (s1, some e1) →
      e1 ≠ Error.SkipDir →
      walkTree walkFn path t s = (s1, some e1)
  | .file n0 m0 c0, path, s, pre, q, n, a, e, post, s1, e1, hnodes, _, _, _, _, _ => by
    rw [Tree.nodes] at hnodes
    cases pre with
    | nil => simp at hnodes
    | cons x pre => simp at hnodes
  | .bad n0 a0 e0, path, s, pre, q, n, a, e, post, s1, e1, hnodes, _, _, _, hcall, _ => by
    rw [Tree.nodes] at hnodes
    cases pre with
    | nil =>
      simp only [List.nil_append, List.cons.injEq, Prod.mk.injEq, Tree.bad.injEq] at hnodes
      obtain ⟨⟨rfl, _, _, rfl⟩, _⟩ := hnodes
      simpa [walkTree] using hcall
    | cons x pre => simp at hnodes
  | .dir n0 m0 cs, path, s, pre, q, n, a, e, post, s1, e1, hnodes, hg, ho, hn, hcall, hne => by
    rw [Tree.nodes] at hnodes
    cases pre with
    | nil => simp at hnodes
    | cons x pre =>
      simp only [List.cons_append, List.cons.injEq] at hnodes
      obtain ⟨rfl, hrest⟩ := hnodes
      obtain ⟨file, hf, hrs⟩ := ho _ (List.mem_cons_self _ _)
      have h2 := hn _ (List.mem_cons_self _ _) s
      simp only [List.map_cons, List.foldl_cons, visit_of_openStat walkFn s hf, hrs] at hcall
      rw [walkTree]
      simp only at h2
      rcases hw : walkFn s path (some (Tree.info (.dir n0 m0 cs)))
        (some (Tree.reader (.dir n0 m0 cs))) none with ⟨s2, e2⟩
      rw [hw] at h2 hcall
      simp only at h2 hcall
      subst h2
      simp only
      exact walkTreeList_abort fs walkFn cs path s2 pre q n a e post s1 e1 hrest
        (fun x hx => hg x (List.mem_cons_of_mem _ hx))
        (fun x hx => ho x (List.mem_cons_of_mem _ hx))
        (fun x hx => hn x (List.mem_cons_of_mem _ hx)) hcall hne
/-- The statement of `walkTree_abort` for the children of a directory. -/
theorem walkTreeList_abort {σ : Type} (fs : FileSystem) (walkFn : WalkFilesFunc σ) :
    ∀ (cs : List Tree) (path : String) (s : σ) (pre : List (String × Tree)) (q n : String)
      (a : Bool) (e : Error) (post : List (String × Tree)) (s1 : σ) (e1 : Error),
      Tree.nodesList path cs = pre ++ (q, Tree.bad n a e) :: post →
      (∀ x ∈ pre, x.2.isBad = false) →
      (∀ x ∈ pre, ∃ file, openStat fs x.1 = .ok (file, x.2.info) ∧ file.rs = x.2.reader) →
      (∀ x ∈ pre, ∀ s, (walkFn s x.1 (some x.2.info) (some x.2.reader) none).2 = none) →
      walkFn ((pre.map (·.1)).foldl (visit fs walkFn) s) q none none (some e) = (s1, some e1) →
      e1 ≠ Error.SkipDir →
      walkTreeList walkFn path cs s = (s1, some e1)
  | [], path, s, pre, q, n, a, e, post, s1, e1, hnodes, _, _, _, _, _ => by
    rw [Tree.nodesList] at hnodes
    cases pre <;> simp at hnodes
  | c :: cs, path, s, pre, q, n, a, e, post, s1, e1, hnodes, hg, ho, hn, hcall, hne => by
    rw [Tree.nodesList] at hnodes
    -- the entries of `c` all come before the failing entry, or the failing entry is in `c`
    have hcases : (∃ a1, pre = Tree.nodes (pathJoin path c.name) c ++ a1 ∧
          Tree.nodesList path cs = a1 ++ (q, Tree.bad n a e) :: post) ∨
        (∃ c2, Tree.nodes (pathJoin path c.name) c = pre ++ (q, Tree.bad n a e) :: c2) := by
      rcases List.append_eq_append_iff.1 hnodes with ⟨a1, h1, h2⟩ | ⟨c1, h1, h2⟩
      · exact Or.inl ⟨a1, h1, h2⟩
      · cases c1 with
        | nil =>
          refine Or.inl ⟨[], by simpa using h1.symm, ?_⟩
          simpa using h2.symm
        | cons y c2 =>
          simp only [List.cons_append, List.cons.injEq] at h2
          obtain ⟨rfl, _⟩ := h2
          exact Or.inr ⟨c2, h1⟩
    rcases hcases with ⟨a1, rfl, hrest⟩ | ⟨c2, hin⟩
    · have hl : ∀ x ∈ Tree.nodes (pathJoin path c.name) c,
          x ∈ Tree.nodes (pathJoin path c.name) c ++ a1 := fun x hx => List.mem_append_left _ hx
      have hr : ∀ x ∈ a1, x ∈ Tree.nodes (pathJoin path c.name) c ++ a1 :=
        fun x hx => List.mem_append_right _ hx
      have hc := walkTree_eq_foldl fs walkFn c (pathJoin path c.name) s
        (fun x hx => hg x (hl x hx)) (fun x hx => ho x (hl x hx)) (fun x hx => hn x (hl x hx))
      rw [walkTreeList, hc]
      simp only
      apply walkTreeList_abort fs walkFn cs path _ a1 q n a e post s1 e1 hrest
        (fun x hx => hg x (hr x hx)) (fun x hx => ho x (hr x hx)) (fun x hx => hn x (hr x hx))
        _ hne
      simpa [List.map_append, List.foldl_append, Tree.paths] using hcall
    · have hc := walkTree_abort fs walkFn c (pathJoin path c.name) s pre q n a e c2 s1 e1 hin
        hg ho hn hcall hne
      rw [walkTreeList, hc]
      simp [hne]
end

theorem visit_of_openStat_error {σ : Type} {fs : FileSystem} (walkFn : WalkFilesFunc σ) (s : σ)
    {path : String} {e : Error} (h : openStat fs path = .error e) :
    visit fs walkFn s path = (walkFn s path none none (some e)).1 := by
  simp [visit, h]

mutual
/-- The walk of a tree goes through all its entries when the callback returns
`nil` on the entries that can be opened and `nil` or `SkipDir` on the errors
of those that cannot; below the root, `SkipDir` is not returned. -/
theorem walkTree_eq_foldl_skipping {σ : Type} (fs : FileSystem) (walkFn : WalkFilesFunc σ) :
    ∀ (t : Tree) (path : String) (s : σ),
      (∀ x ∈ Tree.nodes path t, x.2.isBad = false →
        ∃ file, openStat fs x.1 = .ok (file, x.2.info) ∧ file.rs = x.2.reader) →
      (∀ x ∈ Tree.nodes path t, ∀ n a e, x.2 = Tree.bad n a e → openStat fs x.1 = .error e) →
      (∀ x ∈ Tree.nodes path t, x.2.isBad = false → ∀ s,
        (walkFn s x.1 (some x.2.info) (some x.2.reader) none).2 = none) →
      (∀ x ∈ Tree.nodes path t, ∀ n a e, x.2 = Tree.bad n a e → ∀ s,
        (walkFn s x.1 none none (some e)).2 = none ∨
        (walkFn s x.1 none none (some e)).2 = some Error.SkipDir) →
      (walkTree walkFn path t s).1 = (Tree.paths path t).foldl (visit fs walkFn) s ∧
      ((walkTree walkFn path t s).2 = none ∨
        (t.isBad = true ∧ (walkTree walkFn path t s).2 = some Error.SkipDir))
  | .bad n a e, path, s, _, hoe, _, hb => by
    have h1 := hoe _ (Tree.self_mem_nodes path (.bad n a e)) n a e rfl
    have h2 := hb _ (Tree.self_mem_nodes path (.bad n a e)) n a e rfl s
    simp only [walkTree, Tree.paths, Tree.nodes, List.map_cons, List.map_nil, List.foldl_cons,
      List.foldl_nil, visit_of_openStat_error walkFn s h1, Tree.isBad, true_and]
    exact h2
  | .file n m c, path, s, ho, _, hn, _ => by
    obtain ⟨file, hf, hrs⟩ := ho _ (Tree.self_mem_nodes path (.file n m c)) rfl
    have h2 := hn _ (Tree.self_mem_nodes path (.file n m c)) rfl s
    simp only [walkTree, Tree.paths, Tree.nodes, List.map_cons, List.map_nil, List.foldl_cons,
      List.foldl_nil, visit_of_openStat walkFn s hf, hrs]
    exact ⟨trivial, Or.inl h2⟩
  | .dir n m cs, path, s, ho, hoe, hn, hb => by
    obtain ⟨file, hf, hrs⟩ := ho _ (Tree.self_mem_nodes path (.dir n m cs)) rfl
    have h2 := hn _ (Tree.self_mem_nodes path (.dir n m cs)) rfl s
    have hsub : ∀ x ∈ Tree.nodesList path cs, x ∈ Tree.nodes path (.dir n m cs) := by
      intro x hx; rw [Tree.nodes]; exact List.mem_cons_of_mem _ hx
    have ih := walkTreeList_eq_foldl_skipping fs walkFn cs path
      (fun x hx => ho x (hsub x hx)) (fun x hx => hoe x (hsub x hx))
      (fun x hx => hn x (hsub x hx)) (fun x hx => hb x (hsub x hx))
    simp only [Tree.paths, Tree.nodes, List.map_cons, List.foldl_cons,
      visit_of_openStat walkFn s hf, hrs]
    rw [walkTree]
    simp only at h2
    rcases hw : walkFn s path (some (Tree.info (.dir n m cs)))
      (some (Tree.reader (.dir n m cs))) none with ⟨s1, e1⟩
    rw [hw] at h2
    simp only at h2
    subst h2
    simp only [ih s1]
    exact ⟨trivial, Or.inl trivial⟩
/-- The statement of `walkTree_eq_foldl_skipping` for the children of a
directory. -/
theorem walkTreeList_eq_foldl_skipping {σ : Type} (fs : FileSystem) (walkFn : WalkFilesFunc σ) :
    ∀ (cs : List Tree) (path : String),
      (∀ x ∈ Tree.nodesList path cs, x.2.isBad = false →
        ∃ file, openStat fs x.1 = .ok (file, x.2.info) ∧ file.rs = x.2.reader) →
      (∀ x ∈ Tree.nodesList path cs, ∀ n a e, x.2 = Tree.bad n a e →
        openStat fs x.1 = .error e) →
      (∀ x ∈ Tree.nodesList path cs, x.2.isBad = false → ∀ s,
        (walkFn s x.1 (some x.2.info) (some x.2.reader) none).2 = none) →
      (∀ x ∈ Tree.nodesList path cs, ∀ n a e, x.2 = Tree.bad n a e → ∀ s,
        (walkFn s x.1 none none (some e)).2 = none ∨
        (walkFn s x.1 none none (some e)).2 = some Error.SkipDir) →
      ∀ s, walkTreeList walkFn path cs s =
        (((Tree.nodesList path cs).map (·.1)).foldl (visit fs walkFn) s, none)
  | [], path, _, _, _, _, s => by simp [walkTreeList, Tree.nodesList]
  | c :: cs, path, ho, hoe, hn, hb, s => by
    have hl : ∀ x ∈ Tree.nodes (pathJoin path c.name) c, x ∈ Tree.nodesList path (c :: cs) := by
      intro x hx; rw [Tree.nodesList]; exact List.mem_append_left _ hx
    have hr : ∀ x ∈ Tree.nodesList path cs, x ∈ Tree.nodesList path (c :: cs) := by
      intro x hx; rw [Tree.nodesList]; exact List.mem_append_right _ hx
    obtain ⟨ih1, ih1e⟩ := walkTree_eq_foldl_skipping fs walkFn c (pathJoin path c.name) s
      (fun x hx => ho x (hl x hx)) (fun x hx => hoe x (hl x hx))
      (fun x hx => hn x (hl x hx)) (fun x hx => hb x (hl x hx))
    have ih2 := walkTreeList_eq_foldl_skipping fs walkFn cs path
      (fun x hx => ho x (hr x hx)) (fun x hx => hoe x (hr x hx))
      (fun x hx => hn x (hr x hx)) (fun x hx => hb x (hr x hx))
    rw [walkTreeList]
    rcases hw : walkTree walkFn (pathJoin path c.name) c s with ⟨s1, e1⟩
    rw [hw] at ih1 ih1e
    simp only at ih1 ih1e
    subst ih1
    simp only [Tree.nodesList, List.map_append, List.foldl_append]
    rcases ih1e with rfl | ⟨hbad, rfl⟩
    · exact ih2 _
    · simp only [hbad, Bool.true_eq_false, false_and, ne_eq, not_true_eq_false, or_self,
        if_false]
      exact ih2 _
end

theorem treeFS_openStat_good {root : String} {t : Tree} (hnd : (Tree.paths root t).Nodup)
    {x : String × Tree} (hx : x ∈ Tree.nodes root t.sorted) (hg : x.2.isBad = false) :
    ∃ file, openStat (treeFS root t) x.1 = .ok (file, x.2.info) ∧ file.rs = x.2.reader := by
  obtain ⟨u, hu1, hu2⟩ := Tree.mem_nodes_sorted hx
  rw [hu2, Tree.sorted_isBad] at hg
  refine ⟨u.handle, ?_, ?_⟩
  · rw [hu2, Tree.sorted_info]
    exact openStat_of_good (treeFS_resolves hnd _ _ hu1) hg
  · rw [hu2, Tree.sorted_reader]; rfl

theorem treeFS_openStat_bad {root : String} {t : Tree} (hnd : (Tree.paths root t).Nodup)
    {x : String × Tree} (hx : x ∈ Tree.nodes root t.sorted) {n : String} {a : Bool} {e : Error}
    (hb : x.2 = Tree.bad n a e) : openStat (treeFS root t) x.1 = .error e := by
  obtain ⟨u, hu1, hu2⟩ := Tree.mem_nodes_sorted hx
  have hu : u = Tree.bad n a e := by
    rw [hb] at hu2
    cases u <;> simp_all [Tree.sorted]
  subst hu
  exact openStat_of_bad (treeFS_resolves hnd _ _ hu1)

/-- Claim C9, refuted as stated. On `brokenTree` opening `/a` fails; the
callback `recordPath` answers the error with `nil`, not with `SkipDir`, and
the walk does not abort: it goes on to visit `/b` and returns `nil`. And when
opening the root itself fails and the callback answers `SkipDir`, `WalkFiles`
returns `SkipDir` to its caller. -/
theorem WalkFiles_open_failure_not_always_fatal :
    WalkFiles (treeFS "/" brokenTree) "/" recordPath 2 [] = some (["/", "/a", "/b"], none) ∧
      WalkFiles (treeFS "/" (Tree.bad "/" false (Error.other "permission denied"))) "/"
        recordSkip 1 [] = some (["/"], some Error.SkipDir) := by
  decide

/-- Claim C9, amended. On the file system of a finite tree, let an entry that
cannot be opened or examined be reached after entries that could, on which
the callback returned `nil`; the callback is handed the error. (1) If it
returns an error other than `SkipDir`, `WalkFiles` returns that error and the
state the callback left there: nothing is visited after the failing entry.
The callback of `findAndWriteFiles` returns the error it is handed (5), so for
it every such failure is fatal. (2) If the callback answers such errors with
`nil` or `SkipDir` and the root can be opened, the walk visits all the entries
of the tree, the later siblings of a failing entry included, and returns
`nil`: `SkipDir` is not returned. (3) In the loop of `walkFiles`, after a
failed `openStat` the callback's answer alone decides: an error other than
`SkipDir` is returned at once, and otherwise the loop goes on with the next
name. (4) When `openStat` fails on the root, `WalkFiles` returns what the
callback returns, `SkipDir` included. -/
theorem WalkFiles_open_failure {σ : Type} (walkFn : WalkFilesFunc σ) (root : String) (t : Tree)
    (fuel : Nat) (s : σ) (hnd : (Tree.paths root t).Nodup) (hd : t.depth ≤ fuel) :
    (∀ pre q n a e post s1 e1,
        Tree.nodes root t.sorted = pre ++ (q, Tree.bad n a e) :: post →
        (∀ x ∈ pre, x.2.isBad = false ∧
          ∀ s, (walkFn s x.1 (some x.2.info) (some x.2.reader) none).2 = none) →
        walkFn ((pre.map (·.1)).foldl (visit (treeFS root t) walkFn) s) q none none (some e) =
          (s1, some e1) →
        e1 ≠ Error.SkipDir →
        WalkFiles (treeFS root t) root walkFn fuel s = some (s1, some e1)) ∧
      (t.isBad = false →
        (∀ x ∈ Tree.nodes root t.sorted, x.2.isBad = false →
          ∀ s, (walkFn s x.1 (some x.2.info) (some x.2.reader) none).2 = none) →
        (∀ x ∈ Tree.nodes root t.sorted, ∀ n a e, x.2 = Tree.bad n a e → ∀ s,
          (walkFn s x.1 none none (some e)).2 = none ∨
          (walkFn s x.1 none none (some e)).2 = some Error.SkipDir) →
        WalkFiles (treeFS root t) root walkFn fuel s =
          some ((Tree.paths root t.sorted).foldl (visit (treeFS root t) walkFn) s, none)) ∧
      (∀ (fs : FileSystem) (recurse : String → FileInfo → File → σ → WalkResult σ)
          (path name : String) (rest : List String) (s : σ) (e : Error),
        openStat fs (pathJoin path name) = .error e →
        walkFilesLoop fs walkFn recurse path (name :: rest) s =
          match walkFn s (pathJoin path name) none none (some e) with
          | (s1, some e1) =>
            if e1 ≠ Error.SkipDir then some (s1, some e1)
            else walkFilesLoop fs walkFn recurse path rest s1
          | (s1, none) => walkFilesLoop fs walkFn recurse path rest s1) ∧
      (∀ (fs : FileSystem) (e : Error), openStat fs root = .error e →
        WalkFiles fs root walkFn fuel s = some (walkFn s root none none (some e))) ∧
      (∀ (T : Templates) (gz : List Byte → List Byte) (fs : FileSystem) (s : GenState)
          (path : String) (e : Error),
        findAndWriteFiles.walkFn T gz fs s path none none (some e) = (s, some e)) := by
  refine ⟨?_, ?_, ?_, ?_, ?_⟩
  · intro pre q n a e post s1 e1 horder hpre hcall hne
    rw [WalkFiles_treeFS walkFn root t fuel s hnd hd]
    congr 1
    have hmem : ∀ x ∈ pre, x ∈ Tree.nodes root t.sorted := by
      intro x hx; rw [horder]; exact List.mem_append_left _ hx
    exact walkTree_abort (treeFS root t) walkFn t.sorted root s pre q n a e post s1 e1 horder
      (fun x hx => (hpre x hx).1)
      (fun x hx => treeFS_openStat_good hnd (hmem x hx) (hpre x hx).1)
      (fun x hx => (hpre x hx).2) hcall hne
  · intro hroot hn hb
    rw [WalkFiles_treeFS walkFn root t fuel s hnd hd]
    congr 1
    obtain ⟨h1, h2⟩ := walkTree_eq_foldl_skipping (treeFS root t) walkFn t.sorted root s
      (fun x hx hg => treeFS_openStat_good hnd hx hg)
      (fun x hx n a e hxb => treeFS_openStat_bad hnd hx hxb) hn hb
    rw [Tree.sorted_isBad, hroot] at h2
    simp only [Bool.false_eq_true, false_and, or_false] at h2
    exact Prod.ext h1 h2
  · intro fs recurse path name rest s e h
    rw [walkFilesLoop]
    simp only [h]
  · intro fs e h
    simp only [WalkFiles, h]
  · intro T gz fs s path e
    rfl

/-- A run of amended C9 on `brokenTree` with a callback that returns the error
it is handed: the walk stops at `/a` with its error and never visits `/b`. -/
theorem WalkFiles_open_failure_witness :
    WalkFiles (treeFS "/" brokenTree) "/" recordPropagate 2 [] =
      some (["/", "/a"], some (Error.other "permission denied")) :=
  (WalkFiles_open_failure recordPropagate "/" brokenTree 2 [] (by decide) (by decide)).1
    [("/", brokenTree.sorted)] "/a" "a" false (Error.other "permission denied")
    [("/b", .file "b" 0 [])] ["/", "/a"] (Error.other "permission denied") rfl
    (by
      intro x hx
      simp only [List.mem_singleton] at hx
      subst hx
      exact ⟨rfl, fun _ => rfl⟩)
    (by decide) (by decide)

/-! ## The directory entries the generator records -/

theorem sortStrings_eq_of_perm {l1 l2 : List String} (h : l1.Perm l2) :
    sortStrings l1 = sortStrings l2 :=
  List.eq_of_perm_of_sorted ((sortStrings_perm l1).trans (h.trans (sortStrings_perm l2).symm))
    (sortStrings_sorted l1) (sortStrings_sorted l2)

theorem Tree.dirEntry_sorted (q : String) (u : Tree) :
    Tree.dirEntry q u.sorted = Tree.dirEntry q u := by
  cases u with
  | file => rfl
  | bad => rfl
  | dir n m cs =>
    simp only [Tree.sorted, Tree.dirEntry, Option.some.injEq, dirInfo.mk.injEq, true_and]
    apply sortStrings_eq_of_perm
    have h := (Tree.sortedList_perm cs).map (fun c => pathJoin q c.name)
    simpa [Function.comp_def] using h

theorem readDirPaths_of_dir {fs : FileSystem} {q n : String} {m : Int} {cs : List Tree}
    (h : fs q = (Tree.dir n m cs).openFile) :
    readDirPaths fs q = .ok (sortStrings (cs.map (fun c => pathJoin q c.name))) := by
  simp [readDirPaths, ReadDir, h, Tree.openFile, Tree.handle, Tree.readdir, Function.comp_def]

theorem walkFn_dir (T : Templates) (gz : List Byte → List Byte) (fs : FileSystem)
    (s : GenState) (path : String) (fi : FileInfo) (r : ReadSeeker) (entries : List String)
    (hdir : fi.isDir = true) (hrd : readDirPaths fs path = .ok entries) :
    findAndWriteFiles.walkFn T gz fs s path (some fi) (some r) none =
      let dir : dirInfo :=
        { Path := path, Name := pathBase path, ModTime := fi.modTime, Entries := entries }
      ({ buf := s.buf ++ T.DirInfo dir, toc := { s.toc with dirs := s.toc.dirs ++ [dir] } },
        none) := by
  unfold findAndWriteFiles.walkFn
  simp only [hdir, hrd, Bool.true_eq_false, if_false]
  rfl

/-- On an entry of the source tree the callback of `findAndWriteFiles` returns
`nil` and adds to `toc.dirs` the entry of a directory, nothing for a file. -/
theorem walkFn_tree_entry (T : Templates) (gz : List Byte → List Byte) (fs : FileSystem)
    (s : GenState) (q : String) (u : Tree) (hfs : fs q = u.openFile) (hg : u.isBad = false) :
    (findAndWriteFiles.walkFn T gz fs s q (some u.info) (some u.reader) none).2 = none ∧
      (findAndWriteFiles.walkFn T gz fs s q (some u.info) (some u.reader) none).1.toc.dirs =
        s.toc.dirs ++ (Tree.dirEntry q u).toList := by
  cases u with
  | bad => simp [Tree.isBad] at hg
  | file n m c =>
    rw [walkFn_file T gz fs s q _ _ rfl rfl rfl rfl]
    simp only [Tree.dirEntry, Option.toList, List.append_nil]
    split_ifs <;> exact ⟨rfl, rfl⟩
  | dir n m cs =>
    rw [walkFn_dir T gz fs s q _ _ _ rfl (readDirPaths_of_dir hfs)]
    exact ⟨rfl, rfl⟩

theorem foldl_visit_dirs (T : Templates) (gz : List Byte → List Byte) (fs : FileSystem) :
    ∀ (L : List (String × Tree)) (s : GenState),
      (∀ x ∈ L, ∃ u : Tree, fs x.1 = u.openFile ∧ u.isBad = false ∧ x.2 = u.sorted) →
      ((L.map (·.1)).foldl (visit fs (findAndWriteFiles.walkFn T gz fs)) s).toc.dirs =
        s.toc.dirs ++ L.filterMap (fun x => Tree.dirEntry x.1 x.2)
  | [], s, _ => by simp
  | x :: L, s, h => by
    obtain ⟨u, hfs, hg, hx⟩ := h x (List.mem_cons_self _ _)
    have ih := foldl_visit_dirs T gz fs L
      (visit fs (findAndWriteFiles.walkFn T gz fs) s x.1)
      (fun y hy => h y (List.mem_cons_of_mem _ hy))
    have hstep := (walkFn_tree_entry T gz fs s x.1 u hfs hg).2
    rw [List.map_cons, List.foldl_cons, ih,
      visit_of_openStat _ s (openStat_of_good hfs hg)]
    have hrs : u.handle.rs = u.reader := rfl
    rw [hrs, hstep]
    simp only [List.filterMap_cons, hx, Tree.dirEntry_sorted]
    cases hde : Tree.dirEntry x.1 u <;> simp

/-- Claim C10. After `findAndWriteFiles` on the file system of a finite tree
(paths pairwise distinct, every entry can be opened, fuel for its depth), the
walk has returned `nil` and has added to `toc.dirs` exactly one `dirInfo` for
each directory it visited; for every directory of the tree, with path `d` and
listed children `cs`, the `dirInfo` recorded has `Entries` equal to the
sorted list of the paths `Join(d, name)` of the names of `cs`; nothing else
is added; and a sorted list is in ascending order and a rearrangement of the
list sorted, so no child is missing, added or repeated. -/
theorem dirEntries_sorted_children (T : Templates) (gz : List Byte → List Byte) (t : Tree)
    (fuel : Nat) (s0 : GenState) (hnd : (Tree.paths "/" t).Nodup) (hg : Tree.allGood "/" t)
    (hd : t.depth ≤ fuel) :
    ∃ s1 : GenState,
      findAndWriteFiles T gz (treeFS "/" t) fuel s0 = some (s1, none) ∧
      s1.toc.dirs =
        s0.toc.dirs ++ (Tree.nodes "/" t.sorted).filterMap (fun x => Tree.dirEntry x.1 x.2) ∧
      (∀ d n m cs, (d, Tree.dir n m cs) ∈ Tree.nodes "/" t →
        ({ Path := d, Name := pathBase d, ModTime := m,
           Entries := sortStrings (cs.map (fun c => pathJoin d c.name)) } : dirInfo) ∈
          s1.toc.dirs) ∧
      (∀ de ∈ s1.toc.dirs, de ∈ s0.toc.dirs ∨
        ∃ d n m cs, (d, Tree.dir n m cs) ∈ Tree.nodes "/" t ∧
          de = { Path := d, Name := pathBase d, ModTime := m,
                 Entries := sortStrings (cs.map (fun c => pathJoin d c.name)) }) ∧
      (∀ l : List String, (sortStrings l).Sorted strLE ∧ (sortStrings l).Perm l) := by
  have hr := treeFS_resolves hnd
  have hwalk := WalkFiles_eq_foldl (findAndWriteFiles.walkFn T gz (treeFS "/" t)) "/" t fuel s0
    hnd hd hg (fun x hx s => (walkFn_tree_entry T gz _ s x.1 x.2 (hr _ _ hx) (hg x hx)).1)
  have hdirs := foldl_visit_dirs T gz (treeFS "/" t) (Tree.nodes "/" t.sorted) s0 (by
    intro x hx
    obtain ⟨u, hu1, hu2⟩ := Tree.mem_nodes_sorted hx
    exact ⟨u, hr _ _ hu1, hg _ hu1, hu2⟩)
  refine ⟨_, hwalk, hdirs, ?_, ?_, fun l => ⟨sortStrings_sorted l, sortStrings_perm l⟩⟩
  · intro d n m cs hmem
    have hmem2 : (d, (Tree.dir n m cs).sorted) ∈ Tree.nodes "/" t.sorted :=
      (Tree.nodes_sorted_perm t "/").mem_iff.2 (List.mem_map.2 ⟨_, hmem, rfl⟩)
    rw [show Tree.paths "/" t.sorted = (Tree.nodes "/" t.sorted).map (·.1) from rfl, hdirs]
    apply List.mem_append_right
    rw [List.mem_filterMap]
    exact ⟨_, hmem2, by rw [Tree.dirEntry_sorted]; rfl⟩
  · intro de hde
    rw [show Tree.paths "/" t.sorted = (Tree.nodes "/" t.sorted).map (·.1) from rfl, hdirs,
      List.mem_append] at hde
    rcases hde with hde | hde
    · exact Or.inl hde
    · right
      obtain ⟨x, hx, hxe⟩ := List.mem_filterMap.1 hde
      obtain ⟨u, hu1, hu2⟩ := Tree.mem_nodes_sorted hx
      rw [hu2, Tree.dirEntry_sorted] at hxe
      cases u with
      | file => simp [Tree.dirEntry] at hxe
      | bad => simp [Tree.dirEntry] at hxe
      | dir n m cs =>
        simp only [Tree.dirEntry, Option.some.injEq] at hxe
        exact ⟨x.1, n, m, cs, hu1, hxe.symm⟩

/-- A run of C10 on `sampleTree`: the directory `/` is recorded with the
entries `/a`, `/a.txt`, in this order, although it lists `a.txt` first. -/
theorem dirEntries_sorted_children_witness :
    ∃ s1 : GenState,
      findAndWriteFiles ⟨fun _ => [], fun _ => [], fun _ => [], fun _ => [], fun _ => []⟩
        (fun b => b) (treeFS "/" sampleTree) 3 ⟨[], ⟨[], false, false⟩⟩ = some (s1, none) ∧
      (⟨"/", "/", 0, ["/a", "/a.txt"]⟩ : dirInfo) ∈ s1.toc.dirs := by
  obtain ⟨s1, h1, _, h3, _⟩ := dirEntries_sorted_children
    ⟨fun _ => [], fun _ => [], fun _ => [], fun _ => [], fun _ => []⟩ (fun b => b) sampleTree 3
    ⟨[], ⟨[], false, false⟩⟩ (by decide) (by decide) (by decide)
  exact ⟨s1, h1, h3 "/" "/" 0 _ (List.mem_cons_self _ _)⟩

/-! ## The generated file system: `Open` -/

/-- Claim C11. For every map of nodes and every path `p`, the generated `Open`
returns the error `&os.PathError{Op: "open", Path: Clean("/" + p), Err:
os.ErrNotExist}` if and only if `Clean("/" + p)` is not a key of the map, and
it returns no other error. For a key that is present it returns no error and
the handle of the kind of the node: a raw file handle with a reader at the
start of the content, a directory handle at position 0, and, for a compressed
node whose payload is a gzip stream, a compressed file handle over its
decompressed content (the case of a file kind exists in the generated code
when the flag of that kind is set). -/
theorem Open_notExist_iff_absent (flags : toc) (gunzip : List Byte → Option (List Byte))
    (fs : vfsgenFS) (p : String) :
    (vfsgenFS.Open flags gunzip fs p =
        some (.error (Error.PathError "open" (pathClean ("/" ++ p)) Error.ErrNotExist)) ↔
      fs (pathClean ("/" ++ p)) = none) ∧
    (∀ e, vfsgenFS.Open flags gunzip fs p = some (.error e) →
      e = Error.PathError "open" (pathClean ("/" ++ p)) Error.ErrNotExist) ∧
    (∀ f, fs (pathClean ("/" ++ p)) = some (.file f) → flags.HasFile = true →
      vfsgenFS.Open flags gunzip fs p =
        some (.ok (.file { info := f, Reader := { s := f.content, i := 0 } }))) ∧
    (∀ d, fs (pathClean ("/" ++ p)) = some (.dir d) →
      vfsgenFS.Open flags gunzip fs p = some (.ok (.dir { info := d, pos := 0 }))) ∧
    (∀ f c, fs (pathClean ("/" ++ p)) = some (.compressed f) →
      flags.HasCompressedFile = true → gunzip f.compressedContent = some c →
      vfsgenFS.Open flags gunzip fs p =
        some (.ok (.compressedFile { info := f, gr := c, grPos := 0, seekPos := 0 }))) := by
  refine ⟨?_, ?_, ?_, ?_, ?_⟩
  · cases h : fs (pathClean ("/" ++ p)) with
    | none => simp [vfsgenFS.Open, h]
    | some n =>
      cases n with
      | compressed f =>
        by_cases hc : flags.HasCompressedFile = true
        · cases hf : f.openFile gunzip <;> simp [vfsgenFS.Open, h, hc, hf]
        · simp [vfsgenFS.Open, h, hc]
      | file f =>
        by_cases hc : flags.HasFile = true <;> simp [vfsgenFS.Open, h, hc]
      | dir d => simp [vfsgenFS.Open, h]
  · intro e he
    cases h : fs (pathClean ("/" ++ p)) with
    | none =>
      simp only [vfsgenFS.Open, h, Option.some.injEq, Except.error.injEq] at he
      exact he.symm
    | some n =>
      cases n with
      | compressed f =>
        by_cases hc : flags.HasCompressedFile = true
        · cases hf : f.openFile gunzip <;> simp [vfsgenFS.Open, h, hc, hf] at he
        · simp [vfsgenFS.Open, h, hc] at he
      | file f =>
        by_cases hc : flags.HasFile = true <;> simp [vfsgenFS.Open, h, hc] at he
      | dir d => simp [vfsgenFS.Open, h] at he
  · intro f h hf
    simp [vfsgenFS.Open, h, hf, vfsgenFileInfo.openFile]
  · intro d h
    simp [vfsgenFS.Open, h]
  · intro f c h hf hc
    simp [vfsgenFS.Open, h, hf, vfsgenCompressedFileInfo.openFile, hc]

/-- A run of C11 on `sampleFS`: a path that is no key gives the error, and
paths are cleaned before they are looked up. -/
theorem Open_notExist_iff_absent_witness :
    vfsgenFS.Open ⟨[], false, true⟩ (fun _ => none) sampleFS "/missing" =
        some (.error (Error.PathError "open" "/missing" Error.ErrNotExist)) ∧
      vfsgenFS.Open ⟨[], false, true⟩ (fun _ => none) sampleFS "a.txt" =
        some (.ok (.file ⟨⟨"a.txt", 0, [104, 105]⟩, ⟨[104, 105], 0⟩⟩)) ∧
      vfsgenFS.Open ⟨[], false, true⟩ (fun _ => none) sampleFS "/x/.." =
        some (.ok (.dir ⟨⟨"/", 0, ["/a.txt"]⟩, 0⟩)) :=
  ⟨(Open_notExist_iff_absent ⟨[], false, true⟩ (fun _ => none) sampleFS "/missing").1.2 rfl,
    (Open_notExist_iff_absent ⟨[], false, true⟩ (fun _ => none) sampleFS "a.txt").2.2.1
      ⟨"a.txt", 0, [104, 105]⟩ rfl rfl,
    (Open_notExist_iff_absent ⟨[], false, true⟩ (fun _ => none) sampleFS "/x/..").2.2.2.1
      ⟨"/", 0, ["/a.txt"]⟩ rfl⟩

/-! ## The generated file system: directory handles -/

/-- Claim C14. `Seek` on a directory handle succeeds if and only if the offset
is 0 and `whence` is `io.SeekStart`; it then sets the position to 0 and
returns 0. Every other call returns 0 and the error "unsupported Seek in
directory" with the name of the directory, and leaves the handle as it
was. -/
theorem vfsgenDir_Seek_only_to_start {ε : Type} (d : vfsgenDir ε) (offset whence : Int) :
    ((d.Seek offset whence).2.1 = none ↔ offset = 0 ∧ whence = SeekStart) ∧
    (offset = 0 ∧ whence = SeekStart → d.Seek offset whence = (0, none, { d with pos := 0 })) ∧
    (¬ (offset = 0 ∧ whence = SeekStart) →
      d.Seek offset whence =
        (0, some (Error.other ("unsupported Seek in directory " ++ d.info.name)), d)) := by
  unfold vfsgenDir.Seek
  by_cases h : offset = 0 ∧ whence = SeekStart
  · simp [h]
  · simp [h]

/-- A run of C14: a seek to offset 3 fails and keeps the position 2; a seek
to the start resets it. -/
theorem vfsgenDir_Seek_samples :
    (vfsgenDir.Seek (⟨⟨"d", 0, ["x", "y", "z"]⟩, 2⟩ : vfsgenDir String) 3 SeekStart =
        (0, some (Error.other "unsupported Seek in directory d"), ⟨⟨"d", 0, ["x", "y", "z"]⟩, 2⟩)) ∧
      (vfsgenDir.Seek (⟨⟨"d", 0, ["x", "y", "z"]⟩, 2⟩ : vfsgenDir String) 0 SeekCurrent).2.1 ≠
        none ∧
      vfsgenDir.Seek (⟨⟨"d", 0, ["x", "y", "z"]⟩, 2⟩ : vfsgenDir String) 0 SeekStart =
        (0, none, ⟨⟨"d", 0, ["x", "y", "z"]⟩, 0⟩) := by
  decide

/-- Claim C15. `Read` on a directory handle returns 0 and an error whose text
is "cannot Read from directory" followed by the name of the directory; the
buffer and the handle, its position included, are left as they were. -/
theorem vfsgenDir_Read_fails {ε : Type} (d : vfsgenDir ε) (p : List Byte) :
    d.Read p = some (0, some (Error.other ("cannot Read from directory " ++ d.info.name)), p, d) ∧
    ∃ msg, d.Read p = some (0, some (Error.other msg), p, d) ∧
      msg.data = "cannot Read from directory ".data ++ d.info.name.data :=
  ⟨rfl, _, rfl, by simp⟩

/-! ## The generated file system: `Stat` -/

/-- Claim C17, refuted as stated. The mode of a directory node is
`0755 | os.ModeDir`, in which the write-permission bit of the owner (octal
0200) is set. -/
theorem dir_mode_has_write_bit :
    (Handle.Stat (.dir ⟨⟨"d", 0, []⟩, 0⟩)).1.fileInfo.Mode = 0o755 ||| ModeDir ∧
      (Handle.Stat (.dir ⟨⟨"d", 0, []⟩, 0⟩)).1.fileInfo.Mode &&& writeBits = 0o200 ∧
      (Handle.Stat (.dir ⟨⟨"d", 0, []⟩, 0⟩)).1.fileInfo.Mode &&& writeBits ≠ 0 := by
  decide

/-- Claim C17, amended. `Stat` on a handle of any kind returns no error and the
node the handle was opened on. The mode of a node is fixed by its kind: 0444
for a compressed and for a raw file, with no write-permission bit and no
directory bit, and `0755 | os.ModeDir` for a directory, with the directory bit
and, of the write-permission bits, that of the owner. `IsDir` and the
directory bit of the mode are set exactly for the directory nodes, and the
size of a compressed node is its uncompressed size. -/
theorem Stat_returns_node_metadata (h : Handle) :
    h.Stat = (h.node, none) ∧
    (∀ f, h.node = .compressed f →
      h.node.fileInfo = ⟨f.name, f.uncompressedSize, 0o444, f.modTime, false⟩) ∧
    (∀ f, h.node = .file f →
      h.node.fileInfo = ⟨f.name, f.content.length, 0o444, f.modTime, false⟩) ∧
    (∀ d, h.node = .dir d →
      h.node.fileInfo = ⟨d.name, 0, 0o755 ||| ModeDir, d.modTime, true⟩) ∧
    (h.node.fileInfo.IsDir = true ↔ ∃ d, h.node = .dir d) ∧
    (h.node.fileInfo.Mode &&& ModeDir ≠ 0 ↔ ∃ d, h.node = .dir d) ∧
    (h.node.fileInfo.Mode &&& writeBits = 0 ↔ ¬ ∃ d, h.node = .dir d) ∧
    ((0o444 : Nat) &&& writeBits = 0 ∧ (0o755 ||| ModeDir) &&& writeBits = 0o200) := by
  refine ⟨rfl, ?_, ?_, ?_, ?_, ?_, ?_, by decide⟩
  · intro f hf; rw [hf]; rfl
  · intro f hf; rw [hf]; rfl
  · intro d hd; rw [hd]; rfl
  · cases h.node <;> simp [Node.fileInfo, vfsgenCompressedFileInfo.fileInfo,
      vfsgenFileInfo.fileInfo, vfsgenDirInfo.fileInfo]
  · cases h.node with
    | compressed f =>
      simp only [Node.fileInfo, vfsgenCompressedFileInfo.fileInfo, reduceCtorEq, exists_false,
        iff_false, not_not]
      decide
    | file f =>
      simp only [Node.fileInfo, vfsgenFileInfo.fileInfo, reduceCtorEq, exists_false,
        iff_false, not_not]
      decide
    | dir d =>
      simp only [Node.fileInfo, vfsgenDirInfo.fileInfo, Node.dir.injEq, exists_eq', iff_true]
      decide
  · cases h.node with
    | compressed f =>
      simp only [Node.fileInfo, vfsgenCompressedFileInfo.fileInfo, reduceCtorEq, exists_false,
        not_false_eq_true, iff_true]
      decide
    | file f =>
      simp only [Node.fileInfo, vfsgenFileInfo.fileInfo, reduceCtorEq, exists_false,
        not_false_eq_true, iff_true]
      decide
    | dir d =>
      simp only [Node.fileInfo, vfsgenDirInfo.fileInfo, Node.dir.injEq, exists_eq',
        not_true_eq_false, iff_false]
      decide

/-! ## The generated file system: `Readdir` -/

theorem sliceExpr_nat {ε : Type} (l : List ε) (a b : Nat) (hab : a ≤ b) (hb : b ≤ l.length) :
    sliceExpr l (a : Int) (b : Int) = some ((l.drop a).take (b - a)) := by
  unfold sliceExpr
  have h : (0 : Int) ≤ a ∧ (a : Int) ≤ b ∧ (b : Int) ≤ l.length := by omega
  rw [if_pos h]
  have h2 : ((b : Int) - (a : Int)).toNat = b - a := by omega
  simp [h2]

/-- `Readdir(k)` with `k > 0` before the end of the entries. -/
theorem Readdir_pos_nat {ε : Type} (info : vfsgenDirInfo ε) (P K : Nat)
    (hP : P < info.entries.length) (hK : 0 < K) :
    vfsgenDir.Readdir { info := info, pos := (P : Int) } (K : Int) =
      some ((info.entries.drop P).take (min K (info.entries.length - P)), none,
        { info := info, pos := ((P + min K (info.entries.length - P) : Nat) : Int) }) := by
  unfold vfsgenDir.Readdir
  have h1 : ¬ ((P : Int) ≥ (info.entries.length : Int) ∧ (K : Int) > 0) := by omega
  simp only [h1, if_false]
  have hc : (if (K : Int) ≤ 0 ∨ (K : Int) > (info.entries.length : Int) - (P : Int) then
        (info.entries.length : Int) - (P : Int) else (K : Int)) =
      ((min K (info.entries.length - P) : Nat) : Int) := by
    split_ifs with h <;> omega
  rw [hc]
  have hsum : (P : Int) + ((min K (info.entries.length - P) : Nat) : Int) =
      ((P + min K (info.entries.length - P) : Nat) : Int) := by push_cast; rfl
  rw [hsum, sliceExpr_nat _ _ _ (by omega) (by omega)]
  simp

/-- `Readdir(k)` with `k <= 0`, anywhere within the entries. -/
theorem Readdir_nonpos_nat {ε : Type} (info : vfsgenDirInfo ε) (P : Nat) (k : Int)
    (hP : P ≤ info.entries.length) (hk : k ≤ 0) :
    vfsgenDir.Readdir { info := info, pos := (P : Int) } k =
      some (info.entries.drop P, none,
        { info := info, pos := (info.entries.length : Int) }) := by
  unfold vfsgenDir.Readdir
  have h1 : ¬ ((P : Int) ≥ (info.entries.length : Int) ∧ k > 0) := by omega
  simp only [h1, if_false]
  have hc : (if k ≤ 0 ∨ k > (info.entries.length : Int) - (P : Int) then
        (info.entries.length : Int) - (P : Int) else k) =
      (info.entries.length : Int) - (P : Int) := by
    rw [if_pos (Or.inl hk)]
  rw [hc]
  have hsum : (P : Int) + ((info.entries.length : Int) - (P : Int)) =
      (info.entries.length : Int) := by omega
  rw [hsum, sliceExpr_nat _ _ _ hP (le_refl _)]
  simp

/-- `Readdir(k)` with `k > 0` at the end of the entries. -/
theorem Readdir_end {ε : Type} (d : vfsgenDir ε) (k : Int)
    (hP : d.pos ≥ d.info.entries.length) (hk : 0 < k) :
    d.Readdir k = some ([], some Error.EOF, d) := by
  unfold vfsgenDir.Readdir
  rw [if_pos ⟨hP, hk⟩]

theorem readdirChunks_spec {ε : Type} (info : vfsgenDirInfo ε) (K : Nat) (hK : 0 < K) :
    ∀ (fuel P : Nat), P ≤ info.entries.length → info.entries.length - P < fuel →
      ∃ chunks, readdirChunks (K : Int) fuel { info := info, pos := (P : Int) } = some chunks ∧
        chunks.flatten = info.entries.drop P ∧ ∀ c ∈ chunks, c ≠ [] ∧ c.length ≤ K
  | 0, _, _, h => by omega
  | fuel + 1, P, hP, hf => by
    by_cases hend : P = info.entries.length
    · refine ⟨[], ?_, ?_, by simp⟩
      · rw [readdirChunks, Readdir_end _ _ (by simp [hend]) (by omega)]
        simp
      · simp [hend]
    · have hlt : P < info.entries.length := by omega
      obtain ⟨rest, hr1, hr2, hr3⟩ := readdirChunks_spec info K hK fuel
        (P + min K (info.entries.length - P)) (by omega) (by omega)
      refine ⟨(info.entries.drop P).take (min K (info.entries.length - P)) :: rest, ?_, ?_, ?_⟩
      · rw [readdirChunks, Readdir_pos_nat info P K hlt hK]
        simp only [hr1, Option.map_some']
      · rw [List.flatten_cons, hr2, ← List.drop_drop, List.take_append_drop]
      · intro c hc
        rcases List.mem_cons.1 hc with rfl | hc
        · refine ⟨?_, ?_⟩
          · intro h0
            have := congrArg List.length h0
            simp at this
            omega
          · simp
        · exact hr3 c hc

/-- Claim C12, refuted as stated. On a directory of five entries `Readdir(0)`
returns the five entries; a second `Readdir(0)` on the handle returns an empty
list and a `nil` error, not `io.EOF`. -/
theorem Readdir_zero_twice_no_EOF :
    vfsgenDir.Readdir ⟨fiveEntries, 0⟩ 0 =
        some (["/d/1", "/d/2", "/d/3", "/d/4", "/d/5"], none, ⟨fiveEntries, 5⟩) ∧
      vfsgenDir.Readdir ⟨fiveEntries, 5⟩ 0 = some ([], none, ⟨fiveEntries, 5⟩) ∧
      vfsgenDir.Readdir ⟨fiveEntries, 5⟩ 0 ≠ some ([], some Error.EOF, ⟨fiveEntries, 5⟩) := by
  decide

/-- Claim C12, amended. On a freshly opened handle of a directory of `n`
entries `Readdir(0)` returns all `n` entries once, in stored order, with a
`nil` error, and leaves the position at `n`. The next `Readdir` call with a
positive count returns no entry and `io.EOF`; the next call with a count of 0
or less returns an empty list and a `nil` error. -/
theorem Readdir_all_then_EOF {ε : Type} (info : vfsgenDirInfo ε) :
    vfsgenDir.Readdir { info := info, pos := 0 } 0 =
        some (info.entries, none, { info := info, pos := info.entries.length }) ∧
      (∀ k : Int, 0 < k →
        vfsgenDir.Readdir { info := info, pos := info.entries.length } k =
          some ([], some Error.EOF, { info := info, pos := info.entries.length })) ∧
      (∀ k : Int, k ≤ 0 →
        vfsgenDir.Readdir { info := info, pos := info.entries.length } k =
          some ([], none, { info := info, pos := info.entries.length })) := by
  refine ⟨?_, fun k hk => Readdir_end _ k (le_refl _) hk, fun k hk => ?_⟩
  · have h := Readdir_nonpos_nat info 0 0 (Nat.zero_le _) (le_refl _)
    simpa using h
  · have h := Readdir_nonpos_nat info info.entries.length k (le_refl _) hk
    simpa using h

/-- A run of amended C12 on a directory of five entries: all five, then
`io.EOF` for `Readdir(1)`. -/
theorem Readdir_all_then_EOF_witness :
    vfsgenDir.Readdir ⟨fiveEntries, 0⟩ 0 =
        some (["/d/1", "/d/2", "/d/3", "/d/4", "/d/5"], none, ⟨fiveEntries, 5⟩) ∧
      vfsgenDir.Readdir ⟨fiveEntries, 5⟩ 1 = some ([], some Error.EOF, ⟨fiveEntries, 5⟩) :=
  ⟨(Readdir_all_then_EOF fiveEntries).1, (Readdir_all_then_EOF fiveEntries).2.1 1 (by decide)⟩

/-- Claim C13. For a directory handle whose position is within its entries
(`0 <= pos <= len(entries)`): `Readdir(k)` with `k > 0` before the end
returns the next `min(k, remaining)` entries and advances the position by
that many; it returns an error only at the end, and then `io.EOF` and no
entry, and the handle is unchanged; `Readdir(k)` with `k <= 0` returns all
the remaining entries and no error; no call panics, and `Readdir` and `Seek`
leave the position within the entries; and repeated `Readdir(k)` calls, `k >
0`, reach `io.EOF` after returning non-empty chunks of at most `k` entries
whose concatenation is the remaining entries in order (from a fresh handle:
all the entries). -/
theorem Readdir_chunks {ε : Type} (d : vfsgenDir ε) (h0 : 0 ≤ d.pos)
    (hn : d.pos ≤ d.info.entries.length) :
    (∀ k : Int, 0 < k → d.pos < d.info.entries.length →
      d.Readdir k =
        some ((d.info.entries.drop d.pos.toNat).take
            (min k (d.info.entries.length - d.pos)).toNat, none,
          { d with pos := d.pos + min k (d.info.entries.length - d.pos) })) ∧
    (∀ k : Int, 0 < k →
      (d.Readdir k = some ([], some Error.EOF, d) ↔ d.pos = d.info.entries.length)) ∧
    (∀ (k : Int) es e d1, d.Readdir k = some (es, some e, d1) →
      0 < k ∧ e = Error.EOF ∧ es = [] ∧ d1 = d ∧ d.pos = d.info.entries.length) ∧
    (∀ k : Int, k ≤ 0 →
      d.Readdir k =
        some (d.info.entries.drop d.pos.toNat, none,
          { d with pos := d.info.entries.length })) ∧
    (∀ k : Int, ∃ es err d1, d.Readdir k = some (es, err, d1) ∧ d1.info = d.info ∧
      0 ≤ d1.pos ∧ d1.pos ≤ d1.info.entries.length) ∧
    (∀ offset whence : Int, (d.Seek offset whence).2.2.info = d.info ∧
      0 ≤ (d.Seek offset whence).2.2.pos ∧
      (d.Seek offset whence).2.2.pos ≤ d.info.entries.length) ∧
    (∀ k : Int, 0 < k →
      ∃ chunks, readdirChunks k ((d.info.entries.length - d.pos).toNat + 1) d = some chunks ∧
        chunks.flatten = d.info.entries.drop d.pos.toNat ∧
        ∀ c ∈ chunks, c ≠ [] ∧ (c.length : Int) ≤ k) := by
  obtain ⟨info, pos⟩ := d
  simp only at h0 hn ⊢
  obtain ⟨P, rfl⟩ : ∃ P : Nat, pos = P := ⟨pos.toNat, (Int.toNat_of_nonneg h0).symm⟩
  have hP : P ≤ info.entries.length := by omega
  have hpos : ∀ k : Int, 0 < k → (P : Int) < info.entries.length →
      vfsgenDir.Readdir { info := info, pos := (P : Int) } k =
        some ((info.entries.drop P).take (min k.toNat (info.entries.length - P)), none,
          { info := info, pos := ((P + min k.toNat (info.entries.length - P) : Nat) : Int) }) := by
    intro k hk hlt
    have h := Readdir_pos_nat info P k.toNat (by omega) (by omega)
    rwa [Int.toNat_of_nonneg (le_of_lt hk)] at h
  refine ⟨?_, ?_, ?_, ?_, ?_, ?_, ?_⟩
  · intro k hk hlt
    rw [hpos k hk hlt]
    have e1 : (min k ((info.entries.length : Int) - (P : Int))).toNat =
        min k.toNat (info.entries.length - P) := by omega
    have e2 : (P : Int) + min k ((info.entries.length : Int) - (P : Int)) =
        ((P + min k.toNat (info.entries.length - P) : Nat) : Int) := by omega
    simp only [Int.toNat_ofNat, e1, e2]
  · intro k hk
    constructor
    · intro h
      by_contra hne
      have hlt : (P : Int) < info.entries.length := by omega
      rw [hpos k hk hlt] at h
      simp at h
    · intro h
      exact Readdir_end _ k (by simp [h]) hk
  · intro k es e d1 h
    by_cases hk : 0 < k
    · by_cases hlt : (P : Int) < info.entries.length
      · rw [hpos k hk hlt] at h
        simp at h
      · rw [Readdir_end _ k (by simpa using hlt) hk] at h
        simp only [Option.some.injEq, Prod.mk.injEq] at h
        obtain ⟨h1, h2, h3⟩ := h
        exact ⟨hk, h2.symm, h1.symm, h3.symm, by omega⟩
    · rw [Readdir_nonpos_nat info P k hP (by omega)] at h
      simp at h
  · intro k hk
    rw [Readdir_nonpos_nat info P k hP hk]
    simp
  · intro k
    by_cases hk : 0 < k
    · by_cases hlt : (P : Int) < info.entries.length
      · rw [hpos k hk hlt]
        refine ⟨_, _, _, rfl, rfl, ?_, ?_⟩
        · show (0 : Int) ≤ ((P + min k.toNat (info.entries.length - P) : Nat) : Int)
          omega
        · show ((P + min k.toNat (info.entries.length - P) : Nat) : Int) ≤
            (info.entries.length : Int)
          omega
      · rw [Readdir_end _ k (by simpa using hlt) hk]
        exact ⟨_, _, _, rfl, rfl, by simp, by simpa using hP⟩
    · rw [Readdir_nonpos_nat info P k hP (by omega)]
      exact ⟨_, _, _, rfl, rfl, by simp, by simp⟩
  · intro offset whence
    unfold vfsgenDir.Seek
    split_ifs
    · exact ⟨rfl, le_refl _, by simp⟩
    · exact ⟨rfl, by simp, by simpa using hP⟩
  · intro k hk
    obtain ⟨chunks, hc1, hc2, hc3⟩ := readdirChunks_spec info k.toNat (by omega)
      (info.entries.length - P + 1) P hP (by omega)
    rw [Int.toNat_of_nonneg (le_of_lt hk)] at hc1
    refine ⟨chunks, ?_, by simpa using hc2, fun c hc => ⟨(hc3 c hc).1, ?_⟩⟩
    · have e : ((info.entries.length : Int) - (P : Int)).toNat = info.entries.length - P := by
        omega
      rw [e]
      exact hc1
    · have := (hc3 c hc).2
      omega

/-- A run of C13 on a directory of five entries: `Readdir(2)` gives the chunks
of 2, 2 and 1 entries and then `io.EOF`. -/
theorem Readdir_chunks_witness :
    ∃ chunks, readdirChunks 2 6 (⟨fiveEntries, 0⟩ : vfsgenDir String) = some chunks ∧
      chunks.flatten = ["/d/1", "/d/2", "/d/3", "/d/4", "/d/5"] ∧
      ∀ c ∈ chunks, c ≠ [] ∧ (c.length : Int) ≤ 2 :=
  (Readdir_chunks (⟨fiveEntries, 0⟩ : vfsgenDir String) (by decide) (by decide)).2.2.2.2.2.2 2
    (by decide)

/-! ## The generated file system: `Seek` and `Read` on a compressed file -/

/-- What `Read` on a compressed file returns does not depend on the position
that `Seek` has set. -/
theorem vfsgenCompressedFile.Read_ignores_seekPos (f : vfsgenCompressedFile) (x : Int)
    (p : List Byte) :
    (vfsgenCompressedFile.Read { f with seekPos := x } p).map (fun r => (r.1, r.2.1, r.2.2.1)) =
      (vfsgenCompressedFile.Read f p).map (fun r => (r.1, r.2.1, r.2.2.1)) := by
  unfold vfsgenCompressedFile.Read
  simp only
  cases vfsgenCompressedFile.copyLoop f.gr f.info.uncompressedSize.toNat 0 p <;> rfl

/-- Claim C16, at a failing input. On an opened compressed file of the bytes
10, 20, 30, 40, `Seek(2, io.SeekStart)` returns 2; after it, a `Read` into a
buffer of 2 bytes (the length of `c[2:]`) panics, and a `Read` into a buffer
of 4 bytes returns the 4 bytes from the start of the content, not the bytes
30, 40 from the position 2. -/
theorem vfsgenCompressedFile_Read_ignores_Seek :
    sampleCompressed.Seek 2 SeekStart =
        some (2, none, { sampleCompressed with seekPos := 2 }) ∧
      vfsgenCompressedFile.Read { sampleCompressed with seekPos := 2 } [0, 0] = none ∧
      vfsgenCompressedFile.Read { sampleCompressed with seekPos := 2 } [0, 0, 0, 0] =
        some (4, none, [10, 20, 30, 40], { sampleCompressed with seekPos := 2, gr := [] }) := by
  decide

/-! ## Options -/

theorem append_ne_empty (a : String) {b : String} (hb : b ≠ "") : a ++ b ≠ "" := by
  intro h
  apply hb
  have h2 := congrArg String.data h
  rw [String.data_append] at h2
  have h3 : b.data = [] := (List.append_eq_nil.1 h2).2
  cases b
  simp_all

theorem Options.fillMissing_of_filled (toLower : String → String) (opt : Options)
    (h1 : opt.PackageName ≠ "") (h2 : opt.VariableName ≠ "") (h3 : opt.Filename ≠ "")
    (h4 : opt.VariableComment ≠ "") : opt.fillMissing toLower = opt := by
  simp [Options.fillMissing, h1, h2, h3, h4]

theorem Options.fillMissing_fields (toLower : String → String) (opt : Options) :
    (opt.fillMissing toLower).PackageName =
        (if opt.PackageName = "" then "main" else opt.PackageName) ∧
      (opt.fillMissing toLower).VariableName =
        (if opt.VariableName = "" then "assets" else opt.VariableName) ∧
      (opt.fillMissing toLower).VariableComment =
        (if opt.VariableComment = "" then
          (opt.fillMissing toLower).VariableName ++
            " statically implements the virtual filesystem provided to vfsgen."
        else opt.VariableComment) ∧
      (opt.fillMissing toLower).BuildTags = opt.BuildTags ∧
      (opt.fillMissing toLower).Filename =
        (if opt.Filename = "" then toLower (opt.fillMissing toLower).VariableName ++ "_vfsdata.go"
        else opt.Filename) := by
  unfold Options.fillMissing
  by_cases h1 : opt.PackageName = "" <;> by_cases h2 : opt.VariableName = "" <;>
    by_cases h3 : opt.Filename = "" <;> by_cases h4 : opt.VariableComment = "" <;>
    simp [h1, h2, h3, h4]

/-- Claim C18. `fillMissing` sets `PackageName` to "main" when it was empty and
`VariableName` to "assets" when it was empty; it sets `VariableComment`, when
it was empty, to the variable name, already defaulted, followed by
" statically implements the virtual filesystem provided to vfsgen."; it
leaves `BuildTags` and every field that was not empty unchanged; and applied
a second time it changes nothing. -/
theorem fillMissing_defaults (toLower : String → String) (opt : Options) :
    (opt.fillMissing toLower).PackageName =
        (if opt.PackageName = "" then "main" else opt.PackageName) ∧
      (opt.fillMissing toLower).VariableName =
        (if opt.VariableName = "" then "assets" else opt.VariableName) ∧
      (opt.fillMissing toLower).VariableComment =
        (if opt.VariableComment = "" then
          (if opt.VariableName = "" then "assets" else opt.VariableName) ++
            " statically implements the virtual filesystem provided to vfsgen."
        else opt.VariableComment) ∧
      (opt.fillMissing toLower).BuildTags = opt.BuildTags ∧
      (opt.Filename ≠ "" → (opt.fillMissing toLower).Filename = opt.Filename) ∧
      (opt.fillMissing toLower).fillMissing toLower = opt.fillMissing toLower := by
  obtain ⟨f1, f2, f3, f4, f5⟩ := Options.fillMissing_fields toLower opt
  refine ⟨f1, f2, ?_, f4, fun h => by rw [f5, if_neg h], ?_⟩
  · rw [f3, f2]
  · apply Options.fillMissing_of_filled
    · rw [f1]; split_ifs with h
      · decide
      · exact h
    · rw [f2]; split_ifs with h
      · decide
      · exact h
    · rw [f5]; split_ifs with h
      · exact append_ne_empty _ (by decide)
      · exact h
    · rw [f3]; split_ifs with h
      · exact append_ne_empty _ (by decide)
      · exact h

/-- A run of C18 on the empty options (with a `toLower` that changes
nothing, as `strings.ToLower` does on "assets"). -/
theorem fillMissing_defaults_witness :
    (Options.fillMissing id ⟨"", "", "", "", ""⟩).PackageName = "main" ∧
      (Options.fillMissing id ⟨"", "", "", "", ""⟩).VariableName = "assets" ∧
      (Options.fillMissing id ⟨"", "", "", "", ""⟩).VariableComment =
        "assets statically implements the virtual filesystem provided to vfsgen." ∧
      (Options.fillMissing id ⟨"", "", "", "", ""⟩).BuildTags = "" :=
  ⟨(fillMissing_defaults id ⟨"", "", "", "", ""⟩).1,
    (fillMissing_defaults id ⟨"", "", "", "", ""⟩).2.1,
    (fillMissing_defaults id ⟨"", "", "", "", ""⟩).2.2.1,
    (fillMissing_defaults id ⟨"", "", "", "", ""⟩).2.2.2.1⟩

theorem findAndWriteFiles_treeFS (T : Templates) (gz : List Byte → List Byte) (t : Tree)
    (fuel : Nat) (s0 : GenState) (hnd : (Tree.paths "/" t).Nodup) (hg : Tree.allGood "/" t)
    (hd : t.depth ≤ fuel) :
    findAndWriteFiles T gz (treeFS "/" t) fuel s0 =
      some ((Tree.paths "/" t.sorted).foldl
        (visit (treeFS "/" t) (findAndWriteFiles.walkFn T gz (treeFS "/" t))) s0, none) :=
  WalkFiles_eq_foldl (findAndWriteFiles.walkFn T gz (treeFS "/" t)) "/" t fuel s0 hnd hd hg
    (fun x hx s =>
      (walkFn_tree_entry T gz _ s x.1 x.2 (treeFS_resolves hnd _ _ hx) (hg x hx)).1)

/-- Claim C19. Whenever `Generate` hands a file to `ioutil.WriteFile`, the file
name is `expectedFilename`: for options with an empty `Filename` the
lower-cased `VariableName`, replaced by "assets" first when it is empty,
followed by "_vfsdata.go", and a non-empty `Filename` unchanged. Entirely
empty options give "assets_vfsdata.go" (`strings.ToLower` leaves "assets" as
it is). On the file system of a finite tree, with fuel for its depth,
`Generate` does hand a file of that name to `ioutil.WriteFile`. -/
theorem Generate_output_filename (toLower : String → String) (O : OuterTemplates)
    (T : Templates) (gz : List Byte → List Byte) (writeErr : Option Error) (opt : Options)
    (fuel : Nat) :
    (∀ input r name data, Generate toLower O T gz writeErr input opt fuel = some r →
      r.written = some (name, data) → name = expectedFilename toLower opt) ∧
    (opt.Filename = "" → expectedFilename toLower opt =
      toLower (if opt.VariableName = "" then "assets" else opt.VariableName) ++ "_vfsdata.go") ∧
    (opt.Filename ≠ "" → expectedFilename toLower opt = opt.Filename) ∧
    (toLower "assets" = "assets" →
      expectedFilename toLower ⟨"", "", "", "", ""⟩ = "assets_vfsdata.go") ∧
    (∀ t : Tree, (Tree.paths "/" t).Nodup → Tree.allGood "/" t → t.depth ≤ fuel →
      ∃ data, Generate toLower O T gz writeErr (treeFS "/" t) opt fuel =
        some { written := some (expectedFilename toLower opt, data), err := writeErr }) := by
  have hname : (opt.fillMissing toLower).Filename = expectedFilename toLower opt := by
    obtain ⟨_, f2, _, _, f5⟩ := Options.fillMissing_fields toLower opt
    rw [f5, f2]
    rfl
  refine ⟨?_, fun h => by simp [expectedFilename, h], fun h => by simp [expectedFilename, h],
    fun h => ?_, ?_⟩
  · intro input r name data hgen hw
    unfold Generate at hgen
    simp only at hgen
    cases hf : findAndWriteFiles T gz input fuel
        { buf := O.Header (opt.fillMissing toLower), toc := ⟨[], false, false⟩ } with
    | none => rw [hf] at hgen; simp at hgen
    | some res =>
      rw [hf] at hgen
      obtain ⟨s1, e⟩ := res
      cases e with
      | some e =>
        simp only [Option.some.injEq] at hgen
        rw [← hgen] at hw
        simp at hw
      | none =>
        simp only [Option.some.injEq] at hgen
        rw [← hgen] at hw
        simp only [Option.some.injEq, Prod.mk.injEq] at hw
        rw [← hw.1, hname]
  · simp only [expectedFilename, if_true, h]
    decide
  · intro t hnd hg hd
    unfold Generate
    simp only [findAndWriteFiles_treeFS T gz t fuel _ hnd hg hd, hname]
    exact ⟨_, rfl⟩

/-- A run of C19: on `sampleTree`, with empty options, `Generate` writes the
file `assets_vfsdata.go`. -/
theorem Generate_output_filename_witness :
    ∃ data, Generate id ⟨fun _ => [], fun _ => [], fun _ => []⟩
        ⟨fun _ => [], fun _ => [], fun _ => [], fun _ => [], fun _ => []⟩ id none
        (treeFS "/" sampleTree) ⟨"", "", "", "", ""⟩ 3 =
      some { written := some ("assets_vfsdata.go", data), err := none } :=
  (Generate_output_filename id ⟨fun _ => [], fun _ => [], fun _ => []⟩
    ⟨fun _ => [], fun _ => [], fun _ => [], fun _ => [], fun _ => []⟩ id none
    ⟨"", "", "", "", ""⟩ 3).2.2.2.2 sampleTree (by decide) (by decide) (by decide)

/-! ## The keys of the generated map -/

theorem Tree.block_sorted (T : Templates) (gz : List Byte → List Byte) (q : String) (u : Tree) :
    Tree.block T gz q u.sorted = Tree.block T gz q u := by
  cases u with
  | file => rfl
  | bad => rfl
  | dir n m cs =>
    have h := Tree.dirEntry_sorted q (.dir n m cs)
    simp only [Tree.sorted, Tree.dirEntry, Option.some.injEq] at h
    simp only [Tree.sorted, Tree.block, h]

theorem Tree.declaredNode_sorted (gz : List Byte → List Byte) (q : String) (u : Tree) :
    Tree.declaredNode gz q u.sorted = Tree.declaredNode gz q u := by
  cases u <;> rfl

/-- On an entry of the source tree the callback of `findAndWriteFiles` adds
the block of the entry to the buffer. -/
theorem walkFn_tree_entry_buf (T : Templates) (gz : List Byte → List Byte) (fs : FileSystem)
    (s : GenState) (q : String) (u : Tree) (hfs : fs q = u.openFile) (hg : u.isBad = false) :
    (findAndWriteFiles.walkFn T gz fs s q (some u.info) (some u.reader) none).1.buf =
      s.buf ++ Tree.block T gz q u := by
  cases u with
  | bad => simp [Tree.isBad] at hg
  | file n m c =>
    rw [walkFn_file T gz fs s q _ _ rfl rfl rfl rfl]
    simp only [Tree.block, Tree.info, Tree.reader, Nat.cast_lt]
    split_ifs <;> simp [List.append_assoc]
  | dir n m cs =>
    rw [walkFn_dir T gz fs s q _ _ _ rfl (readDirPaths_of_dir hfs)]
    rfl

theorem foldl_visit_buf (T : Templates) (gz : List Byte → List Byte) (fs : FileSystem) :
    ∀ (L : List (String × Tree)) (s : GenState),
      (∀ x ∈ L, ∃ u : Tree, fs x.1 = u.openFile ∧ u.isBad = false ∧ x.2 = u.sorted) →
      ((L.map (·.1)).foldl (visit fs (findAndWriteFiles.walkFn T gz fs)) s).buf =
        s.buf ++ L.flatMap (fun x => Tree.block T gz x.1 x.2)
  | [], s, _ => by simp
  | x :: L, s, h => by
    obtain ⟨u, hfs, hg, hx⟩ := h x (List.mem_cons_self _ _)
    have ih := foldl_visit_buf T gz fs L
      (visit fs (findAndWriteFiles.walkFn T gz fs) s x.1)
      (fun y hy => h y (List.mem_cons_of_mem _ hy))
    have hstep := walkFn_tree_entry_buf T gz fs s x.1 u hfs hg
    rw [List.map_cons, List.foldl_cons, ih,
      visit_of_openStat _ s (openStat_of_good hfs hg)]
    have hrs : u.handle.rs = u.reader := rfl
    rw [hrs, hstep]
    simp only [List.flatMap_cons, hx, Tree.block_sorted, List.append_assoc]

mutual
/-- A child of a directory of the tree is an entry of the tree. -/
theorem Tree.child_mem_nodes : ∀ (u : Tree) (p d n : String) (m : Int) (cs : List Tree)
    (c : Tree), (d, Tree.dir n m cs) ∈ Tree.nodes p u → c ∈ cs →
    (pathJoin d c.name, c) ∈ Tree.nodes p u
  | .file _ _ _, p, d, n, m, cs, c, h, _ => by simp [Tree.nodes] at h
  | .bad _ _ _, p, d, n, m, cs, c, h, _ => by simp [Tree.nodes] at h
  | .dir n0 m0 cs0, p, d, n, m, cs, c, h, hc => by
    rw [Tree.nodes, List.mem_cons] at h
    rw [Tree.nodes]
    apply List.mem_cons_of_mem
    rcases h with h | h
    · simp only [Prod.mk.injEq, Tree.dir.injEq] at h
      obtain ⟨rfl, rfl, rfl, rfl⟩ := h
      exact Tree.nodes_subset_nodesList d hc _ (Tree.self_mem_nodes _ c)
    · exact Tree.child_mem_nodesList cs0 p d n m cs c h hc
/-- The statement of `Tree.child_mem_nodes` below a directory. -/
theorem Tree.child_mem_nodesList : ∀ (cs0 : List Tree) (p d n : String) (m : Int)
    (cs : List Tree) (c : Tree), (d, Tree.dir n m cs) ∈ Tree.nodesList p cs0 → c ∈ cs →
    (pathJoin d c.name, c) ∈ Tree.nodesList p cs0
  | [], p, d, n, m, cs, c, h, _ => by simp [Tree.nodesList] at h
  | c0 :: rest, p, d, n, m, cs, c, h, hc => by
    rw [Tree.nodesList, List.mem_append] at h
    rw [Tree.nodesList, List.mem_append]
    rcases h with h | h
    · exact Or.inl (Tree.child_mem_nodes c0 _ d n m cs c h hc)
    · exact Or.inr (Tree.child_mem_nodesList rest p d n m cs c h hc)
end

theorem populateDir_ok (fs : vfsgenFS) (dir : dirInfo)
    (hp : ∃ d, fs dir.Path = some (.dir d)) (he : ∀ e ∈ dir.Entries, (fs e).isSome = true) :
    ∃ fs1, populateDir fs dir = some fs1 ∧
      (∀ p, (fs1 p).isSome = (fs p).isSome) ∧
      (∀ p, (∃ d, fs1 p = some (.dir d)) ↔ ∃ d, fs p = some (.dir d)) := by
  obtain ⟨d, hd⟩ := hp
  unfold populateDir
  by_cases hnil : dir.Entries = []
  · exact ⟨fs, by simp [hnil], fun _ => rfl, fun _ => Iff.rfl⟩
  · have hall : dir.Entries.all (fun e => (fs e).isSome) = true := by
      rw [List.all_eq_true]; exact he
    refine ⟨fun p => if p = dir.Path then some (.dir { d with entries := dir.Entries })
      else fs p, by simp only [hnil, if_false, hd, hall, if_true], ?_, ?_⟩
    · intro p
      by_cases hpd : p = dir.Path
      · simp [hpd, hd]
      · simp [hpd]
    · intro p
      by_cases hpd : p = dir.Path
      · simp [hpd, hd]
      · simp [hpd]

/-- The population of the directory entries does not panic when every recorded
directory is the key of a directory node and every entry recorded is a key
of the map; it changes neither the keys of the map nor the kinds of the
nodes. -/
theorem populateEntries_ok : ∀ (dirs : List dirInfo) (fs : vfsgenFS),
    (∀ de ∈ dirs, (∃ d, fs de.Path = some (.dir d)) ∧
      ∀ e ∈ de.Entries, (fs e).isSome = true) →
    ∃ fs1, populateEntries fs dirs = some fs1 ∧ ∀ p, (fs1 p).isSome = (fs p).isSome
  | [], fs, _ => ⟨fs, rfl, fun _ => rfl⟩
  | de :: rest, fs, h => by
    obtain ⟨fs1, h1, h2, h3⟩ := populateDir_ok fs de (h de (List.mem_cons_self _ _)).1
      (h de (List.mem_cons_self _ _)).2
    obtain ⟨fs2, h4, h5⟩ := populateEntries_ok rest fs1 (by
      intro x hx
      obtain ⟨hx1, hx2⟩ := h x (List.mem_cons_of_mem _ hx)
      exact ⟨(h3 _).2 hx1, fun e he => by rw [h2]; exact hx2 e he⟩)
    refine ⟨fs2, ?_, fun p => by rw [h5, h2]⟩
    rw [populateEntries, h1]
    exact h4

theorem declaredFS_of_mem (gz : List Byte → List Byte) {visited : List (String × Tree)}
    (hnd : (visited.map (·.1)).Nodup) {q : String} {u : Tree} (h : (q, u) ∈ visited) :
    declaredFS gz visited q = Tree.declaredNode gz q u := by
  simp only [declaredFS, lookup_of_mem_nodup hnd h]

theorem declaredFS_isSome_iff (gz : List Byte → List Byte) {visited : List (String × Tree)}
    (hnd : (visited.map (·.1)).Nodup) (hg : ∀ x ∈ visited, x.2.isBad = false) (p : String) :
    (declaredFS gz visited p).isSome = true ↔ p ∈ visited.map (·.1) := by
  constructor
  · intro h
    by_contra hp
    have hl : visited.lookup p = none := by
      rw [List.lookup_eq_none_iff]
      intro x hx
      have hne : x.1 ≠ p := fun he => hp (List.mem_map.2 ⟨x, hx, he⟩)
      simpa using Ne.symm hne
    simp [declaredFS, hl] at h
  · intro h
    obtain ⟨x, hx, rfl⟩ := List.mem_map.1 h
    rw [declaredFS_of_mem gz hnd (show (x.1, x.2) ∈ visited from hx)]
    have hb := hg x hx
    cases hx2 : x.2 with
    | bad => rw [hx2] at hb; simp [Tree.isBad] at hb
    | file n m c =>
      simp only [Tree.declaredNode]
      split_ifs <;> rfl
    | dir n m cs => rfl

theorem Tree.dirEntry_eq_some {q : String} {u : Tree} {de : dirInfo}
    (h : Tree.dirEntry q u = some de) :
    ∃ n m cs, u = .dir n m cs ∧ de.Path = q ∧
      de.Entries = sortStrings (cs.map (fun c => pathJoin q c.name)) := by
  cases u with
  | file => simp [Tree.dirEntry] at h
  | bad => simp [Tree.dirEntry] at h
  | dir n m cs =>
    simp only [Tree.dirEntry, Option.some.injEq] at h
    exact ⟨n, m, cs, rfl, by rw [← h], by rw [← h]⟩

/-- After `findAndWriteFiles` on the file system of a finite tree whose paths
are pairwise distinct: one block per visited path, the recorded directories
and their entries among the visited paths, and the population of the
directory entries without a panic. -/
theorem findAndWriteFiles_keys_closed (T : Templates) (gz : List Byte → List Byte)
    (t : Tree) (fuel : Nat) (s0 : GenState) (hnd : (Tree.paths "/" t).Nodup)
    (hg : Tree.allGood "/" t) (hd : t.depth ≤ fuel) (hs0 : s0.toc.dirs = []) :
    ∃ s1 : GenState,
      findAndWriteFiles T gz (treeFS "/" t) fuel s0 = some (s1, none) ∧
      s1.buf = s0.buf ++ (Tree.nodes "/" t.sorted).flatMap (fun x => Tree.block T gz x.1 x.2) ∧
      (Tree.paths "/" t.sorted).Nodup ∧
      (∀ de ∈ s1.toc.dirs, de.Path ∈ Tree.paths "/" t.sorted ∧
        ∀ e ∈ de.Entries, e ∈ Tree.paths "/" t.sorted) ∧
      (∀ p, (declaredFS gz (Tree.nodes "/" t.sorted) p).isSome = true ↔
        p ∈ Tree.paths "/" t.sorted) ∧
      ∃ fs1, populateEntries (declaredFS gz (Tree.nodes "/" t.sorted)) s1.toc.dirs = some fs1 ∧
        ∀ p, (fs1 p).isSome = true ↔ p ∈ Tree.paths "/" t.sorted := by
  have hr := treeFS_resolves hnd
  have hnd2 : (Tree.paths "/" t.sorted).Nodup := (Tree.paths_sorted_perm t "/").nodup_iff.2 hnd
  have horig : ∀ x ∈ Tree.nodes "/" t.sorted,
      ∃ u : Tree, treeFS "/" t x.1 = u.openFile ∧ u.isBad = false ∧ x.2 = u.sorted := by
    intro x hx
    obtain ⟨u, hu1, hu2⟩ := Tree.mem_nodes_sorted hx
    exact ⟨u, hr _ _ hu1, hg _ hu1, hu2⟩
  have hg2 : ∀ x ∈ Tree.nodes "/" t.sorted, x.2.isBad = false := by
    intro x hx
    obtain ⟨u, _, hu2, hu3⟩ := horig x hx
    rw [hu3, Tree.sorted_isBad, hu2]
  have hwalk := findAndWriteFiles_treeFS T gz t fuel s0 hnd hg hd
  have hbuf := foldl_visit_buf T gz (treeFS "/" t) (Tree.nodes "/" t.sorted) s0 horig
  have hdirs := foldl_visit_dirs T gz (treeFS "/" t) (Tree.nodes "/" t.sorted) s0 horig
  rw [hs0, List.nil_append] at hdirs
  have hdom := @declaredFS_isSome_iff gz (Tree.nodes "/" t.sorted) hnd2 hg2
  have hclosed : ∀ de ∈ (Tree.nodes "/" t.sorted).filterMap (fun x => Tree.dirEntry x.1 x.2),
      (∃ x ∈ Tree.nodes "/" t.sorted, x.1 = de.Path ∧ ∃ n m cs, x.2 = Tree.dir n m cs) ∧
      ∀ e ∈ de.Entries, e ∈ Tree.paths "/" t.sorted := by
    intro de hde
    obtain ⟨x, hx, hxe⟩ := List.mem_filterMap.1 hde
    obtain ⟨n, m, cs, hu, hpath, hent⟩ := Tree.dirEntry_eq_some hxe
    refine ⟨⟨x, hx, hpath.symm, n, m, cs, hu⟩, ?_⟩
    intro e he
    rw [hent] at he
    have he2 : e ∈ cs.map (fun c => pathJoin x.1 c.name) :=
      (sortStrings_perm _).mem_iff.1 he
    obtain ⟨c, hc, rfl⟩ := List.mem_map.1 he2
    have hmem : (x.1, Tree.dir n m cs) ∈ Tree.nodes "/" t.sorted := by rw [← hu]; exact hx
    exact List.mem_map.2 ⟨_, Tree.child_mem_nodes t.sorted "/" x.1 n m cs c hmem hc, rfl⟩
  obtain ⟨fs1, hp1, hp2⟩ := populateEntries_ok
    ((Tree.nodes "/" t.sorted).filterMap (fun x => Tree.dirEntry x.1 x.2))
    (declaredFS gz (Tree.nodes "/" t.sorted)) (by
      intro de hde
      obtain ⟨⟨x, hx, hx1, n, m, cs, hx2⟩, hent⟩ := hclosed de hde
      refine ⟨?_, fun e he => (hdom e).2 (hent e he)⟩
      rw [← hx1, declaredFS_of_mem gz hnd2 (show (x.1, x.2) ∈ _ from hx), hx2]
      exact ⟨_, rfl⟩)
  refine ⟨_, hwalk, hbuf, hnd2, ?_, hdom, fs1, ?_, fun p => by rw [hp2]; exact hdom p⟩
  · intro de hde
    rw [show Tree.paths "/" t.sorted = (Tree.nodes "/" t.sorted).map (·.1) from rfl, hdirs]
      at hde
    obtain ⟨⟨x, hx, hx1, _⟩, hent⟩ := hclosed de hde
    exact ⟨List.mem_map.2 ⟨x, hx, hx1⟩, hent⟩
  · rw [show Tree.paths "/" t.sorted = (Tree.nodes "/" t.sorted).map (·.1) from rfl, hdirs]
    exact hp1

/-! ## Well-named trees have pairwise distinct paths -/

theorem splitSlash_ne_nil (l : List Char) : splitSlash l ≠ [] := by
  induction l with
  | nil => simp [splitSlash]
  | cons c cs ih =>
    rw [splitSlash]
    split_ifs
    · simp
    · cases h : splitSlash cs <;> simp

theorem splitSlash_noSlash {n : List Char} (h : '/' ∉ n) : splitSlash n = [n] := by
  induction n with
  | nil => rfl
  | cons c cs ih =>
    have hc : c ≠ '/' := fun e => h (by simp [e])
    have hcs : '/' ∉ cs := fun e => h (List.mem_cons_of_mem _ e)
    rw [splitSlash, if_neg hc, ih hcs]

theorem splitSlash_append_slash {a : List Char} (h : '/' ∉ a) (b : List Char) :
    splitSlash (a ++ '/' :: b) = a :: splitSlash b := by
  induction a with
  | nil => simp [splitSlash]
  | cons c cs ih =>
    have hc : c ≠ '/' := fun e => h (by simp [e])
    have hcs : '/' ∉ cs := fun e => h (List.mem_cons_of_mem _ e)
    rw [List.cons_append, splitSlash, if_neg hc, ih hcs]

theorem splitSlash_intercalate : ∀ (segs : List (List Char)), segs ≠ [] →
    (∀ x ∈ segs, '/' ∉ x) → splitSlash (List.intercalate ['/'] segs) = segs
  | [], h, _ => absurd rfl h
  | [a], _, hs => by
    simpa [List.intercalate] using splitSlash_noSlash (hs a (List.mem_singleton_self a))
  | a :: b :: rest, _, hs => by
    have ih := splitSlash_intercalate (b :: rest) (by simp)
      (fun x hx => hs x (List.mem_cons_of_mem _ hx))
    have e : List.intercalate ['/'] (a :: b :: rest) =
        a ++ '/' :: List.intercalate ['/'] (b :: rest) := by
      simp [List.intercalate]
    rw [e, splitSlash_append_slash (hs a (List.mem_cons_self _ _)), ih]

theorem splitSlash_append (a b : List Char) :
    splitSlash (a ++ '/' :: b) = splitSlash a ++ splitSlash b := by
  induction a with
  | nil => simp [splitSlash]
  | cons c cs ih =>
    rw [List.cons_append, splitSlash, splitSlash, ih]
    split_ifs
    · rfl
    · cases h : splitSlash cs with
      | nil => exact absurd h (splitSlash_ne_nil cs)
      | cons x xs => rfl

theorem foldl_cleanStep_good : ∀ (segs out : List (List Char)),
    (∀ x ∈ segs, x = [] ∨ (x ≠ [] ∧ x ≠ ['.'] ∧ x ≠ ['.', '.'])) →
    segs.foldl (cleanStep true) out = (segs.filter (fun x => decide (x ≠ []))).reverse ++ out
  | [], out, _ => by simp
  | x :: segs, out, h => by
    have ih := foldl_cleanStep_good segs (cleanStep true out x)
      (fun y hy => h y (List.mem_cons_of_mem _ hy))
    rw [List.foldl_cons, ih]
    rcases h x (List.mem_cons_self _ _) with rfl | ⟨h1, h2, h3⟩
    · simp [cleanStep]
    · simp [cleanStep, h1, h2, h3, List.filter_cons]

/-- `path.Clean` on a rooted path whose elements are empty or ordinary names:
the names are kept, with one slash before each. -/
theorem pathClean_rooted (X : List Char)
    (h : ∀ x ∈ splitSlash X, x = [] ∨ (x ≠ [] ∧ x ≠ ['.'] ∧ x ≠ ['.', '.'])) :
    pathClean (String.mk ('/' :: X)) =
      String.mk ('/' :: List.intercalate ['/']
        ((splitSlash X).filter (fun x => decide (x ≠ [])))) := by
  have hs : splitSlash ('/' :: X) = [] :: splitSlash X := by simp [splitSlash]
  have hf := foldl_cleanStep_good (splitSlash X) [] h
  have hcs : cleanStep true [] [] = [] := by simp [cleanStep]
  have hd : decide True = true := rfl
  simp only [pathClean, List.head?_cons, hs, List.foldl_cons, hd]
  rw [hcs, hf]
  simp

theorem goodName_parts {n : String} (h : goodName n) :
    n.data = [] ∨ (n.data ≠ [] ∧ n.data ≠ ['.'] ∧ n.data ≠ ['.', '.']) :=
  Or.inr ⟨h.1, h.2.2.1, h.2.2.2⟩

theorem splitSlash_renderBody (pre : List String) (hpre : ∀ n ∈ pre, goodName n) :
    (splitSlash (List.intercalate ['/'] (pre.map String.data))).filter
        (fun x => decide (x ≠ [])) = pre.map String.data ∧
      ∀ x ∈ splitSlash (List.intercalate ['/'] (pre.map String.data)),
        x = [] ∨ (x ≠ [] ∧ x ≠ ['.'] ∧ x ≠ ['.', '.']) := by
  cases pre with
  | nil => simp [List.intercalate, splitSlash]
  | cons a rest =>
    have hs := splitSlash_intercalate ((a :: rest).map String.data) (by simp)
      (by
        intro x hx
        obtain ⟨n, hn, rfl⟩ := List.mem_map.1 hx
        exact (hpre n hn).2.1)
    rw [hs]
    refine ⟨?_, ?_⟩
    · rw [List.filter_eq_self]
      intro x hx
      obtain ⟨n, hn, rfl⟩ := List.mem_map.1 hx
      simpa using (hpre n hn).1
    · intro x hx
      obtain ⟨n, hn, rfl⟩ := List.mem_map.1 hx
      exact goodName_parts (hpre n hn)

/-- `path.Join` of the path of a sequence of good names and one more good
name is the path of the longer sequence. -/
theorem pathJoin_renderPath (pre : List String) (n : String) (hpre : ∀ x ∈ pre, goodName x)
    (hn : goodName n) : pathJoin (renderPath pre) n = renderPath (pre ++ [n]) := by
  obtain ⟨hf, hg⟩ := splitSlash_renderBody pre hpre
  have hsplit : splitSlash (List.intercalate ['/'] (pre.map String.data) ++ '/' :: n.data) =
      splitSlash (List.intercalate ['/'] (pre.map String.data)) ++ [n.data] := by
    rw [splitSlash_append, splitSlash_noSlash hn.2.1]
  have hclean := pathClean_rooted
    (List.intercalate ['/'] (pre.map String.data) ++ '/' :: n.data) (by
      rw [hsplit]
      intro x hx
      rcases List.mem_append.1 hx with hx | hx
      · exact hg x hx
      · rw [List.mem_singleton] at hx
        rw [hx]
        exact goodName_parts hn)
  have h1 : (renderPath pre).data ≠ [] := by simp [renderPath]
  have h2 : n.data ≠ [] := hn.1
  unfold pathJoin
  have hc1 : ¬ ((renderPath pre).data = [] ∧ n.data = []) := fun h => h1 h.1
  rw [if_neg hc1, if_neg h1, if_neg h2]
  have hd : (renderPath pre).data ++ '/' :: n.data =
      '/' :: (List.intercalate ['/'] (pre.map String.data) ++ '/' :: n.data) := by
    simp [renderPath]
  rw [hd, hclean, hsplit, List.filter_append, hf]
  have hfn : [n.data].filter (fun x => decide (x ≠ [])) = [n.data] := by
    simp [List.filter_cons, h2]
  rw [hfn]
  simp [renderPath]

theorem joinAll_renderPath : ∀ (rest pre : List String), (∀ x ∈ pre, goodName x) →
    (∀ x ∈ rest, goodName x) → rest.foldl pathJoin (renderPath pre) = renderPath (pre ++ rest)
  | [], pre, _, _ => by simp
  | n :: rest, pre, hpre, hrest => by
    rw [List.foldl_cons, pathJoin_renderPath pre n hpre (hrest n (List.mem_cons_self _ _)),
      joinAll_renderPath rest (pre ++ [n])
        (by
          intro x hx
          rcases List.mem_append.1 hx with hx | hx
          · exact hpre x hx
          · rw [List.mem_singleton] at hx
            rw [hx]
            exact hrest n (List.mem_cons_self _ _))
        (fun x hx => hrest x (List.mem_cons_of_mem _ hx))]
    simp

theorem joinAll_root_eq_renderPath (names : List String) (h : ∀ x ∈ names, goodName x) :
    joinAll "/" names = renderPath names := by
  have h0 : ("/" : String) = renderPath [] := by decide
  rw [joinAll, h0, joinAll_renderPath names [] (by simp) h]
  simp

theorem renderPath_injective {a b : List String} (ha : ∀ x ∈ a, goodName x)
    (hb : ∀ x ∈ b, goodName x) (h : renderPath a = renderPath b) : a = b := by
  have h1 : List.intercalate ['/'] (a.map String.data) =
      List.intercalate ['/'] (b.map String.data) := by
    have h' := congrArg String.data h
    simpa [renderPath] using h'
  have hdata : ∀ {x y : List String}, x.map String.data = y.map String.data → x = y := by
    intro x y hxy
    apply List.map_injective_iff.2 _ hxy
    intro s1 s2 hs
    cases s1; cases s2; simp_all
  have hne : ∀ (y : String) (ys : List String), goodName y →
      List.intercalate ['/'] ((y :: ys).map String.data) ≠ [] := by
    intro y ys hy he
    cases ys with
    | nil => simp [List.intercalate] at he; exact hy.1 he
    | cons z zs => simp [List.intercalate] at he
  cases a with
  | nil =>
    cases b with
    | nil => rfl
    | cons y ys => exact absurd h1.symm (hne y ys (hb y (List.mem_cons_self _ _)))
  | cons x xs =>
    cases b with
    | nil => exact absurd h1 (hne x xs (ha x (List.mem_cons_self _ _)))
    | cons y ys =>
      have sa := splitSlash_intercalate ((x :: xs).map String.data) (by simp) (by
        intro z hz
        obtain ⟨n, hn, rfl⟩ := List.mem_map.1 hz
        exact (ha n hn).2.1)
      have sb := splitSlash_intercalate ((y :: ys).map String.data) (by simp) (by
        intro z hz
        obtain ⟨n, hn, rfl⟩ := List.mem_map.1 hz
        exact (hb n hn).2.1)
      rw [h1, sb] at sa
      exact hdata sa.symm

mutual
/-- In a well-named tree every entry is reached by good names. -/
theorem Tree.nameSeqs_good : ∀ (t : Tree) (pre : List String), t.wellNamed = true →
    ∀ x ∈ Tree.nameSeqs pre t, ∃ r, x = pre ++ r ∧ ∀ n ∈ r, goodName n
  | .file _ _ _, pre, _, x, hx => by
    simp only [Tree.nameSeqs, List.mem_singleton] at hx
    exact ⟨[], by simp [hx], by simp⟩
  | .bad _ _ _, pre, _, x, hx => by
    simp only [Tree.nameSeqs, List.mem_singleton] at hx
    exact ⟨[], by simp [hx], by simp⟩
  | .dir _ _ cs, pre, hw, x, hx => by
    simp only [Tree.wellNamed, Bool.and_eq_true, decide_eq_true_eq, List.all_eq_true] at hw
    simp only [Tree.nameSeqs, List.mem_cons] at hx
    rcases hx with hx | hx
    · exact ⟨[], by simp [hx], by simp⟩
    · obtain ⟨c, hc, r, hr, hgood⟩ := Tree.nameSeqsList_good cs pre hw.2 x hx
      refine ⟨c.name :: r, hr, ?_⟩
      intro n hn
      rcases List.mem_cons.1 hn with rfl | hn
      · exact hw.1.2 _ (List.mem_map.2 ⟨c, hc, rfl⟩)
      · exact hgood n hn
/-- The statement of `Tree.nameSeqs_good` below a directory. -/
theorem Tree.nameSeqsList_good : ∀ (cs : List Tree) (pre : List String),
    Tree.wellNamedList cs = true → ∀ x ∈ Tree.nameSeqsList pre cs,
    ∃ c ∈ cs, ∃ r, x = pre ++ c.name :: r ∧ ∀ n ∈ r, goodName n
  | [], pre, _, x, hx => by simp [Tree.nameSeqsList] at hx
  | c :: cs, pre, hw, x, hx => by
    simp only [Tree.wellNamedList, Bool.and_eq_true] at hw
    simp only [Tree.nameSeqsList, List.mem_append] at hx
    rcases hx with hx | hx
    · obtain ⟨r, hr, hgood⟩ := Tree.nameSeqs_good c (pre ++ [c.name]) hw.1 x hx
      exact ⟨c, List.mem_cons_self _ _, r, by simp [hr], hgood⟩
    · obtain ⟨d, hd, r, hr, hgood⟩ := Tree.nameSeqsList_good cs pre hw.2 x hx
      exact ⟨d, List.mem_cons_of_mem _ hd, r, hr, hgood⟩
end

mutual
/-- In a well-named tree no two entries are reached by the same names. -/
theorem Tree.nameSeqs_nodup : ∀ (t : Tree) (pre : List String), t.wellNamed = true →
    (Tree.nameSeqs pre t).Nodup
  | .file _ _ _, pre, _ => by simp [Tree.nameSeqs]
  | .bad _ _ _, pre, _ => by simp [Tree.nameSeqs]
  | .dir _ _ cs, pre, hw => by
    simp only [Tree.wellNamed, Bool.and_eq_true, decide_eq_true_eq, List.all_eq_true] at hw
    rw [Tree.nameSeqs, List.nodup_cons]
    refine ⟨?_, Tree.nameSeqsList_nodup cs pre hw.1.1 hw.2⟩
    intro hmem
    obtain ⟨c, _, r, hr⟩ := Tree.nameSeqsList_prefix cs pre pre hmem
    have := congrArg List.length hr
    simp at this
/-- The statement of `Tree.nameSeqs_nodup` below a directory. -/
theorem Tree.nameSeqsList_nodup : ∀ (cs : List Tree) (pre : List String),
    (cs.map Tree.name).Nodup → Tree.wellNamedList cs = true →
    (Tree.nameSeqsList pre cs).Nodup
  | [], pre, _, _ => by simp [Tree.nameSeqsList]
  | c :: cs, pre, hn, hw => by
    simp only [Tree.wellNamedList, Bool.and_eq_true] at hw
    rw [List.map_cons, List.nodup_cons] at hn
    rw [Tree.nameSeqsList, List.nodup_append]
    refine ⟨Tree.nameSeqs_nodup c _ hw.1, Tree.nameSeqsList_nodup cs pre hn.2 hw.2, ?_⟩
    intro x hx1 hx2
    obtain ⟨r1, hr1⟩ := Tree.nameSeqs_prefix c _ x hx1
    obtain ⟨d, hd, r2, hr2⟩ := Tree.nameSeqsList_prefix cs pre x hx2
    rw [hr1, List.append_assoc] at hr2
    have h := List.append_cancel_left hr2
    simp only [List.singleton_append, List.cons.injEq] at h
    exact hn.1 (List.mem_map.2 ⟨d, hd, h.1.symm⟩)
end

/-- The paths of a well-named tree placed at `/` are pairwise distinct. -/
theorem Tree.paths_nodup_of_wellNamed (t : Tree) (hw : t.wellNamed = true) :
    (Tree.paths "/" t).Nodup := by
  have h := Tree.paths_eq_nameSeqs "/" t []
  have h0 : joinAll "/" [] = "/" := rfl
  rw [h0] at h
  rw [h]
  apply List.Nodup.map_on _ (Tree.nameSeqs_nodup t [] hw)
  intro x hx y hy hxy
  obtain ⟨rx, hrx, hgx⟩ := Tree.nameSeqs_good t [] hw x hx
  obtain ⟨ry, hry, hgy⟩ := Tree.nameSeqs_good t [] hw y hy
  rw [List.nil_append] at hrx hry
  subst hrx hry
  rw [joinAll_root_eq_renderPath x hgx, joinAll_root_eq_renderPath y hgy] at hxy
  exact renderPath_injective hgx hgy hxy

theorem sampleTree_wellNamed : sampleTree.wellNamed = true := by decide

/-- Claim C20. After a successful `findAndWriteFiles` on the file system of a
finite tree placed at `/` (in every directory the names are good names and
pairwise distinct, every entry can be opened, fuel for its depth, the table
of contents empty at the start): the buffer has gained one block for each
visited entry, keyed by the path of the entry; these keys, the paths visited,
are pairwise distinct; the path of every recorded directory and every path in
its `Entries` is one of the keys; the keys are exactly the keys of the map the
blocks declare; and the statements of the template `DirEntries` run on that
map without a panic: no type assertion meets a path that was not declared,
and the keys of the map stay the same. -/
theorem generated_keys_distinct_and_closed (T : Templates) (gz : List Byte → List Byte)
    (t : Tree) (fuel : Nat) (s0 : GenState) (hw : t.wellNamed = true)
    (hg : Tree.allGood "/" t) (hd : t.depth ≤ fuel) (hs0 : s0.toc.dirs = []) :
    ∃ s1 : GenState,
      findAndWriteFiles T gz (treeFS "/" t) fuel s0 = some (s1, none) ∧
      s1.buf = s0.buf ++ (Tree.nodes "/" t.sorted).flatMap (fun x => Tree.block T gz x.1 x.2) ∧
      (Tree.paths "/" t.sorted).Nodup ∧
      (∀ de ∈ s1.toc.dirs, de.Path ∈ Tree.paths "/" t.sorted ∧
        ∀ e ∈ de.Entries, e ∈ Tree.paths "/" t.sorted) ∧
      (∀ p, (declaredFS gz (Tree.nodes "/" t.sorted) p).isSome = true ↔
        p ∈ Tree.paths "/" t.sorted) ∧
      ∃ fs1, populateEntries (declaredFS gz (Tree.nodes "/" t.sorted)) s1.toc.dirs = some fs1 ∧
        ∀ p, (fs1 p).isSome = true ↔ p ∈ Tree.paths "/" t.sorted :=
  findAndWriteFiles_keys_closed T gz t fuel s0 (Tree.paths_nodup_of_wellNamed t hw) hg hd hs0

/-- A run of C20 on `sampleTree`: the four keys are distinct and the
population of the entries succeeds. -/
theorem generated_keys_distinct_and_closed_witness :
    (Tree.paths "/" sampleTree.sorted).Nodup ∧
      ∃ s1 : GenState,
        findAndWriteFiles ⟨fun _ => [], fun _ => [], fun _ => [], fun _ => [], fun _ => []⟩
          (fun b => b) (treeFS "/" sampleTree) 3 ⟨[], ⟨[], false, false⟩⟩ = some (s1, none) ∧
        ∃ fs1, populateEntries (declaredFS (fun b => b) (Tree.nodes "/" sampleTree.sorted))
          s1.toc.dirs = some fs1 := by
  obtain ⟨s1, h1, _, h3, _, _, fs1, h6, _⟩ := generated_keys_distinct_and_closed
    ⟨fun _ => [], fun _ => [], fun _ => [], fun _ => [], fun _ => []⟩ (fun b => b) sampleTree 3
    ⟨[], ⟨[], false, false⟩⟩ (by decide) (by decide) (by decide) rfl
  exact ⟨h3, s1, h1, fs1, h6⟩

/-! ## `StatToByte` on the generated file system -/

/-- The error that `StatToByte` returns is never `nil`. -/
theorem StatToByte_err_isSome (assets : httpFileSystem) (fname : String) :
    (StatToByte assets fname).all (fun r => r.err.isSome) = true := by
  unfold StatToByte
  cases assets fname with
  | none => rfl
  | some r =>
    cases r with
    | error e => rfl
    | ok file =>
      simp only
      cases file.Stat with
      | error e => rfl
      | ok size =>
        simp only
        by_cases hs : size < 0
        · simp [hs]
        · simp only [hs, if_false]
          cases file.Read (List.replicate size.toNat 0) with
          | none => rfl
          | some res =>
            obtain ⟨nx, e, fil⟩ := res
            simp only
            by_cases hn : nx = 0 <;> simp [hn]

/-- Claim C22, at failing inputs. The error `StatToByte` returns is never
`nil`, whatever the file system and the name. On a generated file system with
the raw file `/a.txt` of the bytes 104, 105 and the empty raw file `/empty`:
for `/a.txt`, where `Open`, `Stat` and `Read` all succeed, it returns the two
bytes together with the error "OK\n"; for `/empty`, where they succeed too, it
returns the error "File read error"; for a name the map lacks it returns
"File open error". -/
theorem StatToByte_error_on_success :
    (∀ (assets : httpFileSystem) (fname : String),
      (StatToByte assets fname).all (fun r => r.err.isSome) = true) ∧
    StatToByte (sampleAssets.httpFileSystem ⟨[], false, true⟩ (fun _ => none)) "/a.txt" =
      some ⟨[104, 105], some (Error.other "OK\n"), [("/a.txt was red", 0)]⟩ ∧
    StatToByte (sampleAssets.httpFileSystem ⟨[], false, true⟩ (fun _ => none)) "/empty" =
      some ⟨[], some (Error.other "File read error"), [("File read error", 1)]⟩ ∧
    StatToByte (sampleAssets.httpFileSystem ⟨[], false, true⟩ (fun _ => none)) "/none" =
      some ⟨[], some (Error.other "File open error"), [("File open error", 1)]⟩ :=
  ⟨StatToByte_err_isSome, rfl, rfl, rfl⟩

/-! ## The generated file system: the indices of `Read` on a compressed file -/

/-- The copy loop of `Read` panics exactly when it has a round to run and the
last index it would reach lies outside the buffer or outside the data. -/
theorem vfsgenCompressedFile.copyLoop_eq_none_iff (bf : List Byte) :
    ∀ (k i : Nat) (p : List Byte),
      vfsgenCompressedFile.copyLoop bf k i p = none ↔
        0 < k ∧ (p.length < i + k ∨ bf.length < i + k)
  | 0, i, p => by simp [vfsgenCompressedFile.copyLoop]
  | k + 1, i, p => by
    rw [vfsgenCompressedFile.copyLoop]
    by_cases hi : i < p.length
    · simp only [hi, if_true]
      cases hb : bf.get? i with
      | none =>
        have : bf.length ≤ i := List.get?_eq_none.1 hb
        simp; omega
      | some b =>
        have hlt : i < bf.length := by
          by_contra hc
          rw [List.get?_eq_none.2 (by omega)] at hb
          exact absurd hb (by simp)
        simp only
        rw [vfsgenCompressedFile.copyLoop_eq_none_iff bf k (i + 1) (p.set i b)]
        simp only [List.length_set]
        constructor
        · rintro ⟨hk, h⟩
          exact ⟨by omega, by omega⟩
        · rintro ⟨_, h⟩
          by_cases hk : k = 0
          · subst hk; omega
          · exact ⟨by omega, by omega⟩
    · simp only [hi, if_false, true_iff]
      exact ⟨by omega, Or.inl (by omega)⟩

theorem vfsgenCompressedFile.Read_eq_none_iff (f : vfsgenCompressedFile) (p : List Byte) :
    vfsgenCompressedFile.Read f p = none ↔
      (p.length < f.info.uncompressedSize.toNat ∨ f.gr.length < f.info.uncompressedSize.toNat) := by
  unfold vfsgenCompressedFile.Read
  simp only
  cases h : vfsgenCompressedFile.copyLoop f.gr f.info.uncompressedSize.toNat 0 p with
  | none =>
    have := (vfsgenCompressedFile.copyLoop_eq_none_iff f.gr _ 0 p).1 h
    simp only [true_iff]
    omega
  | some p1 =>
    refine ⟨fun hc => absurd hc (by simp), fun hc => ?_⟩
    have : vfsgenCompressedFile.copyLoop f.gr f.info.uncompressedSize.toNat 0 p = none :=
      (vfsgenCompressedFile.copyLoop_eq_none_iff f.gr _ 0 p).2 ⟨by omega, by omega⟩
    rw [this] at h
    exact absurd h (by simp)

theorem vfsgenCompressedFile.Read_count (f : vfsgenCompressedFile) (p : List Byte) :
    (vfsgenCompressedFile.Read f p).all (fun r => decide (r.1 ≤ p.length)) = true := by
  cases h : vfsgenCompressedFile.Read f p with
  | none => rfl
  | some r =>
    have hne : ¬ vfsgenCompressedFile.Read f p = none := by rw [h]; simp
    rw [vfsgenCompressedFile.Read_eq_none_iff] at hne
    unfold vfsgenCompressedFile.Read at h
    simp only at h
    cases h2 : vfsgenCompressedFile.copyLoop f.gr f.info.uncompressedSize.toNat 0 p with
    | none => rw [h2] at h; simp at h
    | some p1 =>
      rw [h2] at h
      simp only [Option.some.injEq] at h
      subst h
      simp only [Option.all_some, decide_eq_true_eq]
      omega

/-- Claim C23, at failing inputs. `Read` on a compressed file panics exactly
when the buffer or the data the gzip reader has left is shorter than the
uncompressed size; a call that returns has a count of at most `len(p)`. So on
an opened compressed file of the bytes 10, 20, 30, 40: a `Read` into a buffer
of 2 bytes panics; a `Read` into a buffer of 5 bytes returns 4 and the four
bytes; and the second `Read` into a buffer of 5 bytes, after that one has
consumed the stream, panics. -/
theorem vfsgenCompressedFile_Read_index_out_of_range :
    (∀ (f : vfsgenCompressedFile) (p : List Byte),
      (vfsgenCompressedFile.Read f p = none ↔
        (p.length < f.info.uncompressedSize.toNat ∨
          f.gr.length < f.info.uncompressedSize.toNat)) ∧
      (vfsgenCompressedFile.Read f p).all (fun r => decide (r.1 ≤ p.length)) = true) ∧
    vfsgenCompressedFile.Read sampleCompressed [0, 0] = none ∧
    (vfsgenCompressedFile.Read sampleCompressed [0, 0, 0, 0, 0]).map
        (fun r => (r.1, r.2.1, r.2.2.1)) = some (4, none, [10, 20, 30, 40, 0]) ∧
    (vfsgenCompressedFile.Read sampleCompressed [0, 0, 0, 0, 0]).bind
        (fun r => vfsgenCompressedFile.Read r.2.2.2 [0, 0, 0, 0, 0]) = none :=
  ⟨fun f p => ⟨vfsgenCompressedFile.Read_eq_none_iff f p, vfsgenCompressedFile.Read_count f p⟩,
    by decide, by decide, by decide⟩

/-! ## The order of the listings does not matter -/

/-- Two lists that are rearrangements of each other and agree under `f`,
position by position, are equal when the values of `f` are pairwise
distinct. -/
theorem eq_of_perm_of_map_eq {α β : Type} (f : α → β) :
    ∀ (l1 l2 : List α), l1.Perm l2 → (l1.map f).Nodup → l1.map f = l2.map f → l1 = l2
  | [], l2, hp, _, _ => (List.Perm.nil_eq hp)
  | a :: l1, [], hp, _, _ => absurd (List.Perm.eq_nil hp) (by simp)
  | a :: l1, b :: l2, hp, hn, he => by
    simp only [List.map_cons, List.cons.injEq] at he
    obtain ⟨hab, he⟩ := he
    rw [List.map_cons, List.nodup_cons] at hn
    have hb : b ∈ a :: l1 := hp.symm.subset (List.mem_cons_self _ _)
    have hba : b = a := by
      rcases List.mem_cons.1 hb with h | h
      · exact h
      · exact absurd (hab ▸ List.mem_map_of_mem f h) hn.1
    subst hba
    rw [eq_of_perm_of_map_eq f l1 l2 (List.Perm.cons_inv hp) hn.2 he]

theorem Tree.eq_of_perm_of_nameSorted {l1 l2 : List Tree} (hp : l1.Perm l2)
    (h1 : l1.Sorted Tree.nameLE) (h2 : l2.Sorted Tree.nameLE)
    (hn : (l1.map Tree.name).Nodup) : l1 = l2 := by
  apply eq_of_perm_of_map_eq Tree.name l1 l2 hp hn
  apply @List.eq_of_perm_of_sorted _ strLE _ _ _ (hp.map _)
  · exact List.pairwise_map.2 h1
  · exact List.pairwise_map.2 h2

theorem Tree.depthList_perm {l1 l2 : List Tree} (h : l1.Perm l2) :
    Tree.depthList l1 = Tree.depthList l2 := by
  induction h with
  | nil => rfl
  | cons x _ ih => simp only [Tree.depthList, ih]
  | swap x y l => simp only [Tree.depthList]; omega
  | trans _ _ ih1 ih2 => exact ih1.trans ih2

mutual
theorem Tree.sameTree_sorted : ∀ (t1 t2 : Tree), Tree.sameTree t1 t2 → t1.wellNamed = true →
    t1.sorted = t2.sorted ∧ t1.depth = t2.depth
  | .file n m c, t2, h, _ => by
    simp only [Tree.sameTree] at h
    subst h
    exact ⟨rfl, rfl⟩
  | .bad n a e, t2, h, _ => by
    simp only [Tree.sameTree] at h
    subst h
    exact ⟨rfl, rfl⟩
  | .dir n m cs, t2, h, hw => by
    simp only [Tree.sameTree] at h
    obtain ⟨ds, rfl, hl⟩ := h
    simp only [Tree.wellNamed, Bool.and_eq_true, decide_eq_true_eq, List.all_eq_true] at hw
    obtain ⟨hperm, hdep⟩ := Tree.sameList_sorted cs ds hl hw.2
    refine ⟨?_, ?_⟩
    · simp only [Tree.sorted, Tree.dir.injEq, true_and]
      apply Tree.eq_of_perm_of_nameSorted _ (Tree.sortedList_sorted cs) (Tree.sortedList_sorted ds)
      · rw [Tree.map_name_sortedList]
        exact (sortStrings_perm _).nodup_iff.2 hw.1.1
      · exact (Tree.sortedList_perm cs).trans (hperm.trans (Tree.sortedList_perm ds).symm)
    · simp only [Tree.depth, hdep]
theorem Tree.sameList_sorted : ∀ (cs ds : List Tree), Tree.sameList cs ds →
    Tree.wellNamedList cs = true →
    (cs.map Tree.sorted).Perm (ds.map Tree.sorted) ∧ Tree.depthList cs = Tree.depthList ds
  | [], ds, h, _ => by
    simp only [Tree.sameList] at h
    subst h
    exact ⟨List.Perm.refl _, rfl⟩
  | c :: cs, ds, h, hw => by
    simp only [Tree.sameList] at h
    obtain ⟨d, rest, hp, hcd, hrest⟩ := h
    simp only [Tree.wellNamedList, Bool.and_eq_true] at hw
    obtain ⟨h1, h2⟩ := Tree.sameTree_sorted c d hcd hw.1
    obtain ⟨h3, h4⟩ := Tree.sameList_sorted cs rest hrest hw.2
    constructor
    · rw [List.map_cons, h1]
      exact (List.Perm.cons _ h3).trans (hp.map _).symm
    · rw [Tree.depthList_perm hp, Tree.depthList, Tree.depthList, h2, h4]
end

mutual
theorem walkTree_congr {σ : Type} (f g : WalkFilesFunc σ) : ∀ (t : Tree) (path : String) (s : σ),
    (∀ x ∈ Tree.nodes path t, ∀ s, Tree.call f s x.1 x.2 = Tree.call g s x.1 x.2) →
    walkTree f path t s = walkTree g path t s
  | .file n m c, path, s, h => by
    have h0 := h (path, .file n m c) (by simp [Tree.nodes]) s
    simpa only [walkTree, Tree.call] using h0
  | .bad n a e, path, s, h => by
    have h0 := h (path, .bad n a e) (by simp [Tree.nodes]) s
    simpa only [walkTree, Tree.call] using h0
  | .dir n m cs, path, s, h => by
    have h0 := h (path, .dir n m cs) (by simp [Tree.nodes]) s
    simp only [Tree.call] at h0
    simp only [walkTree]
    rw [h0]
    rcases g s path (some (Tree.info (.dir n m cs))) (some (Tree.reader (.dir n m cs))) none
      with ⟨s1, _ | e⟩
    · exact walkTreeList_congr f g cs path s1 (fun x hx => h x (by simp [Tree.nodes, hx]))
    · rfl
theorem walkTreeList_congr {σ : Type} (f g : WalkFilesFunc σ) :
    ∀ (cs : List Tree) (path : String) (s : σ),
    (∀ x ∈ Tree.nodesList path cs, ∀ s, Tree.call f s x.1 x.2 = Tree.call g s x.1 x.2) →
    walkTreeList f path cs s = walkTreeList g path cs s
  | [], _, _, _ => rfl
  | c :: cs, path, s, h => by
    have ih := fun s1 => walkTreeList_congr f g cs path s1
      (fun x hx => h x (by simp [Tree.nodesList, hx]))
    simp only [walkTreeList]
    rw [walkTree_congr f g c (pathJoin path c.name) s
      (fun x hx => h x (by simp [Tree.nodesList, hx]))]
    rcases walkTree g (pathJoin path c.name) c s with ⟨s1, _ | e⟩ <;> simp only [ih]
end


theorem walkFn_call_treeFS (T : Templates) (gz : List Byte → List Byte) (t1 t2 : Tree)
    (hs : t1.sorted = t2.sorted) (h1 : (Tree.paths "/" t1).Nodup)
    (h2 : (Tree.paths "/" t2).Nodup) :
    ∀ x ∈ Tree.nodes "/" t1.sorted, ∀ s,
      Tree.call (findAndWriteFiles.walkFn T gz (treeFS "/" t1)) s x.1 x.2 =
        Tree.call (findAndWriteFiles.walkFn T gz (treeFS "/" t2)) s x.1 x.2 := by
  intro x hx s
  obtain ⟨n1, hn1, hx1⟩ := Tree.mem_nodes_sorted hx
  obtain ⟨n2, hn2, hx2⟩ := Tree.mem_nodes_sorted (hs ▸ hx)
  obtain ⟨q, u⟩ := x
  simp only at hn1 hx1 hn2 hx2 ⊢
  cases u with
  | file n m c => simp [Tree.call, findAndWriteFiles.walkFn, Tree.info]
  | bad n a e => simp [Tree.call, findAndWriteFiles.walkFn]
  | dir n m cs =>
    have hf1 := treeFS_resolves h1 _ _ hn1
    have hf2 := treeFS_resolves h2 _ _ hn2
    have he : Tree.dirEntry q n1 = Tree.dirEntry q n2 := by
      rw [← Tree.dirEntry_sorted q n1, ← Tree.dirEntry_sorted q n2, ← hx1, ← hx2]
    cases n1 with
    | file => simp [Tree.sorted] at hx1
    | bad => simp [Tree.sorted] at hx1
    | dir a1 b1 cs1 =>
      cases n2 with
      | file => simp [Tree.sorted] at hx2
      | bad => simp [Tree.sorted] at hx2
      | dir a2 b2 cs2 =>
        simp only [Tree.dirEntry, Option.some.injEq, dirInfo.mk.injEq, true_and] at he
        simp only [Tree.call]
        rw [walkFn_dir T gz _ s q _ _ _ rfl (readDirPaths_of_dir hf1),
          walkFn_dir T gz _ s q _ _ _ rfl (readDirPaths_of_dir hf2), he.2]

/-- Two file systems that hold the same well-named tree under different
orders of the listings give the same walk and the same generated state. -/
theorem findAndWriteFiles_sameTree (T : Templates) (gz : List Byte → List Byte)
    (t1 t2 : Tree) (fuel : Nat) (s0 : GenState) (hsame : Tree.sameTree t1 t2)
    (hw : t1.wellNamed = true) (hd : t1.depth ≤ fuel) :
    findAndWriteFiles T gz (treeFS "/" t1) fuel s0 =
        some (walkTree (findAndWriteFiles.walkFn T gz (treeFS "/" t1)) "/" t1.sorted s0) ∧
      findAndWriteFiles T gz (treeFS "/" t2) fuel s0 =
        some (walkTree (findAndWriteFiles.walkFn T gz (treeFS "/" t1)) "/" t1.sorted s0) := by
  obtain ⟨hs, hdep⟩ := Tree.sameTree_sorted t1 t2 hsame hw
  have hn1 := Tree.paths_nodup_of_wellNamed t1 hw
  have hn2 : (Tree.paths "/" t2).Nodup := by
    have hp := (Tree.paths_sorted_perm t2 "/").symm.trans (hs ▸ Tree.paths_sorted_perm t1 "/")
    exact hp.nodup_iff.2 hn1
  refine ⟨WalkFiles_treeFS _ "/" t1 fuel s0 hn1 hd, ?_⟩
  unfold findAndWriteFiles
  rw [WalkFiles_treeFS _ "/" t2 fuel s0 hn2 (hdep ▸ hd), ← hs]
  congr 1
  exact (walkTree_congr _ _ t1.sorted "/" s0 (walkFn_call_treeFS T gz t1 t2 hs hn1 hn2)).symm

/-- Claim C21. Let `t2` be the well-named tree `t1` with the entries of its
directories listed in other orders, and let the fuel cover the depth. Then on
the file systems of the two trees: `WalkFiles` returns, and returns the same
result, for every callback and start state, so the callback that records the
paths records the same sequence; `findAndWriteFiles` returns the same state
(the emitted bytes and the table of contents with the `Entries` of every
directory) and error; and `Generate`, with the same options, returns the same
file name, bytes and error. -/
theorem Generate_independent_of_listing_order (toLower : String → String)
    (O : OuterTemplates) (T : Templates) (gz : List Byte → List Byte)
    (writeErr : Option Error) (opt : Options) (t1 t2 : Tree) (fuel : Nat)
    (hsame : Tree.sameTree t1 t2) (hw : t1.wellNamed = true) (hd : t1.depth ≤ fuel) :
    (∀ (σ : Type) (walkFn : WalkFilesFunc σ) (s : σ), ∃ r,
      WalkFiles (treeFS "/" t1) "/" walkFn fuel s = some r ∧
        WalkFiles (treeFS "/" t2) "/" walkFn fuel s = some r) ∧
    (∃ r, WalkFiles (treeFS "/" t1) "/" recordPath fuel [] = some r ∧
      WalkFiles (treeFS "/" t2) "/" recordPath fuel [] = some r) ∧
    (∀ s0 : GenState, ∃ r,
      findAndWriteFiles T gz (treeFS "/" t1) fuel s0 = some r ∧
        findAndWriteFiles T gz (treeFS "/" t2) fuel s0 = some r) ∧
    (∃ r, Generate toLower O T gz writeErr (treeFS "/" t1) opt fuel = some r ∧
      Generate toLower O T gz writeErr (treeFS "/" t2) opt fuel = some r) := by
  obtain ⟨hs, hdep⟩ := Tree.sameTree_sorted t1 t2 hsame hw
  have hn1 := Tree.paths_nodup_of_wellNamed t1 hw
  have hn2 : (Tree.paths "/" t2).Nodup :=
    ((Tree.paths_sorted_perm t2 "/").symm.trans (hs ▸ Tree.paths_sorted_perm t1 "/")).nodup_iff.2
      hn1
  have hwalk : ∀ (σ : Type) (walkFn : WalkFilesFunc σ) (s : σ), ∃ r,
      WalkFiles (treeFS "/" t1) "/" walkFn fuel s = some r ∧
        WalkFiles (treeFS "/" t2) "/" walkFn fuel s = some r := fun σ walkFn s =>
    ⟨_, WalkFiles_treeFS walkFn "/" t1 fuel s hn1 hd,
      by rw [WalkFiles_treeFS walkFn "/" t2 fuel s hn2 (hdep ▸ hd), hs]⟩
  have hgen := fun s0 => findAndWriteFiles_sameTree T gz t1 t2 fuel s0 hsame hw hd
  refine ⟨hwalk, hwalk _ recordPath [], fun s0 => ⟨_, (hgen s0).1, (hgen s0).2⟩, ?_⟩
  obtain ⟨h1, h2⟩ := hgen { buf := O.Header (opt.fillMissing toLower), toc := ⟨[], false, false⟩ }
  generalize walkTree (findAndWriteFiles.walkFn T gz (treeFS "/" t1)) "/" t1.sorted
    { buf := O.Header (opt.fillMissing toLower), toc := ⟨[], false, false⟩ } = w at h1 h2
  obtain ⟨s1, _ | e⟩ := w
  · exact ⟨{ written := some ((opt.fillMissing toLower).Filename,
        s1.buf ++ O.DirEntries s1.toc.dirs ++ O.Trailer s1.toc), err := writeErr },
      by simp only [Generate, h1], by simp only [Generate, h2]⟩
  · exact ⟨{ written := none, err := some e }, by simp only [Generate, h1],
      by simp only [Generate, h2]⟩

/-- A run of C21 on `sampleTree` and `sampleTreeReordered`, which lists the
entries of `/` in the other order: the walks record the same paths and
`Generate` returns the same result. -/
theorem Generate_independent_of_listing_order_witness :
    Tree.sameTree sampleTree sampleTreeReordered ∧
      WalkFiles (treeFS "/" sampleTree) "/" recordPath 3 [] =
        WalkFiles (treeFS "/" sampleTreeReordered) "/" recordPath 3 [] ∧
      Generate (fun x => x) ⟨fun _ => [], fun _ => [], fun _ => []⟩
          ⟨fun _ => [], fun _ => [], fun _ => [], fun _ => [], fun _ => []⟩ (fun b => b) none
          (treeFS "/" sampleTree) ⟨"", "", "", "", ""⟩ 3 =
        Generate (fun x => x) ⟨fun _ => [], fun _ => [], fun _ => []⟩
          ⟨fun _ => [], fun _ => [], fun _ => [], fun _ => [], fun _ => []⟩ (fun b => b) none
          (treeFS "/" sampleTreeReordered) ⟨"", "", "", "", ""⟩ 3 := by
  have hsame : Tree.sameTree sampleTree sampleTreeReordered := by
    simp only [sampleTree, sampleTreeReordered, Tree.sameTree, Tree.sameList]
    exact ⟨_, rfl, _, _, List.Perm.swap _ _ _, rfl, _, _, List.Perm.refl _,
      ⟨_, rfl, _, _, List.Perm.refl _, rfl, rfl⟩, rfl⟩
  obtain ⟨_, ⟨r1, h1, h2⟩, _, ⟨r2, h3, h4⟩⟩ := Generate_independent_of_listing_order
    (fun x => x) ⟨fun _ => [], fun _ => [], fun _ => []⟩
    ⟨fun _ => [], fun _ => [], fun _ => [], fun _ => [], fun _ => []⟩ (fun b => b) none
    ⟨"", "", "", "", ""⟩ sampleTree sampleTreeReordered 3 hsame (by decide) (by decide)
  exact ⟨hsame, h1.trans h2.symm, h3.trans h4.symm⟩

end VV
